import Mathlib

/-! # pseudo-l10n: the single-string pseudo-localization transform

A shallow embedding of `src/index.js` (`pseudoLocalize`, `buildPlaceholderRegex`,
`reconstructPlaceholder`, `processObject`) and of `src/pseudo-locale-generator.js` (the
option parsing, `pseudoLocalize`, `processObject`), together with the ECMAScript built-ins
these functions call (`String.prototype.indexOf`, `substring`, `split`, `replace`, `repeat`,
`match`, `slice`, `trim`, `parseInt`, `RegExp` construction and matching for the patterns
that occur, property assignment on a plain object).

Conventions of the embedding:

* A JavaScript string is a finite sequence of UTF-16 code units; it is a list of natural
  numbers, one per code unit.  Strings are unbounded; the engine-specific maximum string
  length is a parameter of the definitions whose names end in `Within`, which repeat
  `pseudoLocalize` of `src/index.js` for an engine with that maximum.  Other resource
  limits of an engine (memory, the size of a compiled pattern) are not represented.
* A call that can throw returns `Except JSError`.
* `pseudoLocalize` takes the merged configuration `{ ...DEFAULT_OPTIONS, ...options }`;
  a call with some options set is `{ DEFAULT_OPTIONS with ... }`.
* `String.prototype.toUpperCase` (the Unicode upper-casing) is a parameter.
* A resource tree is a `JSValue`; a mapping is the list of its own properties in
  enumeration order.
* The definitions of `src/pseudo-locale-generator.js` are in the namespace `CLI`.
* `Math.ceil((length * expansion) / 100)` is the exact integer ceiling; in double precision
  this is what the expression computes as long as the product stays below `2 ^ 53`.
-/

namespace PseudoL10n

/-! ## Strings -/

/-- A JavaScript string: the list of its UTF-16 code units. -/
abbrev JSString := List Nat

/-- UTF-16 encoding of one Unicode scalar value. -/
def utf16 (c : Char) : JSString :=
  if c.toNat < 65536 then [c.toNat]
  else [55296 + (c.toNat - 65536) / 1024, 56320 + (c.toNat - 65536) % 1024]

/-- The JavaScript string denoted by a string literal. -/
def js (s : String) : JSString := s.toList.flatMap utf16

/-- Errors thrown by the embedded code: `new Error(message)` and the built-in `RangeError`
and `SyntaxError`.  `StepBudget` is not a JavaScript error: it marks a run of the embedding
whose step budget ran out. -/
inductive JSError where
  | Error (message : JSString)
  | RangeError
  | SyntaxError
  | StepBudget
  deriving DecidableEq, Repr

/-- ECMAScript `LineTerminator`: LF, CR, U+2028, U+2029.  The pattern atom `.` (without the
`s` flag) matches every code unit except these. -/
def isLineTerminator (c : Nat) : Bool :=
  c == 10 || c == 13 || c == 8232 || c == 8233

/-- `String.prototype.indexOf(searchString)` from position 0, as a search over the
remaining input: the offset of the first occurrence, if any. -/
def indexOfFrom (pat : JSString) : JSString → Option Nat
  | [] => if pat.isPrefixOf [] then some 0 else none
  | c :: s =>
    if pat.isPrefixOf (c :: s) then some 0
    else (indexOfFrom pat s).map (· + 1)

/-- `String.prototype.indexOf(searchString)`: the smallest index at which `pat` occurs in
`s`, or `-1`. -/
def indexOf (s pat : JSString) : Int :=
  match indexOfFrom pat s with
  | some i => (i : Int)
  | none => -1

/-- `String.prototype.substring(start, end)` for `0 ≤ start ≤ end`. -/
def substring (s : JSString) (start stop : Nat) : JSString :=
  (s.take stop).drop start

/-- `String.prototype.substring(start)` for `0 ≤ start`. -/
def substringFrom (s : JSString) (start : Nat) : JSString :=
  s.drop start

/-! ## Regular expressions

`buildPlaceholderRegex` passes a pattern source text to `new RegExp(pattern, "g")`.  The
embedding parses the fragment of the ECMAScript pattern grammar that is needed: a
concatenation of pattern characters, identity escapes of syntax characters, and the
capturing group `(.*?)`.  Any other pattern text is rejected (`none`), which stands for
"outside the embedded fragment". -/

/-- ECMAScript `SyntaxCharacter`: one of `^ $ \ . * + ? ( ) [ ] { } |`. -/
def isSyntaxCharacter (c : Nat) : Bool :=
  c == 94 || c == 36 || c == 92 || c == 46 || c == 42 || c == 43 || c == 63 ||
  c == 40 || c == 41 || c == 91 || c == 93 || c == 123 || c == 125 || c == 124

/-- A term of a parsed pattern. -/
inductive Term where
  /-- A pattern character or an identity escape: matches exactly this code unit. -/
  | char (c : Nat)
  /-- The capturing group `(.*?)`: a lazy run of non-line-terminator code units. -/
  | lazyAnyGroup
  deriving DecidableEq, Repr

/-- Parse a pattern source text (non-Unicode mode: one pattern character per code unit),
reading left to right.  `skip` counts the code units ahead that belong to the term just
read (the escaped character after a backslash, the `.*?)` after an opening parenthesis). -/
def parseFrom : Nat → JSString → Option (List Term)
  | _, [] => some []
  | skip + 1, _ :: r => parseFrom skip r
  | 0, c :: r =>
    if c = 92 then
      match r with
      | d :: _ => if isSyntaxCharacter d then (parseFrom 1 r).map (Term.char d :: ·) else none
      | [] => none
    else if c = 40 then
      if List.isPrefixOf [46, 42, 63, 41] r then
        (parseFrom 4 r).map (Term.lazyAnyGroup :: ·)
      else none
    else if isSyntaxCharacter c then none
    else (parseFrom 0 r).map (Term.char c :: ·)

/-- Parse a whole pattern source text. -/
def parsePattern (pattern : JSString) : Option (List Term) :=
  parseFrom 0 pattern

/-- The atom-with-quantifier `.*?` followed by the continuation `k`: backtracking tries the
shortest run first, extending it by one non-line-terminator code unit at a time.  `acc` is
the run consumed so far, most recent code unit first. -/
def lazyAny {α : Type} (k : JSString → Option α) (acc : JSString) :
    JSString → Option (JSString × α)
  | [] =>
    match k [] with
    | some r => some (acc.reverse, r)
    | none => none
  | c :: s =>
    match k (c :: s) with
    | some r => some (acc.reverse, r)
    | none => if isLineTerminator c then none else lazyAny k (c :: acc) s

/-- Match a parsed pattern at the start of `s` (a sticky match): on success, the captured
groups in order and the input remaining after the match. -/
def matchTerms : List Term → JSString → Option (List JSString × JSString)
  | [], s => some ([], s)
  | Term.char c :: ts, s =>
    match s with
    | d :: s2 => if d = c then matchTerms ts s2 else none
    | [] => none
  | Term.lazyAnyGroup :: ts, s =>
    match lazyAny (matchTerms ts) [] s with
    | some (cap, caps, rest) => some (cap :: caps, rest)
    | none => none

/-- A `RegExp` object: its source text and its parsed pattern. -/
structure RegExp where
  source : JSString
  terms : List Term
  global : Bool
  deriving DecidableEq, Repr

/-- The call `new RegExp(pattern, "g")`; a pattern that does not parse is a `SyntaxError`. -/
def newRegExp (pattern : JSString) : Except JSError RegExp :=
  match parsePattern pattern with
  | some ts => .ok { source := pattern, terms := ts, global := true }
  | none => .error JSError.SyntaxError

/-- The loop of `RegExp.prototype[Symbol.split]` (ECMAScript 22.2.6.14, no limit) over a
non-empty input.  `seg` holds the code units between the end `p` of the previous match and
the current position `q`, most recent first; the last argument is the input from `q` on.
Each step matches at `q`: on failure, or when the match ends at `p`, `q` advances by one;
otherwise the text from `p` to `q` and the captures are appended and both `p` and `q` move
to the end `e` of the match.  `none` means the step budget ran out. -/
def splitLoop (ts : List Term) : Nat → JSString → JSString → Option (List JSString)
  | 0, _, _ => none
  | _ + 1, seg, [] => some [seg.reverse]
  | fuel + 1, seg, c :: rest =>
    match matchTerms ts (c :: rest) with
    | none => splitLoop ts fuel (c :: seg) rest
    | some (caps, rest2) =>
      if seg = [] ∧ rest2.length = (c :: rest).length then
        splitLoop ts fuel (c :: seg) rest
      else
        (splitLoop ts fuel [] rest2).map (fun parts => seg.reverse :: (caps ++ parts))

/-- The call `S.split(regex)`: `RegExp.prototype[Symbol.split]`.  For the empty input the
result is `[]` when the pattern matches it and `[S]` otherwise. -/
def split (S : JSString) (R : RegExp) : Option (List JSString) :=
  match S with
  | [] =>
    match matchTerms R.terms [] with
    | some _ => some []
    | none => some [[]]
  | _ :: _ => splitLoop R.terms (2 * S.length + 1) [] S

/-- The call `String.prototype.repeat(count)` for a finite count, when strings have no
maximum length: a negative count is a `RangeError`.  The call on an engine with a maximum
string length, and with an infinite count, is `strRepeatWithin`. -/
def strRepeat (s : JSString) (count : Int) : Except JSError JSString :=
  if count < 0 then .error JSError.RangeError
  else .ok (List.replicate count.toNat s).flatten

/-- The abstract operation `GetSubstitution` for a string search value (no captures): in the
replacement text, `$$` stands for `$`, `$&` for the matched text, `$` followed by a backtick
for the text before the match, and `$` followed by an apostrophe for the text after it;
everything else is copied. -/
def getSubstitution (matched before after : JSString) : JSString → JSString
  | [] => []
  | c :: r =>
    if c = 36 then
      match r with
      | d :: r2 =>
        if d = 36 then 36 :: getSubstitution matched before after r2
        else if d = 38 then matched ++ getSubstitution matched before after r2
        else if d = 96 then before ++ getSubstitution matched before after r2
        else if d = 39 then after ++ getSubstitution matched before after r2
        else 36 :: d :: getSubstitution matched before after r2
      | [] => [36]
    else c :: getSubstitution matched before after r

/-- The call `S.replace(searchString, replaceValue)` with two strings: the first occurrence
of `searchString` is replaced by the substitution of `replaceValue`. -/
def replaceFirst (S searchString replaceValue : JSString) : JSString :=
  match indexOfFrom searchString S with
  | none => S
  | some pos =>
    let before := S.take pos
    let after := S.drop (pos + searchString.length)
    before ++ getSubstitution searchString before after replaceValue ++ after

/-! ## `src/index.js` -/

/-- An object whose properties hold strings: the list of its (name, value) pairs.  The
property read `obj[name]` is `List.lookup`. -/
abbrev AccentMap := List (JSString × JSString)

/-- The table `DEFAULT_ACCENT_MAP`. -/
def DEFAULT_ACCENT_MAP : AccentMap :=
  [("a", "à"), ("b", "ƀ"), ("c", "ç"), ("d", "đ"), ("e", "ë"), ("f", "ƒ"), ("g", "ğ"),
   ("h", "ĥ"), ("i", "ï"), ("j", "ĵ"), ("k", "ķ"), ("l", "ļ"), ("m", "ɱ"), ("n", "ñ"),
   ("o", "õ"), ("p", "ƥ"), ("q", "ɋ"), ("r", "ř"), ("s", "š"), ("t", "ţ"), ("u", "ü"),
   ("v", "ṽ"), ("w", "ŵ"), ("x", "ẋ"), ("y", "ý"), ("z", "ž"),
   ("A", "À"), ("B", "ß"), ("C", "Ç"), ("D", "Đ"), ("E", "Ë"), ("F", "Ƒ"), ("G", "Ğ"),
   ("H", "Ħ"), ("I", "Ï"), ("J", "Ĵ"), ("K", "Ķ"), ("L", "Ļ"), ("M", "Ṁ"), ("N", "Ñ"),
   ("O", "Õ"), ("P", "Ƥ"), ("Q", "Ɋ"), ("R", "Ř"), ("S", "Š"), ("T", "Ť"), ("U", "Ü"),
   ("V", "Ṽ"), ("W", "Ŵ"), ("X", "Ẍ"), ("Y", "Ŷ"), ("Z", "Ž")].map
    (fun kv => (js kv.1, js kv.2))

/-- The configuration after `{ ...DEFAULT_OPTIONS, ...options }`. -/
structure Config where
  expansion : Int
  placeholderFormat : JSString
  replacePlaceholders : Bool
  startMarker : JSString
  endMarker : JSString
  rtl : Bool
  reversePlaceholders : Bool
  accentMap : AccentMap
  expansionChar : JSString

/-- The object `DEFAULT_OPTIONS`. -/
def DEFAULT_OPTIONS : Config where
  expansion := 40
  placeholderFormat := js "{{key}}"
  replacePlaceholders := false
  startMarker := js "⟦"
  endMarker := js "⟧"
  rtl := false
  reversePlaceholders := true
  accentMap := DEFAULT_ACCENT_MAP
  expansionChar := js "ē"

/-- The character class of `escapeRegex`: `[.*+?^${}()|[\]\\]`. -/
def isEscapedChar (c : Nat) : Bool :=
  c == 46 || c == 42 || c == 43 || c == 63 || c == 94 || c == 36 || c == 123 ||
  c == 125 || c == 40 || c == 41 || c == 124 || c == 91 || c == 93 || c == 92

/-- The helper `escapeRegex`: `str.replace(/[.*+?^${}()|[\]\\]/g, "\\$&")` puts a backslash
before every code unit of the class. -/
def escapeRegex (str : JSString) : JSString :=
  str.flatMap (fun c => if isEscapedChar c then [92, c] else [c])

/-- The text of the `Error` thrown by `buildPlaceholderRegex`. -/
def missingKeyMessage : JSString := js "Placeholder format must contain \"key\""

/-- The constant `keyPlaceholder` of `buildPlaceholderRegex`. -/
def keyPlaceholder : JSString := js "key"

/-- The local `prefix` of `buildPlaceholderRegex`: `format.substring(0, keyIndex)`. -/
def formatPrefix (format : JSString) : JSString :=
  substring format 0 (indexOf format keyPlaceholder).toNat

/-- The local `suffix` of `buildPlaceholderRegex`:
`format.substring(keyIndex + keyPlaceholder.length)`. -/
def formatSuffix (format : JSString) : JSString :=
  substringFrom format ((indexOf format keyPlaceholder).toNat + keyPlaceholder.length)

/-- The function `buildPlaceholderRegex`. -/
def buildPlaceholderRegex (format : JSString) : Except JSError RegExp :=
  let keyIndex := indexOf format keyPlaceholder
  if keyIndex = -1 then
    .error (JSError.Error missingKeyMessage)
  else
    let pattern := escapeRegex (formatPrefix format) ++ js "(.*?)" ++
      escapeRegex (formatSuffix format)
    newRegExp pattern

/-- The function `reconstructPlaceholder`: `format.replace("key", content)`. -/
def reconstructPlaceholder (content format : JSString) : JSString :=
  replaceFirst format (js "key") content

/-- The claimed reading of a split result: the parts in order, each part at an odd index
(a placeholder content) wrapped again as `pre ++ content ++ suf`, concatenated. -/
def reassemble (pre suf : JSString) : Nat → List JSString → JSString
  | _, [] => []
  | index, part :: parts =>
    (if index % 2 = 1 then pre ++ part ++ suf else part) ++
      reassemble pre suf (index + 1) parts

/-- The property read `config.accentMap[char] || char`: the mapped value when it exists and
is truthy (a non-empty string), otherwise the code unit itself. -/
def accentOf (accentMap : AccentMap) (char : Nat) : JSString :=
  match accentMap.lookup [char] with
  | some v => if v = [] then [char] else v
  | none => [char]

/-- The call `part.replace(/./g, (char) => config.accentMap[char] || char)`: every code
unit matched by `.` is replaced by the callback's result; line terminators are not matched
and stay. -/
def replaceAccents (accentMap : AccentMap) (part : JSString) : JSString :=
  part.flatMap (fun c => if isLineTerminator c then [c] else accentOf accentMap c)

/-- The value `Math.ceil((length * expansion) / 100)`.  The product and quotient are exact in
double precision for the magnitudes a string length and a percentage take. -/
def padLengthOf (length : Nat) (expansion : Int) : Int :=
  -((-((length : Int) * expansion)) / 100)

/-- The test `/[A-Za-z0-9]$/.test(part)`: the last code unit is an ASCII letter or digit. -/
def endsWithAlnum (part : JSString) : Bool :=
  match part.getLast? with
  | some c => (65 ≤ c && c ≤ 90) || (97 ≤ c && c ≤ 122) || (48 ≤ c && c ≤ 57)
  | none => false

/-- The character class escape `\s`: ECMAScript `WhiteSpace` and `LineTerminator`. -/
def isWhiteSpaceClass (c : Nat) : Bool :=
  c == 9 || c == 10 || c == 11 || c == 12 || c == 13 || c == 32 || c == 160 ||
  c == 5760 || (8192 ≤ c && c ≤ 8202) || c == 8232 || c == 8233 || c == 8239 ||
  c == 8287 || c == 12288 || c == 65279

/-- The character class `[\s.,;:!?'"()\[\]{}<>-]`. -/
def isTrailingChar (c : Nat) : Bool :=
  isWhiteSpaceClass c || c == 46 || c == 44 || c == 59 || c == 58 || c == 33 || c == 63 ||
  c == 39 || c == 34 || c == 40 || c == 41 || c == 91 || c == 93 || c == 123 ||
  c == 125 || c == 60 || c == 62 || c == 45

/-- The tail `([\s.,;:!?'"()\[\]{}<>-]*)$` of the trailing-punctuation pattern: the greedy
class run followed by the end-of-input assertion succeeds exactly when all of the remaining
input is in the class, and then captures it. -/
def trailingRun (s : JSString) : Option JSString :=
  if s.all isTrailingChar then some s else none

/-- The call `part.match(/^(.*?)([\s.,;:!?'"()\[\]{}<>-]*)$/)`: on success the two captured
groups, `null` being `none`. -/
def matchTrailing (part : JSString) : Option (JSString × JSString) :=
  lazyAny trailingRun [] part

/-- The branch of the `map` callback for a placeholder (odd index), lines 81-95. -/
def renderPlaceholder (toUpperCase : JSString → JSString) (config : Config)
    (part : JSString) : JSString :=
  let placeholderContent :=
    if config.rtl && config.reversePlaceholders then part.reverse else part
  if config.replacePlaceholders then
    [60] ++ toUpperCase placeholderContent ++ [62]
  else
    reconstructPlaceholder placeholderContent config.placeholderFormat

/-- The branch of the `map` callback for regular text (even index), lines 98-115. -/
def transformText (config : Config) (part : JSString) : Except JSError JSString :=
  let part := replaceAccents config.accentMap part
  let padLength := padLengthOf part.length config.expansion
  match strRepeat config.expansionChar padLength with
  | .error e => .error e
  | .ok pad =>
    if part.length > 0 && endsWithAlnum part == false then
      match matchTrailing part with
      | some (m1, m2) => .ok (m1 ++ pad ++ m2)
      | none => .ok (part ++ pad)
    else
      .ok (part ++ pad)

/-- The callback of `parts.map((part, index) => ...)`. -/
def mapPart (toUpperCase : JSString → JSString) (config : Config)
    (part : JSString) (index : Nat) : Except JSError JSString :=
  let isPlaceholder := index % 2 == 1
  if isPlaceholder then
    .ok (renderPlaceholder toUpperCase config part)
  else
    transformText config part

/-- The call `parts.map(callback)`, the callback applied to the elements in order with
their indices starting at `index`; the first error ends the run. -/
def mapParts (toUpperCase : JSString → JSString) (config : Config) :
    Nat → List JSString → Except JSError (List JSString)
  | _, [] => .ok []
  | index, part :: parts =>
    match mapPart toUpperCase config part index with
    | .error e => .error e
    | .ok r =>
      match mapParts toUpperCase config (index + 1) parts with
      | .error e => .error e
      | .ok rs => .ok (r :: rs)

/-- The function `pseudoLocalize`, with `config` the merged configuration.  The built-in
`String.prototype.toUpperCase` is a parameter. -/
def pseudoLocalize (toUpperCase : JSString → JSString) (str : JSString)
    (config : Config) : Except JSError JSString :=
  match buildPlaceholderRegex config.placeholderFormat with
  | .error e => .error e
  | .ok placeholderRegex =>
    match split str placeholderRegex with
    | none => .error JSError.StepBudget
    | some parts =>
      match mapParts toUpperCase config 0 parts with
      | .error e => .error e
      | .ok mapped =>
        let result := mapped.flatten
        let result := config.startMarker ++ result ++ config.endMarker
        if config.rtl then .ok ([8238] ++ result ++ [8236]) else .ok result

/-- Upper-casing of the ASCII letters, other code units unchanged: the restriction of
`String.prototype.toUpperCase` to ASCII text, used to run examples. -/
def asciiUpper (s : JSString) : JSString :=
  s.map (fun c => if 97 ≤ c ∧ c ≤ 122 then c - 32 else c)

/-- The example input `{{a`, line feed, `b}}`, by its code units. -/
def multiLinePlaceholder : JSString := [123, 123, 97, 10, 98, 125, 125]

/-- The terms of the pattern built for a format: the code units of the text before `key`,
the lazy group, the code units of the text after `key`. -/
def placeholderTerms (pre suf : JSString) : List Term :=
  pre.map Term.char ++ Term.lazyAnyGroup :: suf.map Term.char

/-! ## The specification of the matcher -/

/-- The occurrence of the placeholder pattern at the start of `s`, in the words of the
specification: `s` starts with `pre ++ content ++ suf`, where `content` is the shortest run
that is followed by `suf`, and `content` holds no line terminator; `rest` is what follows
the occurrence. -/
def IsOccurrence (pre suf content s rest : JSString) : Prop :=
  s = pre ++ content ++ suf ++ rest ∧
  (∀ x ∈ content, isLineTerminator x = false) ∧
  ∀ content2 rest2, s = pre ++ content2 ++ suf ++ rest2 → content.length ≤ content2.length

/-- An occurrence of the placeholder pattern starts at the beginning of `s`. -/
def OccursAt (pre suf s : JSString) : Prop :=
  ∃ content rest, IsOccurrence pre suf content s rest

/-- The leftmost, non-overlapping occurrences scanned left to right: `Scan pre suf s parts`
holds when `parts` lists, in order, the literal text before the first occurrence, the
content of that occurrence, the literal text up to the next occurrence after it, and so on,
ending with the literal text after the last occurrence. -/
inductive Scan (pre suf : JSString) : JSString → List JSString → Prop where
  | done (s : JSString) :
      (∀ t u, s = t ++ u → ¬ OccursAt pre suf u) → Scan pre suf s [s]
  | occurrence (s lit content rest : JSString) (parts : List JSString) :
      s = lit ++ (pre ++ content ++ suf ++ rest) →
      (∀ t u, lit = t ++ u → u ≠ [] → ¬ OccursAt pre suf (u ++ (pre ++ content ++ suf ++ rest))) →
      IsOccurrence pre suf content (pre ++ content ++ suf ++ rest) rest →
      Scan pre suf rest parts →
      Scan pre suf s (lit :: content :: parts)

/-! ## Further definitions: the wrapped transformer, resource trees, the command-line generator -/

/-- The text transformer applied to the whole input, then the markers and, under `rtl`,
the bidi controls. -/
def wrapTransformed (config : Config) (input : JSString) : Except JSError JSString :=
  match transformText config input with
  | .error e => .error e
  | .ok t =>
    .ok (if config.rtl = true then
          [8238] ++ (config.startMarker ++ t ++ config.endMarker) ++ [8236]
         else config.startMarker ++ t ++ config.endMarker)

/-- A JSON-like value.  A number is given by the bit pattern of its double; an object is the
list of its own enumerable properties in enumeration order, the names being distinct (the
prototype, `Object.prototype` for a parsed tree, is not part of the value). -/
inductive JSValue where
  | string (s : JSString)
  | number (bits : Nat)
  | boolean (b : Bool)
  | null
  | array (items : List JSValue)
  | object (props : List (JSString × JSValue))

/-- The property name `__proto__`.  On an object created by `{}` the assignment
`newObj["__proto__"] = value` runs the `__proto__` setter inherited from
`Object.prototype`: it creates no own property (it sets the prototype when `value` is an
object or `null`, and does nothing otherwise). -/
def protoKey : JSString := js "__proto__"

mutual
/-- The body shared by `processObject` of `src/index.js` and `processObject` of
`src/pseudo-locale-generator.js`, the call of `pseudoLocalize` being the parameter `pl`:
a string goes through `pl`, an array through `map`, an object through the `for ... in`
loop that assigns `newObj[key]`, anything else is returned as it is. -/
def processObjectWith (pl : JSString → Except JSError JSString) :
    JSValue → Except JSError JSValue
  | .string s =>
    match pl s with
    | .error e => .error e
    | .ok r => .ok (.string r)
  | .array items =>
    match processItems pl items with
    | .error e => .error e
    | .ok rs => .ok (.array rs)
  | .object props =>
    match processProps pl props with
    | .error e => .error e
    | .ok rs => .ok (.object rs)
  | .number bits => .ok (.number bits)
  | .boolean b => .ok (.boolean b)
  | .null => .ok .null
/-- The call `obj.map((item) => processObject(item, options))`. -/
def processItems (pl : JSString → Except JSError JSString) :
    List JSValue → Except JSError (List JSValue)
  | [] => .ok []
  | item :: items =>
    match processObjectWith pl item with
    | .error e => .error e
    | .ok r =>
      match processItems pl items with
      | .error e => .error e
      | .ok rs => .ok (r :: rs)
/-- The loop `for (const key in obj) { newObj[key] = processObject(obj[key], options); }`
over the properties in order: the assignment adds the own property `key`, except for the
name `__proto__`, which adds none. -/
def processProps (pl : JSString → Except JSError JSString) :
    List (JSString × JSValue) → Except JSError (List (JSString × JSValue))
  | [] => .ok []
  | (key, value) :: props =>
    match processObjectWith pl value with
    | .error e => .error e
    | .ok r =>
      match processProps pl props with
      | .error e => .error e
      | .ok rs => if key = protoKey then .ok rs else .ok ((key, r) :: rs)
end

/-- The function `processObject` of `src/index.js`, with `config` the merged options. -/
def processObject (toUpperCase : JSString → JSString) (obj : JSValue)
    (config : Config) : Except JSError JSValue :=
  processObjectWith (fun s => pseudoLocalize toUpperCase s config) obj

mutual
/-- Some mapping of the tree has a property named `__proto__`. -/
def hasProtoKey : JSValue → Bool
  | .array items => hasProtoKeyItems items
  | .object props => hasProtoKeyProps props
  | _ => false
/-- Some item of the list has a property named `__proto__`. -/
def hasProtoKeyItems : List JSValue → Bool
  | [] => false
  | item :: items => hasProtoKey item || hasProtoKeyItems items
/-- Some property of the list is named `__proto__` or has such a property below it. -/
def hasProtoKeyProps : List (JSString × JSValue) → Bool
  | [] => false
  | (key, value) :: props =>
    key == protoKey || hasProtoKey value || hasProtoKeyProps props
end

mutual
/-- The tree has a string leaf. -/
def hasStringLeaf : JSValue → Bool
  | .string _ => true
  | .array items => hasStringLeafItems items
  | .object props => hasStringLeafProps props
  | _ => false
/-- Some item of the list has a string leaf. -/
def hasStringLeafItems : List JSValue → Bool
  | [] => false
  | item :: items => hasStringLeaf item || hasStringLeafItems items
/-- Some property of the list has a string leaf. -/
def hasStringLeafProps : List (JSString × JSValue) → Bool
  | [] => false
  | (_, value) :: props => hasStringLeaf value || hasStringLeafProps props
end

mutual
/-- The tree `t2` has the shape of `t1`: the same container at every position, sequences of
the same length, mappings with the same keys in the same order, equal number, boolean and
null leaves, and at a string leaf `s` of `t1` the string `pl s`. -/
def SameShape (pl : JSString → Except JSError JSString) : JSValue → JSValue → Prop
  | .string s, .string r => pl s = .ok r
  | .number a, .number b => a = b
  | .boolean a, .boolean b => a = b
  | .null, .null => True
  | .array xs, .array ys => SameShapeItems pl xs ys
  | .object ps, .object qs => SameShapeProps pl ps qs
  | _, _ => False
/-- Item by item, the second list has the shape of the first. -/
def SameShapeItems (pl : JSString → Except JSError JSString) :
    List JSValue → List JSValue → Prop
  | [], [] => True
  | x :: xs, y :: ys => SameShape pl x y ∧ SameShapeItems pl xs ys
  | _, _ => False
/-- Property by property, the second list has the keys and the shape of the first. -/
def SameShapeProps (pl : JSString → Except JSError JSString) :
    List (JSString × JSValue) → List (JSString × JSValue) → Prop
  | [], [] => True
  | (k, v) :: ps, (k2, w) :: qs => k = k2 ∧ SameShape pl v w ∧ SameShapeProps pl ps qs
  | _, _ => False
end

/-- The table `accentMap` of `src/pseudo-locale-generator.js`. -/
def CLI.accentMap : AccentMap :=
  [("a", "à"), ("b", "ƀ"), ("c", "ç"), ("d", "đ"), ("e", "ë"), ("f", "ƒ"), ("g", "ğ"),
   ("h", "ĥ"), ("i", "ï"), ("j", "ĵ"), ("k", "ķ"), ("l", "ļ"), ("m", "ɱ"), ("n", "ñ"),
   ("o", "õ"), ("p", "ƥ"), ("q", "ɋ"), ("r", "ř"), ("s", "š"), ("t", "ţ"), ("u", "ü"),
   ("v", "ṽ"), ("w", "ŵ"), ("x", "ẋ"), ("y", "ý"), ("z", "ž"), ("A", "À"), ("B", "ß"),
   ("C", "Ç"), ("D", "Đ"), ("E", "Ë"), ("F", "Ƒ"), ("G", "Ğ"), ("H", "Ħ"), ("I", "Ï"),
   ("J", "Ĵ"), ("K", "Ķ"), ("L", "Ļ"), ("M", "Ṁ"), ("N", "Ñ"), ("O", "Õ"), ("P", "Ƥ"),
   ("Q", "Ɋ"), ("R", "Ř"), ("S", "Š"), ("T", "Ť"), ("U", "Ü"), ("V", "Ṽ"), ("W", "Ŵ"),
   ("X", "Ẍ"), ("Y", "Ŷ"), ("Z", "Ž")].map
    (fun kv => (js kv.1, js kv.2))

/-- The options of the generator: the variables `expansionPercent`, `replacePlaceholders`
and `rtlMode`. -/
structure CLI.Options where
  expansionPercent : Int
  replacePlaceholders : Bool
  rtlMode : Bool
  deriving DecidableEq, Repr

/-- The initial values `40`, `false`, `false` of the options. -/
def CLI.defaultOptions : CLI.Options where
  expansionPercent := 40
  replacePlaceholders := false
  rtlMode := false

/-- The call `S.split(separator)` with a separator of one code unit. -/
def splitOnUnit (sep : Nat) : JSString → List JSString
  | [] => [[]]
  | c :: s =>
    if c = sep then [] :: splitOnUnit sep s
    else
      match splitOnUnit sep s with
      | first :: more => (c :: first) :: more
      | [] => [[c]]

/-- A decimal digit `0` to `9`. -/
def isDecimalDigit (c : Nat) : Bool := 48 ≤ c && c ≤ 57

/-- The value of a run of decimal digits. -/
def digitsValue (digits : JSString) : Nat :=
  digits.foldl (fun acc d => acc * 10 + (d - 48)) 0

/-- The call `parseInt(string, 10)`: leading white space is skipped, a sign is read, then
the longest run of decimal digits; `none` is `NaN` (no digit).  The value is the integer
the digits denote, which is what `parseInt` returns for a magnitude below `2 ^ 53`; above
that `parseInt` returns the nearest double. -/
def parseInt10 (string : JSString) : Option Int :=
  let S := string.dropWhile isWhiteSpaceClass
  let negative := S.head? == some 45
  let S := if S.head? == some 45 || S.head? == some 43 then S.drop 1 else S
  let Z := S.takeWhile isDecimalDigit
  if Z = [] then none
  else if negative then some (-(digitsValue Z : Int)) else some (digitsValue Z : Int)

/-- The expression `parseInt(arg.split("=")[1], 10) || 40`: `NaN` and zero are falsy. -/
def CLI.expansionOf (arg : JSString) : Int :=
  match (splitOnUnit 61 arg)[1]? with
  | none => 40
  | some text =>
    match parseInt10 text with
    | none => 40
    | some n => if n = 0 then 40 else n

/-- The callback of `args.slice(2).forEach((arg) => ...)`. -/
def CLI.parseArg (options : CLI.Options) (arg : JSString) : CLI.Options :=
  let options :=
    if (js "--expansion=").isPrefixOf arg then
      { options with expansionPercent := CLI.expansionOf arg }
    else options
  let options :=
    if arg = js "--replacePlaceholders" then { options with replacePlaceholders := true }
    else options
  if arg = js "--rtl" then { options with rtlMode := true } else options

/-- The options after the command line `args` (`process.argv.slice(2)`): with fewer than
two arguments the process exits (`none`); otherwise the arguments after the two file names
are read in order. -/
def CLI.parseOptions (args : List JSString) : Option CLI.Options :=
  if args.length < 2 then none
  else some ((args.drop 2).foldl CLI.parseArg CLI.defaultOptions)

/-- The loop of `RegExp.prototype[Symbol.split]` over a non-empty input, as `splitLoop`,
for a pattern given by its sticky match `m` (captures and remaining input). -/
def splitLoopWith (m : JSString → Option (List JSString × JSString)) :
    Nat → JSString → JSString → Option (List JSString)
  | 0, _, _ => none
  | _ + 1, seg, [] => some [seg.reverse]
  | fuel + 1, seg, c :: rest =>
    match m (c :: rest) with
    | none => splitLoopWith m fuel (c :: seg) rest
    | some (caps, rest2) =>
      if seg = [] ∧ rest2.length = (c :: rest).length then
        splitLoopWith m fuel (c :: seg) rest
      else
        (splitLoopWith m fuel [] rest2).map (fun parts => seg.reverse :: (caps ++ parts))

/-- The call `S.split(regex)`, as `split`, for a pattern given by its sticky match `m`. -/
def splitWith (S : JSString) (m : JSString → Option (List JSString × JSString)) :
    Option (List JSString) :=
  match S with
  | [] =>
    match m [] with
    | some _ => some []
    | none => some [[]]
  | _ :: _ => splitLoopWith m (2 * S.length + 1) [] S

/-- The tail `\}\}` of the generator's pattern: the input after the two closing braces. -/
def CLI.closeBraces (t : JSString) : Option JSString :=
  if List.isPrefixOf [125, 125] t then some (t.drop 2) else none

/-- The sticky match of the generator's pattern `(\{\{.*?\}\})`: two opening braces, a lazy
run of non-line-terminators, two closing braces; group 1 is the whole match. -/
def CLI.matchPlaceholder (s : JSString) : Option (List JSString × JSString) :=
  if List.isPrefixOf [123, 123] s then
    match lazyAny CLI.closeBraces [] (s.drop 2) with
    | some (run, rest) => some ([[123, 123] ++ run ++ [125, 125]], rest)
    | none => none
  else none

/-- The call `part.slice(2, -2)`. -/
def sliceInner (part : JSString) : JSString :=
  (part.take (part.length - 2)).drop 2

/-- The call `String.prototype.trim()`: white space and line terminators are removed at
both ends. -/
def trim (s : JSString) : JSString :=
  (s.dropWhile isWhiteSpaceClass).rdropWhile isWhiteSpaceClass

/-- The callback of `.map((part) => ...)` in the generator's `pseudoLocalize`. -/
def CLI.mapPart (toUpperCase : JSString → JSString) (options : CLI.Options)
    (part : JSString) : Except JSError JSString :=
  if List.isPrefixOf [123, 123] part && List.isSuffixOf [125, 125] part then
    let placeholderName := trim (sliceInner part)
    let placeholderName :=
      if options.rtlMode then placeholderName.reverse else placeholderName
    if options.replacePlaceholders then
      .ok ([60] ++ toUpperCase placeholderName ++ [62])
    else
      .ok part
  else
    let part := replaceAccents CLI.accentMap part
    let padLength := padLengthOf part.length options.expansionPercent
    match strRepeat (js "ē") padLength with
    | .error e => .error e
    | .ok pad =>
      if part.length > 0 && endsWithAlnum part == false then
        match matchTrailing part with
        | some (m1, m2) => .ok (m1 ++ pad ++ m2)
        | none => .ok (part ++ pad)
      else
        .ok (part ++ pad)

/-- The call `parts.map(callback)` of the generator; the first error ends the run. -/
def CLI.mapParts (toUpperCase : JSString → JSString) (options : CLI.Options) :
    List JSString → Except JSError (List JSString)
  | [] => .ok []
  | part :: parts =>
    match CLI.mapPart toUpperCase options part with
    | .error e => .error e
    | .ok r =>
      match CLI.mapParts toUpperCase options parts with
      | .error e => .error e
      | .ok rs => .ok (r :: rs)

/-- The function `pseudoLocalize` of `src/pseudo-locale-generator.js`, the three option
variables being `options`. -/
def CLI.pseudoLocalize (toUpperCase : JSString → JSString) (options : CLI.Options)
    (str : JSString) : Except JSError JSString :=
  match splitWith str CLI.matchPlaceholder with
  | none => .error JSError.StepBudget
  | some parts =>
    match CLI.mapParts toUpperCase options parts with
    | .error e => .error e
    | .ok mapped =>
      let result := js "⟦" ++ mapped.flatten ++ js "⟧"
      if options.rtlMode then .ok ([8238] ++ result ++ [8236]) else .ok result

/-- The function `processObject` of `src/pseudo-locale-generator.js`. -/
def CLI.processObject (toUpperCase : JSString → JSString) (options : CLI.Options)
    (obj : JSValue) : Except JSError JSValue :=
  processObjectWith (CLI.pseudoLocalize toUpperCase options) obj

/-- The decimal digits of a natural number, most significant first. -/
def natDecimal (n : Nat) : JSString :=
  if n = 0 then [48] else ((Nat.digits 10 n).reverse).map (· + 48)

/-- The decimal text of an integer, as `String(n)` writes it. -/
def intDecimal (n : Int) : JSString :=
  if n < 0 then 45 :: natDecimal n.natAbs else natDecimal n.natAbs

/-- The wrapping of a placeholder name in the braces of the default format. -/
def wrapBraces (c : JSString) : JSString := [123, 123] ++ c ++ [125, 125]

/-- The library configuration that the generator's options correspond to: the defaults with
the given expansion, `replacePlaceholders` and `rtl`, and with `reversePlaceholders` equal to
`replacePlaceholders` (the generator reverses a name only where it replaces it). -/
def CLI.libraryConfig (options : CLI.Options) : Config :=
  { DEFAULT_OPTIONS with
    expansion := options.expansionPercent
    replacePlaceholders := options.replacePlaceholders
    rtl := options.rtlMode
    reversePlaceholders := options.replacePlaceholders }

/-- In a list of parts, the part at each odd index wrapped by `w`. -/
def wrapOdd (w : JSString → JSString) : List JSString → List JSString
  | a :: b :: rest => a :: w b :: wrapOdd w rest
  | parts => parts

/-- The parts at the odd indices. -/
def oddParts : List JSString → List JSString
  | _ :: b :: rest => b :: oddParts rest
  | _ => []

/-- The placeholder names of an input under the format `{{key}}`: the parts at the odd
indices of the library's split. -/
def placeholderNames (str : JSString) : List JSString :=
  match buildPlaceholderRegex (js "{{key}}") with
  | .error _ => []
  | .ok R =>
    match split str R with
    | none => []
    | some parts => oddParts parts

/-- The parts at the even indices. -/
def evenParts : List JSString → List JSString
  | a :: _ :: rest => a :: evenParts rest
  | parts => parts

/-- The literal segments of an input under a format: the parts at the even indices of the
library's split, which are the text before, between and after the placeholders. -/
def literalSegments (format str : JSString) : List JSString :=
  match buildPlaceholderRegex format with
  | .error _ => []
  | .ok R =>
    match split str R with
    | none => []
    | some parts => evenParts parts

/-- The test `part.startsWith("{{") && part.endsWith("}}")` of the generator's callback. -/
def CLI.isPlaceholder (part : JSString) : Bool :=
  List.isPrefixOf [123, 123] part && List.isSuffixOf [125, 125] part

/-- A text holds a replacement pattern of `String.prototype.replace` with a string search
value: a `$` directly followed by `$`, `&`, a backtick or an apostrophe.  These are the
patterns that `GetSubstitution` expands; every other `$` is copied. -/
def hasReplacementPattern : JSString → Bool
  | [] => false
  | c :: r =>
    (c == 36 && (r.head? == some 36 || r.head? == some 38 || r.head? == some 96 ||
      r.head? == some 39)) || hasReplacementPattern r

/-! ## The maximum string length

An engine builds no string longer than an implementation-defined maximum (ECMAScript allows
at most `2 ^ 53 - 1` code units; V8, the engine of Node.js, allows `2 ^ 29 - 24`), and the
operation that would build a longer one throws a `RangeError`.  The definitions below repeat
`pseudoLocalize` of `src/index.js` and the functions it calls, with this maximum as the
parameter `maxLength`: every step that can build a string longer than the strings it reads
checks the length of its result.  The strings passed in (the input, the format, the markers,
the expansion character, the values of the accent map) exist, so they are within the
maximum, and so is every part of them. -/

/-- A string just built, on an engine whose strings hold at most `maxLength` code units:
building a longer one throws a `RangeError` ("Invalid string length"). -/
def fits (maxLength : Nat) (s : JSString) : Except JSError JSString :=
  if s.length ≤ maxLength then .ok s else .error JSError.RangeError

/-- The least magnitude that rounds to an infinite Number: `2 ^ 1024 - 2 ^ 970`, half a unit
in the last place above the largest finite double `2 ^ 1024 - 2 ^ 971`.  It is written as
`(2 ^ 54 - 1) * 2 ^ 970` with `2 ^ 970 = (2 ^ 97) ^ 10`. -/
def infiniteFrom : Nat := (2 ^ 54 - 1) * (2 ^ 97) ^ 10

/-- The Number `Math.ceil((length * expansion) / 100)`; `none` is `Infinity` or `-Infinity`,
the value when the product overflows.  While the product is below `2 ^ 53` in magnitude the
double arithmetic gives the exact ceiling `padLengthOf`.  From `2 ^ 53` on the double is a
rounded value of at least `2 ^ 53 / 100`, as is the exact ceiling, and both lead `repeat` to
the same outcome for every `maxLength` below `2 ^ 53 / 100`. -/
def padLengthNumber (length : Nat) (expansion : Int) : Option Int :=
  if infiniteFrom ≤ ((length : Int) * expansion).natAbs then none
  else some (padLengthOf length expansion)

/-- The call `String.prototype.repeat(count)` on an engine with a maximum string length: a
`RangeError` for a negative or infinite count, and for a result longer than `maxLength`. -/
def strRepeatWithin (maxLength : Nat) (s : JSString) (count : Option Int) :
    Except JSError JSString :=
  match count with
  | none => .error JSError.RangeError
  | some n =>
    if n < 0 then .error JSError.RangeError
    else if n.toNat * s.length ≤ maxLength then .ok (List.replicate n.toNat s).flatten
    else .error JSError.RangeError

/-- The local `pattern` of `buildPlaceholderRegex`: the escaped prefix, the text `(.*?)` and
the escaped suffix. -/
def patternText (format : JSString) : JSString :=
  escapeRegex (formatPrefix format) ++ js "(.*?)" ++ escapeRegex (formatSuffix format)

/-- The function `buildPlaceholderRegex` on an engine with a maximum string length: the
pattern text (which holds both escaped texts) is a string just built. -/
def buildPlaceholderRegexWithin (maxLength : Nat) (format : JSString) :
    Except JSError RegExp :=
  let keyIndex := indexOf format keyPlaceholder
  if keyIndex = -1 then
    .error (JSError.Error missingKeyMessage)
  else
    match fits maxLength (patternText format) with
    | .error e => .error e
    | .ok pattern => newRegExp pattern

/-- The branch of the `map` callback for a placeholder (odd index), lines 81-95, on an
engine with a maximum string length: the upper-cased content, the text `<...>` and the
result of `reconstructPlaceholder` are strings just built (a reversed content is as long as
the part). -/
def renderPlaceholderWithin (maxLength : Nat) (toUpperCase : JSString → JSString)
    (config : Config) (part : JSString) : Except JSError JSString :=
  let placeholderContent :=
    if config.rtl && config.reversePlaceholders then part.reverse else part
  if config.replacePlaceholders then
    match fits maxLength (toUpperCase placeholderContent) with
    | .error e => .error e
    | .ok upper => fits maxLength ([60] ++ upper ++ [62])
  else
    fits maxLength (reconstructPlaceholder placeholderContent config.placeholderFormat)

/-- The branch of the `map` callback for regular text (even index), lines 98-115, on an
engine with a maximum string length: the substituted part, the pad and the returned
concatenation are strings just built. -/
def transformTextWithin (maxLength : Nat) (config : Config) (part : JSString) :
    Except JSError JSString :=
  match fits maxLength (replaceAccents config.accentMap part) with
  | .error e => .error e
  | .ok part =>
    let padLength := padLengthNumber part.length config.expansion
    match strRepeatWithin maxLength config.expansionChar padLength with
    | .error e => .error e
    | .ok pad =>
      if part.length > 0 && endsWithAlnum part == false then
        match matchTrailing part with
        | some (m1, m2) => fits maxLength (m1 ++ pad ++ m2)
        | none => fits maxLength (part ++ pad)
      else
        fits maxLength (part ++ pad)

/-- The callback of `parts.map((part, index) => ...)` on an engine with a maximum string
length. -/
def mapPartWithin (maxLength : Nat) (toUpperCase : JSString → JSString) (config : Config)
    (part : JSString) (index : Nat) : Except JSError JSString :=
  let isPlaceholder := index % 2 == 1
  if isPlaceholder then
    renderPlaceholderWithin maxLength toUpperCase config part
  else
    transformTextWithin maxLength config part

/-- The call `parts.map(callback)` on an engine with a maximum string length; the first
error ends the run. -/
def mapPartsWithin (maxLength : Nat) (toUpperCase : JSString → JSString) (config : Config) :
    Nat → List JSString → Except JSError (List JSString)
  | _, [] => .ok []
  | index, part :: parts =>
    match mapPartWithin maxLength toUpperCase config part index with
    | .error e => .error e
    | .ok r =>
      match mapPartsWithin maxLength toUpperCase config (index + 1) parts with
      | .error e => .error e
      | .ok rs => .ok (r :: rs)

/-- The function `pseudoLocalize` of `src/index.js` on an engine with a maximum string
length: besides the steps of the callback, the joined text, the text between the markers and
the text between the bidi controls are strings just built. -/
def pseudoLocalizeWithin (maxLength : Nat) (toUpperCase : JSString → JSString)
    (str : JSString) (config : Config) : Except JSError JSString :=
  match buildPlaceholderRegexWithin maxLength config.placeholderFormat with
  | .error e => .error e
  | .ok placeholderRegex =>
    match split str placeholderRegex with
    | none => .error JSError.StepBudget
    | some parts =>
      match mapPartsWithin maxLength toUpperCase config 0 parts with
      | .error e => .error e
      | .ok mapped =>
        match fits maxLength mapped.flatten with
        | .error e => .error e
        | .ok result =>
          match fits maxLength (config.startMarker ++ result ++ config.endMarker) with
          | .error e => .error e
          | .ok result =>
            if config.rtl then fits maxLength ([8238] ++ result ++ [8236]) else .ok result

/-! ## Built-ins: search, pattern parsing and matching -/

theorem indexOfFrom_none (pat : JSString) :
    ∀ s : JSString, indexOfFrom pat s = none ↔ ¬ pat <:+: s := by
  intro s
  induction s with
  | nil =>
    simp only [indexOfFrom]
    cases pat with
    | nil => simp
    | cons a p => simp [List.isPrefixOf]
  | cons c s ih =>
    simp only [indexOfFrom]
    by_cases h : pat.isPrefixOf (c :: s) = true
    · simp only [h, if_true]
      have hp : pat <+: c :: s := List.isPrefixOf_iff_prefix.mp h
      simp [hp.isInfix]
    · simp only [h]
      have hp : ¬ pat <+: c :: s := fun hp => h (List.isPrefixOf_iff_prefix.mpr hp)
      simp only [Bool.false_eq_true, if_false, Option.map_eq_none', ih]
      rw [List.infix_cons_iff]
      tauto

theorem indexOfFrom_some (pat : JSString) :
    ∀ (s : JSString) (i : Nat), indexOfFrom pat s = some i →
      s = s.take i ++ pat ++ s.drop (i + pat.length) := by
  intro s
  induction s with
  | nil =>
    intro i h
    simp only [indexOfFrom] at h
    cases pat with
    | nil => simp
    | cons a p => simp [List.isPrefixOf] at h
  | cons c s ih =>
    intro i h
    simp only [indexOfFrom] at h
    by_cases hp : pat.isPrefixOf (c :: s) = true
    · simp only [hp, if_true, Option.some.injEq] at h
      subst h
      obtain ⟨t, ht⟩ := List.isPrefixOf_iff_prefix.mp hp
      rw [← ht]
      simp
    · simp only [hp, Bool.false_eq_true, if_false, Option.map_eq_some'] at h
      obtain ⟨j, hj, rfl⟩ := h
      have := ih j hj
      simp only [List.take_succ_cons, List.cons_append, List.cons.injEq, true_and]
      rw [Nat.add_right_comm, List.drop_succ_cons]
      exact this

theorem indexOf_eq_neg_one (s pat : JSString) : indexOf s pat = -1 ↔ ¬ pat <:+: s := by
  unfold indexOf
  cases h : indexOfFrom pat s with
  | none => simpa using (indexOfFrom_none pat s).mp h
  | some i =>
    have : ¬ indexOfFrom pat s = none := by simp [h]
    rw [indexOfFrom_none] at this
    simp only [this, not_false_eq_true, iff_false]
    omega

theorem format_split (format : JSString) (h : keyPlaceholder <:+: format) :
    format = formatPrefix format ++ keyPlaceholder ++ formatSuffix format := by
  unfold formatPrefix formatSuffix substring substringFrom indexOf
  cases hi : indexOfFrom keyPlaceholder format with
  | none => exact absurd h ((indexOfFrom_none _ _).mp hi)
  | some i =>
    have := indexOfFrom_some _ _ _ hi
    simpa using this

theorem isEscapedChar_eq (c : Nat) : isEscapedChar c = isSyntaxCharacter c := by
  unfold isEscapedChar isSyntaxCharacter
  rw [Bool.eq_iff_iff]
  simp only [Bool.or_eq_true, beq_iff_eq]
  tauto

theorem parsePattern_backslash (d : Nat) (r : JSString) :
    parsePattern (92 :: d :: r) =
      if isSyntaxCharacter d then (parsePattern r).map (Term.char d :: ·) else none := by
  simp [parsePattern, parseFrom]

theorem parsePattern_char (c : Nat) (r : JSString) (h92 : c ≠ 92) (h40 : c ≠ 40)
    (hs : isSyntaxCharacter c = false) :
    parsePattern (c :: r) = (parsePattern r).map (Term.char c :: ·) := by
  simp [parsePattern, parseFrom, h92, h40, hs]

theorem parsePattern_group (r : JSString) :
    parsePattern (js "(.*?)" ++ r) = (parsePattern r).map (Term.lazyAnyGroup :: ·) := by
  have : js "(.*?)" = [40, 46, 42, 63, 41] := by decide
  rw [this]
  simp [parsePattern, parseFrom]

theorem parsePattern_escapeRegex_append (p r : JSString) :
    parsePattern (escapeRegex p ++ r) = (parsePattern r).map (p.map Term.char ++ ·) := by
  induction p with
  | nil => simp [escapeRegex]
  | cons c p ih =>
    have hstep : escapeRegex (c :: p) ++ r =
        (if isEscapedChar c then [92, c] else [c]) ++ (escapeRegex p ++ r) := by
      simp [escapeRegex]
    rw [hstep]
    by_cases hc : isEscapedChar c = true
    · have hs : isSyntaxCharacter c = true := by rw [← isEscapedChar_eq]; exact hc
      simp only [hc, if_true, List.cons_append, List.nil_append]
      rw [parsePattern_backslash, ih]
      simp only [hs, if_true, Option.map_map, List.map_cons, List.cons_append]
      rfl
    · have hs : isSyntaxCharacter c = false := by
        rw [← isEscapedChar_eq]; simpa using hc
      have h92 : c ≠ 92 := by
        intro h; rw [h] at hs; exact absurd hs (by decide)
      have h40 : c ≠ 40 := by
        intro h; rw [h] at hs; exact absurd hs (by decide)
      simp only [hc, Bool.false_eq_true, if_false, List.cons_append, List.nil_append]
      rw [parsePattern_char c _ h92 h40 hs, ih]
      simp only [Option.map_map, List.map_cons, List.cons_append]
      rfl

theorem parsePattern_placeholder (pre suf : JSString) :
    parsePattern (escapeRegex pre ++ js "(.*?)" ++ escapeRegex suf) =
      some (placeholderTerms pre suf) := by
  rw [List.append_assoc, parsePattern_escapeRegex_append, parsePattern_group]
  have := parsePattern_escapeRegex_append suf []
  simp only [List.append_nil] at this
  rw [this]
  simp [parsePattern, parseFrom, placeholderTerms]

theorem buildPlaceholderRegex_ok (format : JSString) (h : keyPlaceholder <:+: format) :
    ∃ R, buildPlaceholderRegex format = .ok R ∧
      R.terms = placeholderTerms (formatPrefix format) (formatSuffix format) := by
  have hi : ¬ indexOf format keyPlaceholder = -1 := by
    rw [indexOf_eq_neg_one]; simpa using h
  unfold buildPlaceholderRegex
  simp only [hi, if_false, newRegExp, parsePattern_placeholder]
  exact ⟨_, rfl, rfl⟩


theorem lazyAny_some {α : Type} (k : JSString → Option α) :
    ∀ (s acc cap : JSString) (r : α),
      lazyAny k acc s = some (cap, r) ↔
        ∃ c s', s = c ++ s' ∧ cap = acc.reverse ++ c ∧ k s' = some r ∧
          (∀ x ∈ c, isLineTerminator x = false) ∧
          (∀ c1 c2, c = c1 ++ c2 → c2 ≠ [] → k (c2 ++ s') = none) := by
  intro s
  induction s with
  | nil =>
    intro acc cap r
    simp only [lazyAny]
    constructor
    · intro h
      cases hk : k [] with
      | none => simp [hk] at h
      | some r' =>
        simp only [hk, Option.some.injEq, Prod.mk.injEq] at h
        refine ⟨[], [], rfl, by simp [h.1], h.2 ▸ hk, by simp, ?_⟩
        intro c1 c2 hc hne
        simp at hc
        exact absurd hc.2 hne
    · rintro ⟨c, s', hs, hcap, hk, -, -⟩
      have hc : c = [] := by
        cases c with
        | nil => rfl
        | cons a c => simp at hs
      subst hc
      simp only [List.nil_append] at hs
      subst hs
      simp [hk, hcap]
  | cons d s ih =>
    intro acc cap r
    simp only [lazyAny]
    cases hk : k (d :: s) with
    | some r' =>
      simp only [Option.some.injEq, Prod.mk.injEq]
      constructor
      · rintro ⟨h1, h2⟩
        refine ⟨[], d :: s, rfl, by simp [h1], by rw [hk, h2], by simp, ?_⟩
        intro c1 c2 hc hne
        simp at hc
        exact absurd hc.2 hne
      · rintro ⟨c, s', hs, hcap, hk', -, hmin⟩
        cases c with
        | nil =>
          simp only [List.nil_append] at hs
          subst hs
          rw [hk] at hk'
          simp only [Option.some.injEq] at hk'
          simp [hcap, hk']
        | cons a c =>
          have := hmin [] (a :: c) rfl (by simp)
          rw [← hs, hk] at this
          simp at this
    | none =>
      simp only
      by_cases hd : isLineTerminator d = true
      · simp only [hd, if_true]
        refine ⟨fun h => by simp at h, ?_⟩
        rintro ⟨c, s', hs, -, hk', hlt, -⟩
        cases c with
        | nil =>
          simp only [List.nil_append] at hs
          subst hs
          rw [hk] at hk'
          simp at hk'
        | cons a c =>
          simp only [List.cons_append, List.cons.injEq] at hs
          have := hlt a (by simp)
          rw [← hs.1, hd] at this
          simp at this
      · simp only [hd, Bool.false_eq_true, if_false]
        rw [ih]
        constructor
        · rintro ⟨c, s', hs, hcap, hk', hlt, hmin⟩
          refine ⟨d :: c, s', by simp [hs], by simp [hcap], hk', ?_, ?_⟩
          · intro x hx
            simp only [List.mem_cons] at hx
            rcases hx with rfl | hx
            · simpa using hd
            · exact hlt x hx
          · intro c1 c2 hc hne
            cases c1 with
            | nil =>
              simp only [List.nil_append] at hc
              rw [← hc, List.cons_append, ← hs]
              exact hk
            | cons a c1 =>
              simp only [List.cons_append, List.cons.injEq] at hc
              exact hmin c1 c2 hc.2 hne
        · rintro ⟨c, s', hs, hcap, hk', hlt, hmin⟩
          cases c with
          | nil =>
            simp only [List.nil_append] at hs
            subst hs
            rw [hk] at hk'
            simp at hk'
          | cons a c =>
            simp only [List.cons_append, List.cons.injEq] at hs
            obtain ⟨rfl, hs⟩ := hs
            refine ⟨c, s', hs, by simp [hcap], hk', ?_, ?_⟩
            · intro x hx
              exact hlt x (by simp [hx])
            · intro c1 c2 hc hne
              exact hmin (d :: c1) c2 (by simp [hc]) hne

theorem matchTerms_chars (p : JSString) (ts : List Term) :
    ∀ (s : JSString) (x : List JSString × JSString),
      matchTerms (p.map Term.char ++ ts) s = some x ↔
        ∃ s', s = p ++ s' ∧ matchTerms ts s' = some x := by
  induction p with
  | nil => intro s x; simp
  | cons c p ih =>
    intro s x
    simp only [List.map_cons, List.cons_append, matchTerms]
    cases s with
    | nil => simp
    | cons d s =>
      simp only
      by_cases hd : d = c
      · subst hd
        simpa using ih s x
      · simp only [hd, if_false, List.cons.injEq, false_and, exists_false]
        simp

theorem matchTerms_chars_nil (p s : JSString) (x : List JSString × JSString) :
    matchTerms (p.map Term.char) s = some x ↔ x.1 = [] ∧ s = p ++ x.2 := by
  have := matchTerms_chars p [] s x
  simp only [List.append_nil] at this
  rw [this]
  simp only [matchTerms, Option.some.injEq]
  constructor
  · rintro ⟨s', rfl, rfl⟩
    exact ⟨rfl, rfl⟩
  · rintro ⟨h1, h2⟩
    exact ⟨x.2, h2, by rw [← h1]⟩

theorem matchTerms_chars_none (p s : JSString) :
    matchTerms (p.map Term.char) s = none ↔ ¬ p <+: s := by
  constructor
  · rintro h ⟨t, ht⟩
    have : matchTerms (p.map Term.char) s = some ([], t) :=
      (matchTerms_chars_nil p s ([], t)).mpr ⟨rfl, ht.symm⟩
    rw [h] at this
    simp at this
  · intro h
    cases hm : matchTerms (p.map Term.char) s with
    | none => rfl
    | some x =>
      exact absurd ⟨x.2, ((matchTerms_chars_nil p s x).mp hm).2.symm⟩ h

/-- What a match of the pattern of a format at the start of `s` is. -/
theorem matchTerms_placeholder (pre suf s : JSString) (caps : List JSString) (rest : JSString) :
    matchTerms (placeholderTerms pre suf) s = some (caps, rest) ↔
      ∃ c, caps = [c] ∧ s = pre ++ c ++ suf ++ rest ∧
        (∀ x ∈ c, isLineTerminator x = false) ∧
        (∀ c1 c2, c = c1 ++ c2 → c2 ≠ [] → ¬ suf <+: c2 ++ suf ++ rest) := by
  unfold placeholderTerms
  rw [matchTerms_chars]
  simp only [matchTerms]
  constructor
  · rintro ⟨s', rfl, h⟩
    cases hl : lazyAny (matchTerms (suf.map Term.char)) [] s' with
    | none => simp [hl] at h
    | some y =>
      obtain ⟨cap, caps', rest'⟩ := y
      simp only [hl, Option.some.injEq, Prod.mk.injEq] at h
      obtain ⟨rfl, rfl⟩ := h
      rw [lazyAny_some] at hl
      obtain ⟨c, s'', rfl, hcap, hk, hlt, hmin⟩ := hl
      rw [matchTerms_chars_nil] at hk
      simp only at hk
      obtain ⟨rfl, rfl⟩ := hk
      simp only [List.reverse_nil, List.nil_append] at hcap
      subst hcap
      refine ⟨cap, rfl, by simp, hlt, ?_⟩
      intro c1 c2 hc hne
      have := hmin c1 c2 hc hne
      rw [matchTerms_chars_none] at this
      simpa using this
  · rintro ⟨c, rfl, rfl, hlt, hmin⟩
    refine ⟨c ++ suf ++ rest, by simp, ?_⟩
    have : lazyAny (matchTerms (suf.map Term.char)) [] (c ++ suf ++ rest) = some (c, [], rest) := by
      rw [lazyAny_some]
      refine ⟨c, suf ++ rest, by simp, by simp, ?_, hlt, ?_⟩
      · rw [matchTerms_chars_nil]
        simp
      · intro c1 c2 hc hne
        rw [matchTerms_chars_none]
        simpa using hmin c1 c2 hc hne
    rw [this]


theorem matchTerms_suffix (ts : List Term) :
    ∀ (s : JSString) (caps : List JSString) (rest : JSString),
      matchTerms ts s = some (caps, rest) → ∃ m, s = m ++ rest := by
  induction ts with
  | nil =>
    intro s caps rest h
    simp only [matchTerms, Option.some.injEq, Prod.mk.injEq] at h
    exact ⟨[], by simp [h.2]⟩
  | cons t ts ih =>
    intro s caps rest h
    cases t with
    | char c =>
      cases s with
      | nil => simp [matchTerms] at h
      | cons d s =>
        simp only [matchTerms] at h
        by_cases hd : d = c
        · simp only [hd, if_true] at h
          obtain ⟨m, hm⟩ := ih s caps rest h
          exact ⟨d :: m, by simp [hm]⟩
        · simp [hd] at h
    | lazyAnyGroup =>
      simp only [matchTerms] at h
      cases hl : lazyAny (matchTerms ts) [] s with
      | none => simp [hl] at h
      | some y =>
        obtain ⟨cap, caps', rest'⟩ := y
        simp only [hl, Option.some.injEq, Prod.mk.injEq] at h
        obtain ⟨-, rfl⟩ := h
        rw [lazyAny_some] at hl
        obtain ⟨c, s', rfl, -, hk, -, -⟩ := hl
        obtain ⟨m, hm⟩ := ih s' caps' rest' hk
        exact ⟨c ++ m, by simp [hm]⟩

theorem matchTerms_length_le (ts : List Term) (s : JSString) (caps : List JSString)
    (rest : JSString) (h : matchTerms ts s = some (caps, rest)) : rest.length ≤ s.length := by
  obtain ⟨m, rfl⟩ := matchTerms_suffix ts s caps rest h
  simp

/-- The step budget `2 * length + 1` is enough for the split loop. -/
theorem splitLoop_isSome (ts : List Term) :
    ∀ (fuel : Nat) (seg rest : JSString),
      2 * rest.length + (if seg = [] then 0 else 1) < fuel →
        ∃ parts, splitLoop ts fuel seg rest = some parts := by
  intro fuel
  induction fuel with
  | zero => intro seg rest h; omega
  | succ fuel ih =>
    intro seg rest h
    cases rest with
    | nil => exact ⟨_, rfl⟩
    | cons c rest =>
      simp only [splitLoop]
      have hadv : ∃ parts, splitLoop ts fuel (c :: seg) rest = some parts := by
        apply ih
        simp only [List.length_cons] at h
        simp only [List.cons_ne_nil, if_false]
        split at h <;> omega
      cases hm : matchTerms ts (c :: rest) with
      | none => exact hadv
      | some y =>
        obtain ⟨caps, rest2⟩ := y
        simp only
        by_cases he : seg = [] ∧ rest2.length = (c :: rest).length
        · rw [if_pos he]; exact hadv
        · rw [if_neg he]
          have hle := matchTerms_length_le ts _ _ _ hm
          have : ∃ parts, splitLoop ts fuel [] rest2 = some parts := by
            apply ih
            simp only [if_true]
            by_cases hs : seg = []
            · have : rest2.length ≠ (c :: rest).length := fun h' => he ⟨hs, h'⟩
              simp only [hs, if_true] at h
              omega
            · simp only [hs, if_false] at h
              omega
          obtain ⟨parts, hp⟩ := this
          exact ⟨_, by rw [hp]; rfl⟩

theorem split_isSome (S : JSString) (R : RegExp) : ∃ parts, split S R = some parts := by
  cases S with
  | nil =>
    simp only [split]
    cases matchTerms R.terms [] with
    | none => exact ⟨_, rfl⟩
    | some _ => exact ⟨_, rfl⟩
  | cons c S =>
    simp only [split]
    apply splitLoop_isSome
    simp

theorem reassemble_add_two (pre suf : JSString) :
    ∀ (parts : List JSString) (index : Nat),
      reassemble pre suf (index + 2) parts = reassemble pre suf index parts := by
  intro parts
  induction parts with
  | nil => intro index; rfl
  | cons part parts ih =>
    intro index
    simp only [reassemble]
    rw [ih (index + 1)]
    have : (index + 2) % 2 = index % 2 := by omega
    rw [this]

/-- The parts of the split loop over the pattern of a format reassemble to the text between
the previous match and the end of the input; their number is odd. -/
theorem splitLoop_reassemble (pre suf : JSString) :
    ∀ (fuel : Nat) (seg rest : JSString) (parts : List JSString),
      splitLoop (placeholderTerms pre suf) fuel seg rest = some parts →
        reassemble pre suf 0 parts = seg.reverse ++ rest ∧ parts.length % 2 = 1 := by
  intro fuel
  induction fuel with
  | zero => intro seg rest parts h; simp [splitLoop] at h
  | succ fuel ih =>
    intro seg rest parts h
    cases rest with
    | nil =>
      simp only [splitLoop, Option.some.injEq] at h
      subst h
      simp [reassemble]
    | cons c rest =>
      simp only [splitLoop] at h
      have hadv : splitLoop (placeholderTerms pre suf) fuel (c :: seg) rest = some parts →
          reassemble pre suf 0 parts = seg.reverse ++ c :: rest ∧ parts.length % 2 = 1 := by
        intro h'
        have := ih _ _ _ h'
        simpa using this
      cases hm : matchTerms (placeholderTerms pre suf) (c :: rest) with
      | none => rw [hm] at h; exact hadv h
      | some y =>
        obtain ⟨caps, rest2⟩ := y
        rw [hm] at h
        simp only at h
        by_cases he : seg = [] ∧ rest2.length = (c :: rest).length
        · rw [if_pos he] at h; exact hadv h
        · rw [if_neg he] at h
          cases hr : splitLoop (placeholderTerms pre suf) fuel [] rest2 with
          | none => simp [hr] at h
          | some parts2 =>
            simp only [hr, Option.map_some', Option.some.injEq] at h
            subst h
            obtain ⟨h1, h2⟩ := ih _ _ _ hr
            rw [matchTerms_placeholder] at hm
            obtain ⟨cont, rfl, hs, -, -⟩ := hm
            constructor
            · simp only [reassemble, List.singleton_append, Nat.zero_mod, zero_ne_one, if_false,
                zero_add, Nat.one_mod, if_true]
              have h3 : reassemble pre suf (1 + 1) ([].append parts2) = rest2 := by
                have := reassemble_add_two pre suf parts2 0
                simp only [zero_add] at this
                show reassemble pre suf (1 + 1) parts2 = rest2
                rw [this, h1]
                simp
              rw [h3, hs]
            · simp only [List.singleton_append, List.length_cons]
              omega


/-! ## The text transformer and the placeholder renderer -/

theorem key_occurs (pre suf : JSString) :
    keyPlaceholder <:+: pre ++ keyPlaceholder ++ suf :=
  ⟨pre, suf, rfl⟩

theorem getSubstitution_no_pattern (matched before after : JSString) :
    ∀ (n : Nat) (content : JSString), content.length ≤ n →
      hasReplacementPattern content = false →
      getSubstitution matched before after content = content := by
  intro n
  induction n with
  | zero =>
    intro content hl _
    cases content with
    | nil => rfl
    | cons c r => simp at hl
  | succ n ih =>
    intro content hl h
    cases content with
    | nil => rfl
    | cons c r =>
      rw [getSubstitution.eq_def]
      simp only [hasReplacementPattern, Bool.or_eq_false_iff] at h
      obtain ⟨h1, h2⟩ := h
      have hlr : r.length ≤ n := by simpa using hl
      by_cases hc : c = 36
      · subst hc
        cases r with
        | nil => rfl
        | cons d r2 =>
          simp only [beq_self_eq_true, Bool.true_and, List.head?_cons, Bool.or_eq_false_iff,
            beq_eq_false_iff_ne, ne_eq, Option.some.injEq] at h1
          obtain ⟨⟨⟨d1, d2⟩, d3⟩, d4⟩ := h1
          simp only [hasReplacementPattern, Bool.or_eq_false_iff] at h2
          have hlr2 : r2.length ≤ n := by
            simp only [List.length_cons] at hlr
            omega
          simp only [if_true, d1, d2, d3, d4, if_false]
          rw [ih r2 hlr2 h2.2]
      · simp only [hc, if_false]
        rw [ih r hlr h2]

/-- Rendering a placeholder whose content holds no replacement pattern: the format with its
first `key` replaced by the content. -/
theorem reconstructPlaceholder_no_pattern (content format : JSString)
    (h : keyPlaceholder <:+: format) (hc : hasReplacementPattern content = false) :
    reconstructPlaceholder content format =
      formatPrefix format ++ content ++ formatSuffix format := by
  unfold reconstructPlaceholder replaceFirst formatPrefix formatSuffix substring substringFrom
    indexOf
  have hk : js "key" = keyPlaceholder := rfl
  rw [hk]
  cases hi : indexOfFrom keyPlaceholder format with
  | none => exact absurd h ((indexOfFrom_none _ _).mp hi)
  | some i =>
    simp only [getSubstitution_no_pattern _ _ _ content.length content (le_refl _) hc]
    simp

/-- A text without `$` holds no replacement pattern. -/
theorem hasReplacementPattern_no_dollar :
    ∀ content : JSString, 36 ∉ content → hasReplacementPattern content = false := by
  intro content
  induction content with
  | nil => intro _; rfl
  | cons c r ih =>
    intro h
    simp only [List.mem_cons, not_or] at h
    have hc : (c == 36) = false := by
      simp only [beq_eq_false_iff_ne, ne_eq]
      exact fun e => h.1 e.symm
    simp only [hasReplacementPattern, hc, Bool.false_and, Bool.false_or]
    exact ih h.2

theorem padLengthOf_eq_ceil (length : Nat) (expansion : Int) :
    padLengthOf length expansion = ⌈((length : ℚ) * (expansion : ℚ)) / 100⌉ := by
  unfold padLengthOf
  have h := Rat.floor_intCast_div_natCast (-((length : Int) * expansion)) 100
  have h2 : ((-((length : Int) * expansion) : Int) : ℚ) / ((100 : ℕ) : ℚ) =
      -(((length : ℚ) * (expansion : ℚ)) / 100) := by
    push_cast
    ring
  rw [h2, Int.floor_neg] at h
  have h3 : ((100 : ℕ) : ℤ) = 100 := rfl
  rw [h3] at h
  omega

theorem padLengthOf_nonneg (length : Nat) (expansion : Int) (h : 0 ≤ expansion) :
    0 ≤ padLengthOf length expansion := by
  unfold padLengthOf
  have : 0 ≤ (length : Int) * expansion := Int.mul_nonneg (Int.ofNat_nonneg _) h
  omega

theorem strRepeat_nonneg (s : JSString) (count : Int) (h : 0 ≤ count) :
    strRepeat s count = .ok (List.replicate count.toNat s).flatten := by
  unfold strRepeat
  have : ¬ count < 0 := by omega
  simp [this]

theorem trailingRun_some (s r : JSString) :
    trailingRun s = some r ↔ r = s ∧ s.all isTrailingChar = true := by
  unfold trailingRun
  by_cases h : s.all isTrailingChar = true
  · simp [h, eq_comm]
  · simp [h]

theorem matchTrailing_some (part m1 m2 : JSString) :
    matchTrailing part = some (m1, m2) ↔
      part = m1 ++ m2 ∧ m2.all isTrailingChar = true ∧
        (∀ x ∈ m1, isLineTerminator x = false) ∧
        (∀ c1 c2, m1 = c1 ++ c2 → c2 ≠ [] → (c2 ++ m2).all isTrailingChar = false) := by
  unfold matchTrailing
  rw [lazyAny_some]
  constructor
  · rintro ⟨c, s', rfl, hcap, hk, hlt, hmin⟩
    rw [trailingRun_some] at hk
    obtain ⟨rfl, hall⟩ := hk
    simp only [List.reverse_nil, List.nil_append] at hcap
    subst hcap
    refine ⟨rfl, hall, hlt, ?_⟩
    intro c1 c2 hc hne
    have := hmin c1 c2 hc hne
    unfold trailingRun at this
    by_cases h : (c2 ++ m2).all isTrailingChar = true
    · simp [h] at this
    · simpa using h
  · rintro ⟨rfl, hall, hlt, hmin⟩
    refine ⟨m1, m2, rfl, by simp, (trailingRun_some _ _).mpr ⟨rfl, hall⟩, hlt, ?_⟩
    intro c1 c2 hc hne
    have := hmin c1 c2 hc hne
    unfold trailingRun
    simp [this]

/-- The transformer output is the substituted segment with the pad inserted somewhere. -/
theorem transformText_ok (config : Config) (part : JSString)
    (h : 0 ≤ padLengthOf (replaceAccents config.accentMap part).length config.expansion) :
    ∃ P T, replaceAccents config.accentMap part = P ++ T ∧
      transformText config part = .ok (P ++
        (List.replicate (padLengthOf (replaceAccents config.accentMap part).length
          config.expansion).toNat config.expansionChar).flatten ++ T) := by
  unfold transformText
  simp only [strRepeat_nonneg _ _ h]
  split
  · cases hm : matchTrailing (replaceAccents config.accentMap part) with
    | none => exact ⟨replaceAccents config.accentMap part, [], by simp, by simp⟩
    | some y =>
      obtain ⟨m1, m2⟩ := y
      have := ((matchTrailing_some _ _ _).mp hm).1
      exact ⟨m1, m2, this, rfl⟩
  · exact ⟨replaceAccents config.accentMap part, [], by simp, by simp⟩

theorem mapParts_ok (toUpperCase : JSString → JSString) (config : Config)
    (h : 0 ≤ config.expansion) :
    ∀ (parts : List JSString) (index : Nat),
      ∃ mapped, mapParts toUpperCase config index parts = .ok mapped := by
  intro parts
  induction parts with
  | nil => intro index; exact ⟨[], rfl⟩
  | cons part parts ih =>
    intro index
    obtain ⟨rs, hrs⟩ := ih (index + 1)
    simp only [mapParts, hrs]
    unfold mapPart
    by_cases hp : (index % 2 == 1) = true
    · simp only [hp, if_true]
      exact ⟨_, rfl⟩
    · simp only [hp, Bool.false_eq_true, if_false]
      obtain ⟨P, T, -, hT⟩ := transformText_ok config part (padLengthOf_nonneg _ _ h)
      rw [hT]
      exact ⟨_, rfl⟩

theorem rdropWhile_append_rtakeWhile (p : Nat → Bool) (l : List Nat) :
    l.rdropWhile p ++ l.rtakeWhile p = l := by
  unfold List.rdropWhile List.rtakeWhile
  rw [← List.reverse_append, List.takeWhile_append_dropWhile, List.reverse_reverse]

theorem rdropWhile_append_of_all (p : Nat → Bool) (m1 : List Nat) :
    ∀ m2 : List Nat, m2.all p = true → (m1 ++ m2).rdropWhile p = m1.rdropWhile p := by
  intro m2
  induction m2 using List.reverseRecOn with
  | nil => intro _; simp
  | append_singleton m2 x ih =>
    intro h
    simp only [List.all_append, List.all_cons, List.all_nil, Bool.and_true,
      Bool.and_eq_true] at h
    rw [← List.append_assoc, List.rdropWhile_concat_pos _ _ _ h.2]
    exact ih h.1

theorem alnum_not_trailing (c : Nat)
    (h : ((65 ≤ c && c ≤ 90) || (97 ≤ c && c ≤ 122) || (48 ≤ c && c ≤ 57)) = true) :
    isTrailingChar c = false := by
  simp only [Bool.or_eq_true, Bool.and_eq_true, decide_eq_true_eq] at h
  unfold isTrailingChar isWhiteSpaceClass
  simp only [Bool.or_eq_false_iff, Bool.and_eq_false_iff, beq_eq_false_iff_ne, ne_eq,
    decide_eq_false_iff_not]
  omega

theorem endsWithAlnum_last (S : JSString) (h : endsWithAlnum S = true) :
    ∃ S' x, S = S' ++ [x] ∧ isTrailingChar x = false := by
  unfold endsWithAlnum at h
  cases hl : S.getLast? with
  | none => simp [hl] at h
  | some x =>
    simp only [hl] at h
    rw [List.getLast?_eq_some_iff] at hl
    obtain ⟨S', hS⟩ := hl
    exact ⟨S', x, hS, alnum_not_trailing x h⟩

/-- What `matchTrailing` returns, through the maximal trailing run of the segment. -/
theorem matchTrailing_eq (S : JSString) :
    matchTrailing S =
      if ∀ x ∈ S.rdropWhile isTrailingChar, isLineTerminator x = false then
        some (S.rdropWhile isTrailingChar, S.rtakeWhile isTrailingChar)
      else none := by
  have hmin : ∀ c1 c2, S.rdropWhile isTrailingChar = c1 ++ c2 → c2 ≠ [] →
      (c2 ++ S.rtakeWhile isTrailingChar).all isTrailingChar = false := by
    intro c1 c2 hc hne
    have hP : S.rdropWhile isTrailingChar ≠ [] := by
      rw [hc]; simp [hne]
    have hlast := List.rdropWhile_last_not isTrailingChar S hP
    have hl2 : (S.rdropWhile isTrailingChar).getLast hP = c2.getLast hne := by
      simp only [hc]
      rw [List.getLast_append_of_ne_nil]
    rw [hl2] at hlast
    rw [List.all_eq_false]
    exact ⟨c2.getLast hne, by simp [List.getLast_mem], hlast⟩
  have hall : (S.rtakeWhile isTrailingChar).all isTrailingChar = true := by
    rw [List.all_eq_true]
    intro x hx
    exact List.mem_rtakeWhile_imp hx
  split
  · rename_i hlt
    rw [matchTrailing_some]
    exact ⟨(rdropWhile_append_rtakeWhile _ _).symm, hall, hlt, hmin⟩
  · rename_i hlt
    cases hm : matchTrailing S with
    | none => rfl
    | some y =>
      exfalso
      obtain ⟨m1, m2⟩ := y
      rw [matchTrailing_some] at hm
      obtain ⟨hS, h2, h1, hmin'⟩ := hm
      apply hlt
      have : S.rdropWhile isTrailingChar = m1 := by
        rw [hS, rdropWhile_append_of_all _ _ _ h2, List.rdropWhile_eq_self_iff]
        intro hne
        have := hmin' m1.dropLast [m1.getLast hne] (List.dropLast_append_getLast hne).symm
          (by simp)
        simp only [List.singleton_append, List.all_cons, Bool.and_eq_false_iff] at this
        rcases this with h | h
        · simp [h]
        · rw [h2] at h; simp at h
      rw [this]
      exact h1

/-- The transformer on a segment whose pad length is not negative: with `S` the substituted
segment, `T` its maximal trailing run of whitespace and punctuation and `P` the text before
`T`, the result is `P ++ pad ++ T` when `P` has no line terminator, and `S ++ pad` when it
has one. -/
theorem transformText_eq (config : Config) (part : JSString)
    (h : 0 ≤ padLengthOf (replaceAccents config.accentMap part).length config.expansion) :
    transformText config part =
      .ok (
        let S := replaceAccents config.accentMap part
        let pad := (List.replicate (padLengthOf S.length config.expansion).toNat
          config.expansionChar).flatten
        if ∀ x ∈ S.rdropWhile isTrailingChar, isLineTerminator x = false then
          S.rdropWhile isTrailingChar ++ pad ++ S.rtakeWhile isTrailingChar
        else S ++ pad) := by
  unfold transformText
  simp only [strRepeat_nonneg _ _ h]
  generalize replaceAccents config.accentMap part = S
  generalize (List.replicate (padLengthOf S.length config.expansion).toNat
          config.expansionChar).flatten = pad
  by_cases hc : (decide (S.length > 0) && endsWithAlnum S == false) = true
  · rw [if_pos hc, matchTrailing_eq]
    by_cases hlt : ∀ x ∈ S.rdropWhile isTrailingChar, isLineTerminator x = false
    · simp only [if_pos hlt]
    · simp only [if_neg hlt]
  · rw [if_neg hc]
    have hPT : S.rdropWhile isTrailingChar = S ∧ S.rtakeWhile isTrailingChar = [] := by
      cases S with
      | nil => simp
      | cons a S =>
        have he : endsWithAlnum (a :: S) = true := by
          simpa using hc
        obtain ⟨S', x, hS, hx⟩ := endsWithAlnum_last _ he
        rw [hS]
        exact ⟨List.rdropWhile_concat_neg _ _ _ (by simp [hx]),
          List.rtakeWhile_concat_neg _ _ _ (by simp [hx])⟩
    simp only [hPT.1, hPT.2, List.append_nil]
    split <;> rfl

/-! ## The scan of the split loop -/

theorem matchTerms_placeholder_iff (pre suf s : JSString) (caps : List JSString)
    (rest : JSString) :
    matchTerms (placeholderTerms pre suf) s = some (caps, rest) ↔
      ∃ c, caps = [c] ∧ IsOccurrence pre suf c s rest := by
  rw [matchTerms_placeholder]
  constructor
  · rintro ⟨c, rfl, hs, hlt, hmin⟩
    refine ⟨c, rfl, hs, hlt, ?_⟩
    intro c' r' hs'
    by_contra hlen
    push_neg at hlen
    rw [hs] at hs'
    simp only [List.append_assoc, List.append_cancel_left_eq] at hs'
    rw [List.append_eq_append_iff] at hs'
    rcases hs' with ⟨a, rfl, ha⟩ | ⟨a, rfl, ha⟩
    · simp at hlen
    · have hane : a ≠ [] := by
        intro h; subst h; simp at hlen
      apply hmin c' a rfl hane
      exact ⟨r', by simp [ha]⟩
  · rintro ⟨c, rfl, hs, hlt, hmin⟩
    refine ⟨c, rfl, hs, hlt, ?_⟩
    rintro c1 c2 rfl hne ⟨r', hr'⟩
    have := hmin c1 r' (by rw [hs]; simp [hr'])
    simp only [List.length_append] at this
    have : c2.length = 0 := by omega
    exact hne (List.length_eq_zero.mp this)

theorem not_occursAt_iff (pre suf s : JSString) :
    ¬ OccursAt pre suf s ↔ matchTerms (placeholderTerms pre suf) s = none := by
  constructor
  · intro h
    cases hm : matchTerms (placeholderTerms pre suf) s with
    | none => rfl
    | some y =>
      obtain ⟨caps, rest⟩ := y
      obtain ⟨c, -, hc⟩ := (matchTerms_placeholder_iff _ _ _ _ _).mp hm
      exact absurd ⟨c, rest, hc⟩ h
  · rintro h ⟨c, rest, hc⟩
    have := (matchTerms_placeholder_iff pre suf s [c] rest).mpr ⟨c, rfl, hc⟩
    rw [h] at this
    simp at this

/-- The split loop over the pattern of a format with a non-empty prefix or suffix scans
the leftmost, non-overlapping occurrences. -/
theorem splitLoop_scan (pre suf : JSString) (hne : pre ++ suf ≠ []) :
    ∀ (fuel : Nat) (seg rest : JSString) (parts : List JSString),
      splitLoop (placeholderTerms pre suf) fuel seg rest = some parts →
      (∀ t u, seg.reverse = t ++ u → u ≠ [] → ¬ OccursAt pre suf (u ++ rest)) →
      Scan pre suf (seg.reverse ++ rest) parts := by
  intro fuel
  induction fuel with
  | zero => intro seg rest parts h; simp [splitLoop] at h
  | succ fuel ih =>
    intro seg rest parts h hinv
    cases rest with
    | nil =>
      simp only [splitLoop, Option.some.injEq] at h
      subst h
      simp only [List.append_nil]
      apply Scan.done
      intro t u htu
      by_cases hu : u = []
      · subst hu
        rintro ⟨c, r, hc, -, -⟩
        have : pre ++ suf = [] := by
          have := congrArg List.length hc
          simp only [List.length_nil, List.length_append] at this
          apply List.length_eq_zero.mp
          simp only [List.length_append]
          omega
        exact hne this
      · have := hinv t u htu hu
        simpa using this
    | cons c rest =>
      simp only [splitLoop] at h
      have hadv : matchTerms (placeholderTerms pre suf) (c :: rest) = none →
          splitLoop (placeholderTerms pre suf) fuel (c :: seg) rest = some parts →
          Scan pre suf (seg.reverse ++ c :: rest) parts := by
        intro hm h'
        have := ih (c :: seg) rest parts h' (by
          intro t u htu hu
          simp only [List.reverse_cons] at htu
          rcases List.eq_nil_or_concat u with rfl | ⟨u', x, rfl⟩
          · exact absurd rfl hu
          · rw [List.concat_eq_append] at htu ⊢
            rw [← List.append_assoc] at htu
            have hx := List.append_inj' htu (by simp)
            obtain ⟨h1, h2⟩ := hx
            simp only [List.cons.injEq, and_true] at h2
            subst h2
            by_cases hu' : u' = []
            · subst hu'
              simpa using (not_occursAt_iff _ _ _).mpr hm
            · have := hinv t u' h1 hu'
              simpa using this)
        simpa using this
      cases hm : matchTerms (placeholderTerms pre suf) (c :: rest) with
      | none => rw [hm] at h; exact hadv hm h
      | some y =>
        obtain ⟨caps, rest2⟩ := y
        rw [hm] at h
        simp only at h
        obtain ⟨cont, rfl, hocc⟩ := (matchTerms_placeholder_iff _ _ _ _ _).mp hm
        have hs := hocc.1
        have hlen : rest2.length ≠ (c :: rest).length := by
          have h1 := congrArg List.length hs
          have h2 : 0 < (pre ++ suf).length := List.length_pos.mpr hne
          simp only [List.length_append] at h1 h2
          omega
        have he : ¬ (seg = [] ∧ rest2.length = (c :: rest).length) := fun h' => hlen h'.2
        rw [if_neg he] at h
        cases hr : splitLoop (placeholderTerms pre suf) fuel [] rest2 with
        | none => simp [hr] at h
        | some parts2 =>
          simp only [hr, Option.map_some', Option.some.injEq] at h
          subst h
          have hscan := ih [] rest2 parts2 hr (by
            intro t u htu hu
            simp only [List.reverse_nil] at htu
            have := List.append_eq_nil.mp htu.symm
            exact absurd this.2 hu)
          simp only [List.reverse_nil, List.nil_append] at hscan
          refine Scan.occurrence _ seg.reverse cont rest2 parts2 (by rw [hs]) ?_ ?_ hscan
          · intro t u htu hu
            rw [← hs]
            exact hinv t u htu hu
          · rw [← hs]; exact hocc

theorem isOccurrence_unique (pre suf s c1 r1 c2 r2 : JSString)
    (h1 : IsOccurrence pre suf c1 s r1) (h2 : IsOccurrence pre suf c2 s r2) :
    c1 = c2 ∧ r1 = r2 := by
  obtain ⟨hs1, -, hm1⟩ := h1
  obtain ⟨hs2, -, hm2⟩ := h2
  have hl1 := hm1 c2 r2 hs2
  have hl2 := hm2 c1 r1 hs1
  have hlen : c1.length = c2.length := by omega
  rw [hs1] at hs2
  simp only [List.append_assoc, List.append_cancel_left_eq] at hs2
  have := List.append_inj hs2 hlen
  obtain ⟨rfl, h3⟩ := this
  simp only [List.append_cancel_left_eq] at h3
  exact ⟨rfl, h3⟩

/-- The scan of an input is unique. -/
theorem scan_unique (pre suf : JSString) :
    ∀ (s : JSString) (p q : List JSString), Scan pre suf s p → Scan pre suf s q → p = q := by
  intro s p q hp
  induction hp generalizing q with
  | done s hno =>
    intro hq
    cases hq with
    | done _ _ => rfl
    | occurrence _ lit content rest parts hs hleft hocc hrest =>
      exact absurd ⟨content, rest, hocc⟩ (hno lit _ hs)
  | occurrence s lit content rest parts hs hleft hocc hrest ih =>
    intro hq
    cases hq with
    | done _ hno =>
      exact absurd ⟨content, rest, hocc⟩ (hno lit _ hs)
    | occurrence _ lit2 content2 rest2 parts2 hs2 hleft2 hocc2 hrest2 =>
      rw [hs] at hs2
      rw [List.append_eq_append_iff] at hs2
      have hlit : lit = lit2 ∧
          pre ++ content ++ suf ++ rest = pre ++ content2 ++ suf ++ rest2 := by
        rcases hs2 with ⟨a, ha1, ha2⟩ | ⟨a, ha1, ha2⟩
        · by_cases hane : a = []
          · subst hane
            simp only [List.append_nil] at ha1
            simp only [List.nil_append] at ha2
            exact ⟨ha1.symm, ha2⟩
          · exfalso
            apply hleft2 lit a ha1 hane
            rw [← ha2]
            exact ⟨content, rest, hocc⟩
        · by_cases hane : a = []
          · subst hane
            simp only [List.append_nil] at ha1
            simp only [List.nil_append] at ha2
            exact ⟨ha1, ha2.symm⟩
          · exfalso
            apply hleft lit2 a ha1 hane
            rw [← ha2]
            exact ⟨content2, rest2, hocc2⟩
      obtain ⟨rfl, hX⟩ := hlit
      rw [← hX] at hocc2
      obtain ⟨rfl, rfl⟩ := isOccurrence_unique _ _ _ _ _ _ _ hocc hocc2
      rw [ih parts2 hrest2]

theorem mapPart_reversePlaceholders (toUpperCase : JSString → JSString) (config : Config)
    (b : Bool) (part : JSString) (index : Nat) (h : config.rtl = false) :
    mapPart toUpperCase { config with reversePlaceholders := b } part index =
      mapPart toUpperCase config part index := by
  unfold mapPart renderPlaceholder transformText
  simp [h]

theorem mapParts_reversePlaceholders (toUpperCase : JSString → JSString) (config : Config)
    (b : Bool) (h : config.rtl = false) :
    ∀ (parts : List JSString) (index : Nat),
      mapParts toUpperCase { config with reversePlaceholders := b } index parts =
        mapParts toUpperCase config index parts := by
  intro parts
  induction parts with
  | nil => intro index; rfl
  | cons part parts ih =>
    intro index
    simp only [mapParts, ih, mapPart_reversePlaceholders toUpperCase config b part index h]

theorem pseudoLocalize_reversePlaceholders (toUpperCase : JSString → JSString)
    (str : JSString) (config : Config) (b : Bool) (h : config.rtl = false) :
    pseudoLocalize toUpperCase str { config with reversePlaceholders := b } =
      pseudoLocalize toUpperCase str config := by
  unfold pseudoLocalize
  simp only [mapParts_reversePlaceholders toUpperCase config b h]

/-! ## The claims -/

/-- C1 (segment round trip): for a format that contains `key`, the format is its prefix,
`key` and its suffix, the pattern is built, the split of any input returns its parts, and
the parts, read as literal text at even indices
and placeholder content at odd indices, with every content wrapped again as prefix, content,
suffix, concatenate to the input; the parts are an odd number (literal first and last), or
none at all. -/
theorem split_round_trip (format input : JSString) (h : keyPlaceholder <:+: format) :
    format = formatPrefix format ++ keyPlaceholder ++ formatSuffix format ∧
    ∃ R parts, buildPlaceholderRegex format = .ok R ∧ split input R = some parts ∧
      reassemble (formatPrefix format) (formatSuffix format) 0 parts = input ∧
      (parts = [] ∨ parts.length % 2 = 1) := by
  refine ⟨format_split format h, ?_⟩
  obtain ⟨R, hR, hterms⟩ := buildPlaceholderRegex_ok format h
  refine ⟨R, ?_⟩
  cases input with
  | nil =>
    simp only [split]
    cases matchTerms R.terms [] with
    | none => exact ⟨[[]], hR, rfl, by simp [reassemble], Or.inr rfl⟩
    | some _ => exact ⟨[], hR, rfl, rfl, Or.inl rfl⟩
  | cons c input =>
    obtain ⟨parts, hp⟩ := split_isSome (c :: input) R
    refine ⟨parts, hR, hp, ?_⟩
    simp only [split, hterms] at hp
    obtain ⟨h1, h2⟩ := splitLoop_reassemble _ _ _ _ _ _ hp
    exact ⟨by simpa using h1, Or.inr h2⟩

/-- The round trip of C1 at the format `{{key}}` and a text with two placeholders. -/
theorem split_round_trip_witness :
    keyPlaceholder <:+: js "{{key}}" ∧
    js "{{key}}" =
      formatPrefix (js "{{key}}") ++ keyPlaceholder ++ formatSuffix (js "{{key}}") ∧
    ∃ R parts, buildPlaceholderRegex (js "{{key}}") = .ok R ∧
      split (js "Hello {{name}}, you have {{count}} messages") R = some parts ∧
      reassemble (formatPrefix (js "{{key}}")) (formatSuffix (js "{{key}}")) 0 parts =
        js "Hello {{name}}, you have {{count}} messages" ∧
      (parts = [] ∨ parts.length % 2 = 1) :=
  ⟨key_occurs [123, 123] [125, 125],
   split_round_trip (js "{{key}}") (js "Hello {{name}}, you have {{count}} messages")
     (key_occurs [123, 123] [125, 125])⟩

/-- C2 (placeholder preservation), at the failing input: a placeholder content holding a
replacement pattern is not rendered verbatim: `$&` becomes `key`, `$$` becomes `$`, and the
whole placeholder `{{$&}}` comes out of `pseudoLocalize` as `{{key}}`. -/
theorem reconstructPlaceholder_dollar_patterns (toUpperCase : JSString → JSString) :
    reconstructPlaceholder (js "$&") (js "{{key}}") = js "{{key}}" ∧
    reconstructPlaceholder (js "$$") (js "{{key}}") = js "{{$}}" ∧
    pseudoLocalize toUpperCase (js "{{$&}}") DEFAULT_OPTIONS = .ok (js "⟦{{key}}⟧") ∧
    js "{{key}}" ≠ formatPrefix (js "{{key}}") ++ js "$&" ++ formatSuffix (js "{{key}}") := by
  refine ⟨by decide, by decide, rfl, by decide⟩

/-- C3 (punctuation-aware padding), at the failing input: the segment `Hello`, line feed,
`World!` has the trailing run `!`, yet the pad is put after the `!`, not before it; the same
text with a space in place of the line feed gets the pad before the `!`. -/
theorem transformText_line_break (toUpperCase : JSString → JSString) :
    replaceAccents DEFAULT_ACCENT_MAP (js "Hello\nWorld!") = js "Ħëļļõ\nŴõřļđ!" ∧
    (js "Ħëļļõ\nŴõřļđ!").rtakeWhile isTrailingChar = js "!" ∧
    (js "Ħëļļõ\nŴõřļđ!").rdropWhile isTrailingChar = js "Ħëļļõ\nŴõřļđ" ∧
    transformText DEFAULT_OPTIONS (js "Hello\nWorld!") = .ok (js "Ħëļļõ\nŴõřļđ!ēēēēē") ∧
    js "Ħëļļõ\nŴõřļđ!ēēēēē" ≠ js "Ħëļļõ\nŴõřļđ" ++ js "ēēēēē" ++ js "!" ∧
    pseudoLocalize toUpperCase (js "Hello\nWorld!") DEFAULT_OPTIONS =
      .ok (js "⟦Ħëļļõ\nŴõřļđ!ēēēēē⟧") ∧
    transformText DEFAULT_OPTIONS (js "Hello World!") = .ok (js "Ħëļļõ Ŵõřļđēēēēē!") := by
  refine ⟨by decide, by decide, by decide, rfl, by decide, rfl, rfl⟩

/-- C5 (configuration error): building the pattern fails exactly when the format does not
contain `key`, and then `pseudoLocalize` fails with that error for every input, whatever the
other options are (so before any segment is transformed). -/
theorem configuration_error_iff (toUpperCase : JSString → JSString) (str : JSString)
    (config : Config) :
    ((∃ e, buildPlaceholderRegex config.placeholderFormat = .error e) ↔
      ¬ keyPlaceholder <:+: config.placeholderFormat) ∧
    (¬ keyPlaceholder <:+: config.placeholderFormat →
      buildPlaceholderRegex config.placeholderFormat =
        .error (JSError.Error missingKeyMessage) ∧
      pseudoLocalize toUpperCase str config = .error (JSError.Error missingKeyMessage)) := by
  have hno : ¬ keyPlaceholder <:+: config.placeholderFormat →
      buildPlaceholderRegex config.placeholderFormat =
        .error (JSError.Error missingKeyMessage) := by
    intro h
    have hi : indexOf config.placeholderFormat keyPlaceholder = -1 :=
      (indexOf_eq_neg_one _ _).mpr h
    unfold buildPlaceholderRegex
    simp only [hi, if_true]
  refine ⟨⟨?_, fun h => ⟨_, hno h⟩⟩, fun h => ⟨hno h, ?_⟩⟩
  · rintro ⟨e, he⟩ hk
    obtain ⟨R, hR, -⟩ := buildPlaceholderRegex_ok _ hk
    rw [hR] at he
    cases he
  · unfold pseudoLocalize
    simp only [hno h]

/-- C6, the claim as stated fails: with the default format the input `{{a`, line feed,
`b}}` has no placeholder at all (the split returns the whole input as one literal), and with
the format `key` the first placeholder of `ab` is found after the `a`, although the empty
occurrence at the very start is the leftmost one. -/
theorem split_line_terminator_in_content :
    (∃ R, buildPlaceholderRegex (js "{{key}}") = .ok R ∧
      split multiLinePlaceholder R = some [multiLinePlaceholder] ∧
      [multiLinePlaceholder] ≠ [[], js "a\nb", []]) ∧
    (∃ R, buildPlaceholderRegex (js "key") = .ok R ∧
      split (js "ab") R = some [js "a", [], js "b"] ∧
      matchTerms R.terms (js "ab") = some ([[]], js "ab")) := by
  exact ⟨⟨_, rfl, rfl, by decide⟩, ⟨_, rfl, rfl, rfl⟩⟩

/-- C6 (amended): for a format that contains `key` and is not the bare `key`, the parts of
the split are exactly the scan of the input: the leftmost, non-overlapping occurrences of
prefix, content, suffix from left to right, the content being the shortest run followed by
the suffix and free of line terminators. -/
theorem split_scan (format input : JSString) (h : keyPlaceholder <:+: format)
    (hne : formatPrefix format ++ formatSuffix format ≠ []) :
    ∃ R parts, buildPlaceholderRegex format = .ok R ∧ split input R = some parts ∧
      Scan (formatPrefix format) (formatSuffix format) input parts ∧
      ∀ parts2, Scan (formatPrefix format) (formatSuffix format) input parts2 →
        parts2 = parts := by
  obtain ⟨R, hR, hterms⟩ := buildPlaceholderRegex_ok format h
  obtain ⟨parts, hp⟩ := split_isSome input R
  have hscan : Scan (formatPrefix format) (formatSuffix format) input parts := by
    cases input with
    | nil =>
      have hno : ∀ u, u = ([] : JSString) →
          ¬ OccursAt (formatPrefix format) (formatSuffix format) u := by
        rintro u rfl ⟨c, r, hc, -, -⟩
        apply hne
        have := congrArg List.length hc
        simp only [List.length_nil, List.length_append] at this
        apply List.length_eq_zero.mp
        simp only [List.length_append]
        omega
      have hm : matchTerms R.terms [] = none := by
        rw [hterms]
        exact (not_occursAt_iff _ _ _).mp (hno [] rfl)
      simp only [split, hm, Option.some.injEq] at hp
      subst hp
      apply Scan.done
      intro t u htu
      exact hno u (List.append_eq_nil.mp htu.symm).2
    | cons c input =>
      simp only [split, hterms] at hp
      have := splitLoop_scan _ _ hne _ [] (c :: input) parts hp (by
        intro t u htu hu
        simp only [List.reverse_nil] at htu
        exact absurd (List.append_eq_nil.mp htu.symm).2 hu)
      simpa using this
  exact ⟨R, parts, hR, hp, hscan, fun parts2 h2 => scan_unique _ _ _ _ _ h2 hscan⟩

/-- The scan of C6 at the format `{{key}}` and the input `Hi {{name}}`. -/
theorem split_scan_witness :
    keyPlaceholder <:+: js "{{key}}" ∧
    formatPrefix (js "{{key}}") ++ formatSuffix (js "{{key}}") ≠ [] ∧
    ∃ R parts, buildPlaceholderRegex (js "{{key}}") = .ok R ∧
      split (js "Hi {{name}}") R = some parts ∧
      Scan (formatPrefix (js "{{key}}")) (formatSuffix (js "{{key}}")) (js "Hi {{name}}")
        parts ∧
      ∀ parts2, Scan (formatPrefix (js "{{key}}")) (formatSuffix (js "{{key}}"))
        (js "Hi {{name}}") parts2 → parts2 = parts :=
  ⟨key_occurs [123, 123] [125, 125], by decide,
   split_scan (js "{{key}}") (js "Hi {{name}}") (key_occurs [123, 123] [125, 125])
     (by decide)⟩

/-- C7, the claim as stated fails: a key mapped to the empty string is not replaced, and a
line-break key is not replaced either. -/
theorem replaceAccents_keeps_keys :
    List.lookup (js "a") [(js "a", ([] : JSString))] = some [] ∧
    replaceAccents [(js "a", [])] (js "banana") = js "banana" ∧
    js "banana" ≠ js "bnn" ∧
    List.lookup (js "\n") [(js "\n", js "N")] = some (js "N") ∧
    replaceAccents [(js "\n", js "N")] (js "a\nb") = js "a\nb" ∧
    js "a\nb" ≠ js "aNb" := by
  decide

/-- C7 (amended): substitution works code unit by code unit and keeps the order; a code
unit that is not a line terminator and is a key with a non-empty value is replaced by that
value; a code unit that is not a key, or whose value is the empty string, or that is a line
terminator, stays as it is. -/
theorem replaceAccents_spec (accentMap : AccentMap) :
    replaceAccents accentMap [] = [] ∧
    (∀ s t, replaceAccents accentMap (s ++ t) =
      replaceAccents accentMap s ++ replaceAccents accentMap t) ∧
    (∀ c v, accentMap.lookup [c] = some v → v ≠ [] → isLineTerminator c = false →
      replaceAccents accentMap [c] = v) ∧
    (∀ c, accentMap.lookup [c] = none → replaceAccents accentMap [c] = [c]) ∧
    (∀ c, accentMap.lookup [c] = some [] → replaceAccents accentMap [c] = [c]) ∧
    (∀ c, isLineTerminator c = true → replaceAccents accentMap [c] = [c]) := by
  refine ⟨rfl, ?_, ?_, ?_, ?_, ?_⟩
  · intro s t
    simp [replaceAccents]
  · intro c v hv hne hlt
    simp [replaceAccents, accentOf, hv, hne, hlt]
  · intro c hv
    by_cases hlt : isLineTerminator c = true <;> simp [replaceAccents, accentOf, hv, hlt]
  · intro c hv
    by_cases hlt : isLineTerminator c = true <;> simp [replaceAccents, accentOf, hv, hlt]
  · intro c hlt
    simp [replaceAccents, hlt]

/-- C8 (pad length): for a non-negative expansion the transformer returns the substituted
segment with the pad inserted, the pad being `expansionChar` repeated
`ceil (L * expansion / 100)` times, `L` the length of the substituted segment; the empty
segment is returned empty. -/
theorem transformText_pad_length (config : Config) (part : JSString)
    (h : 0 ≤ config.expansion) :
    (∃ P T, replaceAccents config.accentMap part = P ++ T ∧
      transformText config part = .ok (P ++
        (List.replicate
          ⌈(((replaceAccents config.accentMap part).length : ℚ) * (config.expansion : ℚ)) / 100⌉₊
          config.expansionChar).flatten ++ T)) ∧
    transformText config [] = .ok [] := by
  constructor
  · obtain ⟨P, T, hPT, hT⟩ := transformText_ok config part (padLengthOf_nonneg _ _ h)
    refine ⟨P, T, hPT, ?_⟩
    rw [hT, padLengthOf_eq_ceil, Int.ceil_toNat]
  · obtain ⟨P, T, hPT, hT⟩ := transformText_ok config [] (padLengthOf_nonneg _ _ h)
    have hnil : replaceAccents config.accentMap [] = [] := rfl
    rw [hnil] at hPT hT
    have hP : P = [] ∧ T = [] := by
      cases P with
      | nil => exact ⟨rfl, by simpa using hPT.symm⟩
      | cons a P => simp at hPT
    rw [hT, hP.1, hP.2]
    simp [padLengthOf]

/-- The pad length of C8 at the default options and the segment `Hi!`. -/
theorem transformText_pad_length_witness :
    (0 : Int) ≤ (DEFAULT_OPTIONS).expansion ∧
    ((∃ P T, replaceAccents (DEFAULT_OPTIONS).accentMap (js "Hi!") = P ++ T ∧
      transformText DEFAULT_OPTIONS (js "Hi!") = .ok (P ++
        (List.replicate
          ⌈(((replaceAccents (DEFAULT_OPTIONS).accentMap (js "Hi!")).length : ℚ) *
            (((DEFAULT_OPTIONS).expansion : Int) : ℚ)) / 100⌉₊
          (DEFAULT_OPTIONS).expansionChar).flatten ++ T)) ∧
    transformText DEFAULT_OPTIONS [] = .ok []) :=
  ⟨by decide, transformText_pad_length DEFAULT_OPTIONS (js "Hi!") (by decide)⟩

/-- C9 (format characters are literal): for a format that contains `key` the pattern is
built, its terms are the code units of the prefix, each matching only itself, the lazy
group, and the code units of the suffix; so whatever the pattern matches is the exact
prefix text, a content and the exact suffix text.  The formats `${key}` and `%key%` split
`Hello ${name}` and `Hi %name%` at exactly the placeholder. -/
theorem placeholder_format_literal (format : JSString) (h : keyPlaceholder <:+: format) :
    (∃ R, buildPlaceholderRegex format = .ok R ∧
      R.terms = (formatPrefix format).map Term.char ++
        Term.lazyAnyGroup :: (formatSuffix format).map Term.char ∧
      ∀ s caps rest, matchTerms R.terms s = some (caps, rest) →
        ∃ content, caps = [content] ∧
          s = formatPrefix format ++ content ++ formatSuffix format ++ rest) ∧
    (∃ R, buildPlaceholderRegex (js "${key}") = .ok R ∧
      split (js "Hello ${name}") R = some [js "Hello ", js "name", []]) ∧
    (∃ R, buildPlaceholderRegex (js "%key%") = .ok R ∧
      split (js "Hi %name%") R = some [js "Hi ", js "name", []]) ∧
    pseudoLocalize asciiUpper (js "Hi %name%")
      { DEFAULT_OPTIONS with placeholderFormat := js "%key%" } =
        .ok (js "⟦Ħïēē %name%⟧") := by
  refine ⟨?_, ⟨_, rfl, rfl⟩, ⟨_, rfl, rfl⟩, rfl⟩
  obtain ⟨R, hR, hterms⟩ := buildPlaceholderRegex_ok format h
  refine ⟨R, hR, hterms, ?_⟩
  intro s caps rest hm
  rw [hterms, matchTerms_placeholder] at hm
  obtain ⟨c, hc, hs, -, -⟩ := hm
  exact ⟨c, hc, hs⟩

/-- The literal reading of C9 at the format `${key}`. -/
theorem placeholder_format_literal_witness :
    keyPlaceholder <:+: js "${key}" ∧
    ∃ R, buildPlaceholderRegex (js "${key}") = .ok R ∧
      R.terms = (formatPrefix (js "${key}")).map Term.char ++
        Term.lazyAnyGroup :: (formatSuffix (js "${key}")).map Term.char ∧
      ∀ s caps rest, matchTerms R.terms s = some (caps, rest) →
        ∃ content, caps = [content] ∧
          s = formatPrefix (js "${key}") ++ content ++ formatSuffix (js "${key}") ++ rest :=
  ⟨key_occurs [36, 123] [125],
   (placeholder_format_literal (js "${key}") (key_occurs [36, 123] [125])).1⟩

/-- C10 (RTL placeholder reversal): a placeholder is rendered as the plain rendering
(that of the same configuration with `rtl` off) of its content, the content being reversed
exactly when `rtl` and `reversePlaceholders` are both true; with `rtl` off the output of
`pseudoLocalize` is the same for both values of `reversePlaceholders`; and `Hello {{name}}`
under `rtl` comes out with `{{eman}}` when `reversePlaceholders` is on and with `{{name}}`
when it is off. -/
theorem renderPlaceholder_reversal (toUpperCase : JSString → JSString) (config : Config)
    (part str : JSString) :
    renderPlaceholder toUpperCase config part =
      renderPlaceholder toUpperCase { config with rtl := false }
        (if config.rtl = true ∧ config.reversePlaceholders = true then part.reverse
         else part) ∧
    renderPlaceholder toUpperCase { config with rtl := true, reversePlaceholders := false }
      part = renderPlaceholder toUpperCase { config with rtl := false } part ∧
    renderPlaceholder toUpperCase { config with rtl := true, reversePlaceholders := true }
      part = renderPlaceholder toUpperCase { config with rtl := false } part.reverse ∧
    pseudoLocalize toUpperCase str
        { config with rtl := false, reversePlaceholders := true } =
      pseudoLocalize toUpperCase str
        { config with rtl := false, reversePlaceholders := false } ∧
    pseudoLocalize toUpperCase (js "Hello {{name}}")
        { DEFAULT_OPTIONS with rtl := true, reversePlaceholders := true } =
      .ok ([8238] ++ js "⟦Ħëļļõēēē {{eman}}⟧" ++ [8236]) ∧
    pseudoLocalize toUpperCase (js "Hello {{name}}")
        { DEFAULT_OPTIONS with rtl := true, reversePlaceholders := false } =
      .ok ([8238] ++ js "⟦Ħëļļõēēē {{name}}⟧" ++ [8236]) := by
  refine ⟨?_, rfl, rfl, ?_, rfl, rfl⟩
  · unfold renderPlaceholder
    cases config.rtl <;> cases config.reversePlaceholders <;> simp
  · have h1 := pseudoLocalize_reversePlaceholders toUpperCase str
      { config with rtl := false } true rfl
    have h2 := pseudoLocalize_reversePlaceholders toUpperCase str
      { config with rtl := false } false rfl
    exact h1.trans h2.symm

/-! ## Lemmas for the remaining claims -/

theorem strRepeat_error (s : JSString) (count : Int) (e : JSError)
    (h : strRepeat s count = .error e) : e = JSError.RangeError ∧ count < 0 := by
  unfold strRepeat at h
  by_cases hc : count < 0
  · simp only [hc, if_true, Except.error.injEq] at h
    exact ⟨h.symm, hc⟩
  · simp [hc] at h

theorem transformText_error (config : Config) (part : JSString) (e : JSError)
    (h : transformText config part = .error e) :
    e = JSError.RangeError ∧ config.expansion < 0 := by
  have hneg : config.expansion < 0 := by
    by_contra hc
    push_neg at hc
    obtain ⟨P, T, -, hT⟩ := transformText_ok config part (padLengthOf_nonneg _ _ hc)
    rw [hT] at h
    cases h
  refine ⟨?_, hneg⟩
  unfold transformText at h
  cases hr : strRepeat config.expansionChar
      (padLengthOf (replaceAccents config.accentMap part).length config.expansion) with
  | error e2 =>
    simp only [hr, Except.error.injEq] at h
    rw [← h]
    exact (strRepeat_error _ _ _ hr).1
  | ok pad =>
    simp only [hr] at h
    split at h
    · split at h <;> cases h
    · cases h

theorem mapParts_error (toUpperCase : JSString → JSString) (config : Config) :
    ∀ (parts : List JSString) (index : Nat) (e : JSError),
      mapParts toUpperCase config index parts = .error e →
        e = JSError.RangeError ∧ config.expansion < 0 := by
  intro parts
  induction parts with
  | nil => intro index e h; cases h
  | cons part parts ih =>
    intro index e h
    simp only [mapParts] at h
    cases hp : mapPart toUpperCase config part index with
    | error e2 =>
      simp only [hp, Except.error.injEq] at h
      subst h
      unfold mapPart at hp
      by_cases hodd : (index % 2 == 1) = true
      · simp [hodd] at hp
      · simp only [hodd, Bool.false_eq_true, if_false] at hp
        exact transformText_error _ _ _ hp
    | ok r =>
      simp only [hp] at h
      cases hr : mapParts toUpperCase config (index + 1) parts with
      | error e2 =>
        simp only [hr, Except.error.injEq] at h
        subst h
        exact ih _ _ hr
      | ok rs => simp [hr] at h

theorem no_occurrence_of_tails (pre suf s : JSString)
    (h : ∀ u ∈ s.tails, matchTerms (placeholderTerms pre suf) u = none) :
    ∀ t u, s = t ++ u → ¬ OccursAt pre suf u := by
  intro t u hs
  rw [not_occursAt_iff]
  apply h
  rw [List.mem_tails]
  exact ⟨t, hs.symm⟩

theorem occursAt_nil_of_empty (pre suf : JSString) (h : pre ++ suf = []) :
    OccursAt pre suf [] := by
  obtain ⟨rfl, rfl⟩ := List.append_eq_nil.mp h
  refine ⟨[], [], rfl, by simp, ?_⟩
  intro c2 r2 _
  simp

theorem not_occursAt_nil (pre suf : JSString) (hne : pre ++ suf ≠ []) :
    ¬ OccursAt pre suf [] := by
  rintro ⟨c, r, hc, -, -⟩
  apply hne
  have := congrArg List.length hc
  simp only [List.length_nil, List.length_append] at this
  apply List.length_eq_zero.mp
  simp only [List.length_append]
  omega

/-- The parts of a split over the pattern of a format with a non-empty prefix or suffix
are the scan of the input. -/
theorem split_is_scan (pre suf : JSString) (hne : pre ++ suf ≠ []) (R : RegExp)
    (hterms : R.terms = placeholderTerms pre suf) (input : JSString)
    (parts : List JSString) (hp : split input R = some parts) :
    Scan pre suf input parts := by
  cases input with
  | nil =>
    have hm : matchTerms R.terms [] = none := by
      rw [hterms]
      exact (not_occursAt_iff _ _ _).mp (not_occursAt_nil pre suf hne)
    simp only [split, hm, Option.some.injEq] at hp
    subst hp
    apply Scan.done
    intro t u htu
    rw [(List.append_eq_nil.mp htu.symm).2]
    exact not_occursAt_nil pre suf hne
  | cons c input =>
    simp only [split, hterms] at hp
    have := splitLoop_scan _ _ hne _ [] (c :: input) parts hp (by
      intro t u htu hu
      simp only [List.reverse_nil] at htu
      exact absurd (List.append_eq_nil.mp htu.symm).2 hu)
    simpa using this

/-- An input without any occurrence of the pattern is split into itself. -/
theorem split_no_occurrence (pre suf : JSString) (R : RegExp)
    (hterms : R.terms = placeholderTerms pre suf) (input : JSString)
    (hno : ∀ t u, input = t ++ u → ¬ OccursAt pre suf u) :
    split input R = some [input] := by
  have hne : pre ++ suf ≠ [] := by
    intro h
    exact hno input [] (by simp) (occursAt_nil_of_empty pre suf h)
  obtain ⟨parts, hp⟩ := split_isSome input R
  have hscan := split_is_scan pre suf hne R hterms input parts hp
  rw [hp, scan_unique pre suf input parts [input] hscan (Scan.done input hno)]

theorem lookup_mem {α β : Type} [BEq α] (k : α) (v : β) :
    ∀ m : List (α × β), m.lookup k = some v → ∃ k2, (k2, v) ∈ m := by
  intro m
  induction m with
  | nil => intro h; simp at h
  | cons kv m ih =>
    intro h
    obtain ⟨k2, v2⟩ := kv
    simp only [List.lookup_cons] at h
    split at h
    · simp only [Option.some.injEq] at h
      exact ⟨k2, by simp [h]⟩
    · obtain ⟨k3, hk3⟩ := ih h
      exact ⟨k3, by simp [hk3]⟩

theorem accentOf_length (accentMap : AccentMap)
    (h : ∀ kv ∈ accentMap, kv.2.length = 1) (c : Nat) :
    (accentOf accentMap c).length = 1 := by
  unfold accentOf
  cases hl : accentMap.lookup [c] with
  | none => rfl
  | some v =>
    obtain ⟨k, hk⟩ := lookup_mem _ _ _ hl
    have := h _ hk
    simp only at this ⊢
    split
    · rfl
    · exact this

/-- Substitution under a map whose values are single code units keeps the length. -/
theorem replaceAccents_length (accentMap : AccentMap)
    (h : ∀ kv ∈ accentMap, kv.2.length = 1) (s : JSString) :
    (replaceAccents accentMap s).length = s.length := by
  induction s with
  | nil => rfl
  | cons c s ih =>
    have : replaceAccents accentMap (c :: s) =
        (if isLineTerminator c then [c] else accentOf accentMap c) ++
          replaceAccents accentMap s := by
      simp [replaceAccents]
    rw [this, List.length_append, ih]
    split
    · simp; omega
    · rw [accentOf_length accentMap h c]; simp; omega

theorem flatten_replicate_length (n : Nat) (s : JSString) :
    (List.replicate n s).flatten.length = n * s.length := by
  induction n with
  | zero => simp
  | succ n ih =>
    simp only [List.replicate_succ, List.flatten_cons, List.length_append, ih]
    ring

theorem DEFAULT_ACCENT_MAP_values :
    ∀ kv ∈ DEFAULT_ACCENT_MAP, kv.1.length = 1 ∧ kv.2.length = 1 := by
  decide

theorem matchTerms_empty_suffix (pre s : JSString) (caps : List JSString) (rest : JSString)
    (h : matchTerms (placeholderTerms pre []) s = some (caps, rest)) :
    caps = [[]] ∧ s = pre ++ rest := by
  rw [matchTerms_placeholder] at h
  obtain ⟨c, rfl, hs, -, hmin⟩ := h
  have hc : c = [] := by
    by_contra hne
    exact hmin [] c rfl hne List.nil_prefix
  subst hc
  exact ⟨rfl, by simpa using hs⟩

theorem splitLoop_empty_suffix (pre : JSString) :
    ∀ (fuel : Nat) (seg rest : JSString) (parts : List JSString),
      splitLoop (placeholderTerms pre []) fuel seg rest = some parts →
        ∀ i c, i % 2 = 1 → parts[i]? = some c → c = [] := by
  intro fuel
  induction fuel with
  | zero => intro seg rest parts h; simp [splitLoop] at h
  | succ fuel ih =>
    intro seg rest parts h
    cases rest with
    | nil =>
      simp only [splitLoop, Option.some.injEq] at h
      subst h
      intro i c hi hc
      cases i with
      | zero => omega
      | succ i => simp at hc
    | cons d rest =>
      simp only [splitLoop] at h
      cases hm : matchTerms (placeholderTerms pre []) (d :: rest) with
      | none => rw [hm] at h; exact ih _ _ _ h
      | some y =>
        obtain ⟨caps, rest2⟩ := y
        rw [hm] at h
        simp only at h
        split at h
        · exact ih _ _ _ h
        · cases hr : splitLoop (placeholderTerms pre []) fuel [] rest2 with
          | none => simp [hr] at h
          | some parts2 =>
            simp only [hr, Option.map_some', Option.some.injEq] at h
            subst h
            obtain ⟨rfl, -⟩ := matchTerms_empty_suffix _ _ _ _ hm
            intro i c hi hc
            match i with
            | 0 => omega
            | 1 =>
              simp at hc
              exact hc
            | i + 2 =>
              simp only [List.singleton_append, List.getElem?_cons_succ] at hc
              exact ih _ _ _ hr i c (by omega) hc

mutual
theorem processObjectWith_shape (pl : JSString → Except JSError JSString) :
    ∀ (t t2 : JSValue), hasProtoKey t = false → processObjectWith pl t = .ok t2 →
      SameShape pl t t2
  | .string s, t2, _, h => by
    simp only [processObjectWith] at h
    cases hp : pl s with
    | error e => simp [hp] at h
    | ok r =>
      simp only [hp, Except.ok.injEq] at h
      subst h
      simpa [SameShape] using hp
  | .number a, t2, _, h => by
    simp only [processObjectWith, Except.ok.injEq] at h
    subst h
    simp [SameShape]
  | .boolean a, t2, _, h => by
    simp only [processObjectWith, Except.ok.injEq] at h
    subst h
    simp [SameShape]
  | .null, t2, _, h => by
    simp only [processObjectWith, Except.ok.injEq] at h
    subst h
    simp [SameShape]
  | .array xs, t2, hk, h => by
    simp only [processObjectWith] at h
    cases hp : processItems pl xs with
    | error e => simp [hp] at h
    | ok rs =>
      simp only [hp, Except.ok.injEq] at h
      subst h
      simp only [SameShape]
      exact processItems_shape pl xs rs (by simpa [hasProtoKey] using hk) hp
  | .object ps, t2, hk, h => by
    simp only [processObjectWith] at h
    cases hp : processProps pl ps with
    | error e => simp [hp] at h
    | ok rs =>
      simp only [hp, Except.ok.injEq] at h
      subst h
      simp only [SameShape]
      exact processProps_shape pl ps rs (by simpa [hasProtoKey] using hk) hp
theorem processItems_shape (pl : JSString → Except JSError JSString) :
    ∀ (xs ys : List JSValue), hasProtoKeyItems xs = false → processItems pl xs = .ok ys →
      SameShapeItems pl xs ys
  | [], ys, _, h => by
    simp only [processItems, Except.ok.injEq] at h
    subst h
    simp [SameShapeItems]
  | x :: xs, ys, hk, h => by
    simp only [hasProtoKeyItems, Bool.or_eq_false_iff] at hk
    simp only [processItems] at h
    cases hx : processObjectWith pl x with
    | error e => simp [hx] at h
    | ok r =>
      simp only [hx] at h
      cases hr : processItems pl xs with
      | error e => simp [hr] at h
      | ok rs =>
        simp only [hr, Except.ok.injEq] at h
        subst h
        exact ⟨processObjectWith_shape pl x r hk.1 hx, processItems_shape pl xs rs hk.2 hr⟩
theorem processProps_shape (pl : JSString → Except JSError JSString) :
    ∀ (ps qs : List (JSString × JSValue)), hasProtoKeyProps ps = false →
      processProps pl ps = .ok qs → SameShapeProps pl ps qs
  | [], qs, _, h => by
    simp only [processProps, Except.ok.injEq] at h
    subst h
    simp [SameShapeProps]
  | (k, v) :: ps, qs, hk, h => by
    simp only [hasProtoKeyProps, Bool.or_eq_false_iff, beq_eq_false_iff_ne, ne_eq] at hk
    simp only [processProps] at h
    cases hx : processObjectWith pl v with
    | error e => simp [hx] at h
    | ok r =>
      simp only [hx] at h
      cases hr : processProps pl ps with
      | error e => simp [hr] at h
      | ok rs =>
        simp only [hr, hk.1.1, if_false, Except.ok.injEq] at h
        subst h
        exact ⟨rfl, processObjectWith_shape pl v r hk.1.2 hx, processProps_shape pl ps rs hk.2 hr⟩
end

mutual
theorem processObjectWith_unchanged (pl : JSString → Except JSError JSString) :
    ∀ t : JSValue, hasProtoKey t = false → hasStringLeaf t = false →
      processObjectWith pl t = .ok t
  | .string s, _, hs => by simp [hasStringLeaf] at hs
  | .number a, _, _ => by simp [processObjectWith]
  | .boolean a, _, _ => by simp [processObjectWith]
  | .null, _, _ => by simp [processObjectWith]
  | .array xs, hk, hs => by
    simp only [processObjectWith]
    rw [processItems_unchanged pl xs (by simpa [hasProtoKey] using hk)
      (by simpa [hasStringLeaf] using hs)]
  | .object ps, hk, hs => by
    simp only [processObjectWith]
    rw [processProps_unchanged pl ps (by simpa [hasProtoKey] using hk)
      (by simpa [hasStringLeaf] using hs)]
theorem processItems_unchanged (pl : JSString → Except JSError JSString) :
    ∀ xs : List JSValue, hasProtoKeyItems xs = false → hasStringLeafItems xs = false →
      processItems pl xs = .ok xs
  | [], _, _ => by simp [processItems]
  | x :: xs, hk, hs => by
    simp only [hasProtoKeyItems, Bool.or_eq_false_iff] at hk
    simp only [hasStringLeafItems, Bool.or_eq_false_iff] at hs
    simp only [processItems]
    rw [processObjectWith_unchanged pl x hk.1 hs.1, processItems_unchanged pl xs hk.2 hs.2]
theorem processProps_unchanged (pl : JSString → Except JSError JSString) :
    ∀ ps : List (JSString × JSValue), hasProtoKeyProps ps = false →
      hasStringLeafProps ps = false → processProps pl ps = .ok ps
  | [], _, _ => by simp [processProps]
  | (k, v) :: ps, hk, hs => by
    simp only [hasProtoKeyProps, Bool.or_eq_false_iff, beq_eq_false_iff_ne, ne_eq] at hk
    simp only [hasStringLeafProps, Bool.or_eq_false_iff] at hs
    simp only [processProps]
    rw [processObjectWith_unchanged pl v hk.1.2 hs.1, processProps_unchanged pl ps hk.2 hs.2]
    simp [hk.1.1]
end

theorem splitOnUnit_no_sep (sep : Nat) :
    ∀ t : JSString, sep ∉ t → splitOnUnit sep t = [t] := by
  intro t
  induction t with
  | nil => intro _; rfl
  | cons c t ih =>
    intro h
    simp only [List.mem_cons, not_or] at h
    have hc : c ≠ sep := fun e => h.1 e.symm
    simp only [splitOnUnit, hc, if_false, ih h.2]

theorem splitOnUnit_first (sep : Nat) (t : JSString) (ht : sep ∉ t) :
    ∀ a : JSString, sep ∉ a → splitOnUnit sep (a ++ sep :: t) = [a, t] := by
  intro a
  induction a with
  | nil =>
    intro _
    simp [splitOnUnit, splitOnUnit_no_sep sep t ht]
  | cons c a ih =>
    intro h
    simp only [List.mem_cons, not_or] at h
    have hc : c ≠ sep := fun e => h.1 e.symm
    have := ih h.2
    simp only [List.cons_append, splitOnUnit, hc, if_false]
    show (match splitOnUnit sep (a ++ sep :: t) with
      | first :: more => (c :: first) :: more
      | [] => [[c]]) = [c :: a, t]
    rw [this]

theorem digitsValue_digits (L : List Nat) :
    digitsValue ((L.reverse).map (· + 48)) = Nat.ofDigits 10 L := by
  unfold digitsValue
  rw [List.foldl_map, List.foldl_reverse]
  induction L with
  | nil => rfl
  | cons d L ih =>
    simp only [List.foldr_cons, Nat.ofDigits_cons, ih]
    simp only [Nat.add_sub_cancel]
    ring

theorem natDecimal_digits (n : Nat) : ∀ c ∈ natDecimal n, 48 ≤ c ∧ c ≤ 57 := by
  intro c hc
  unfold natDecimal at hc
  split at hc
  · simp at hc; omega
  · simp only [List.mem_map, List.mem_reverse] at hc
    obtain ⟨d, hd, rfl⟩ := hc
    have := Nat.digits_lt_base (by norm_num : 1 < 10) hd
    omega

theorem natDecimal_ne_nil (n : Nat) : natDecimal n ≠ [] := by
  unfold natDecimal
  split
  · simp
  · rename_i h
    simp only [ne_eq, List.map_eq_nil_iff, List.reverse_eq_nil_iff]
    exact Nat.digits_ne_nil_iff_ne_zero.mpr h

theorem digitsValue_natDecimal (n : Nat) : digitsValue (natDecimal n) = n := by
  unfold natDecimal
  split
  · rename_i h; subst h; rfl
  · rw [digitsValue_digits, Nat.ofDigits_digits]

theorem takeWhile_all (p : Nat → Bool) : ∀ l : List Nat, (∀ c ∈ l, p c = true) →
    l.takeWhile p = l := by
  intro l h
  rw [List.takeWhile_eq_self_iff]
  exact h

theorem parseInt10_natDecimal (n : Nat) : parseInt10 (natDecimal n) = some (n : Int) := by
  have hd := natDecimal_digits n
  have hne := natDecimal_ne_nil n
  obtain ⟨c, t, hct⟩ := List.exists_cons_of_ne_nil hne
  have hc := hd c (by rw [hct]; simp)
  have hws : isWhiteSpaceClass c = false := by
    unfold isWhiteSpaceClass
    simp only [Bool.or_eq_false_iff, Bool.and_eq_false_iff, beq_eq_false_iff_ne, ne_eq,
      decide_eq_false_iff_not]
    omega
  have htake : (natDecimal n).takeWhile isDecimalDigit = natDecimal n := by
    apply takeWhile_all
    intro x hx
    have := hd x hx
    simp [isDecimalDigit, this.1, this.2]
  unfold parseInt10
  have hdrop : (natDecimal n).dropWhile isWhiteSpaceClass = natDecimal n := by
    rw [hct]; simp [List.dropWhile, hws]
  simp only [hdrop]
  have h45 : ((natDecimal n).head? == some 45) = false := by
    rw [hct]; simp; omega
  have h43 : ((natDecimal n).head? == some 43) = false := by
    rw [hct]; simp; omega
  simp only [h45, h43, Bool.or_self, Bool.false_eq_true, if_false, htake, hne,
    digitsValue_natDecimal]

theorem parseInt10_intDecimal (n : Int) : parseInt10 (intDecimal n) = some n := by
  unfold intDecimal
  split
  · rename_i hneg
    have hd := natDecimal_digits n.natAbs
    have hne := natDecimal_ne_nil n.natAbs
    have htake : (natDecimal n.natAbs).takeWhile isDecimalDigit = natDecimal n.natAbs := by
      apply takeWhile_all
      intro x hx
      have := hd x hx
      simp [isDecimalDigit, this.1, this.2]
    unfold parseInt10
    have hws : isWhiteSpaceClass 45 = false := by decide
    simp only [List.dropWhile, hws, List.head?_cons, beq_self_eq_true, Bool.true_or,
      if_true, List.drop_succ_cons, List.drop_zero, htake, hne, if_false,
      digitsValue_natDecimal]
    congr 1
    omega
  · rename_i hpos
    rw [parseInt10_natDecimal]
    congr 1
    omega

theorem intDecimal_no_equals (n : Int) : 61 ∉ intDecimal n := by
  intro h
  unfold intDecimal at h
  split at h
  · simp only [List.mem_cons] at h
    rcases h with h | h
    · omega
    · have := natDecimal_digits _ _ h; omega
  · have := natDecimal_digits _ _ h; omega

/-- The flag `--expansion=n` read by the generator: for `n` other than zero, of a magnitude
below `2 ^ 53` (where `parseInt` returns the integer itself, as `parseInt10` does), the
percentage is `n`. -/
theorem expansionOf_flag (n : Int) (hn : n ≠ 0) (_hsafe : n.natAbs < 2 ^ 53) :
    CLI.expansionOf (js "--expansion=" ++ intDecimal n) = n := by
  have hsplit : splitOnUnit 61 (js "--expansion=" ++ intDecimal n) =
      [js "--expansion", intDecimal n] := by
    have : js "--expansion=" ++ intDecimal n = js "--expansion" ++ 61 :: intDecimal n := by
      have : js "--expansion=" = js "--expansion" ++ [61] := by decide
      rw [this]; simp
    rw [this]
    exact splitOnUnit_first 61 _ (intDecimal_no_equals n) _ (by decide)
  unfold CLI.expansionOf
  rw [hsplit]
  simp [parseInt10_intDecimal, hn]

theorem lazyAny_map {α β : Type} (k : JSString → Option α) (f : α → β) :
    ∀ (s acc : JSString),
      lazyAny (fun t => (k t).map f) acc s =
        (lazyAny k acc s).map (fun p => (p.1, f p.2)) := by
  intro s
  induction s with
  | nil =>
    intro acc
    simp only [lazyAny]
    cases k [] <;> rfl
  | cons c s ih =>
    intro acc
    simp only [lazyAny]
    cases k (c :: s) with
    | some r => rfl
    | none =>
      simp only [Option.map_none']
      split
      · rfl
      · exact ih _

theorem matchTerms_closeBraces (t : JSString) :
    matchTerms [Term.char 125, Term.char 125] t =
      (CLI.closeBraces t).map (fun r => (([] : List JSString), r)) := by
  unfold CLI.closeBraces
  cases t with
  | nil => simp [matchTerms, List.isPrefixOf]
  | cons a t =>
    cases t with
    | nil =>
      by_cases ha : a = 125 <;> simp [matchTerms, List.isPrefixOf, ha]
    | cons b t =>
      by_cases ha : a = 125
      · subst ha
        by_cases hb : b = 125
        · subst hb
          simp [matchTerms, List.isPrefixOf]
        · have hb2 : ¬ 125 = b := fun h => hb h.symm
          simp [matchTerms, List.isPrefixOf, hb, hb2]
      · have ha2 : ¬ 125 = a := fun h => ha h.symm
        simp [matchTerms, List.isPrefixOf, ha, ha2]

theorem matchTerms_char_cons (c : Nat) (ts : List Term) (d : Nat) (s : JSString) :
    matchTerms (Term.char c :: ts) (d :: s) = if d = c then matchTerms ts s else none := by
  simp [matchTerms]

theorem matchTerms_char_nil (c : Nat) (ts : List Term) :
    matchTerms (Term.char c :: ts) [] = none := by
  simp [matchTerms]

theorem matchTerms_lazy (ts : List Term) (s : JSString) :
    matchTerms (Term.lazyAnyGroup :: ts) s =
      (lazyAny (matchTerms ts) [] s).map (fun p => (p.1 :: p.2.1, p.2.2)) := by
  simp only [matchTerms]
  cases lazyAny (matchTerms ts) [] s with
  | none => rfl
  | some p => obtain ⟨cap, caps, rest⟩ := p; rfl

theorem matchPlaceholder_eq (s : JSString) :
    CLI.matchPlaceholder s =
      (matchTerms (placeholderTerms [123, 123] [125, 125]) s).map
        (fun p => (p.1.map wrapBraces, p.2)) := by
  have hk : matchTerms [Term.char 125, Term.char 125] =
      fun t => (CLI.closeBraces t).map (fun r => (([] : List JSString), r)) := by
    funext t; exact matchTerms_closeBraces t
  have hlazy : ∀ s2, lazyAny (matchTerms [Term.char 125, Term.char 125]) [] s2 =
      (lazyAny CLI.closeBraces [] s2).map (fun p => (p.1, (([] : List JSString), p.2))) := by
    intro s2
    rw [hk]
    exact lazyAny_map _ _ _ _
  have hterms : placeholderTerms [123, 123] [125, 125] =
      [Term.char 123, Term.char 123, Term.lazyAnyGroup, Term.char 125, Term.char 125] := rfl
  rw [hterms]
  unfold CLI.matchPlaceholder
  cases s with
  | nil => simp [matchTerms_char_nil, List.isPrefixOf]
  | cons a s =>
    rw [matchTerms_char_cons]
    by_cases ha : a = 123
    · subst ha
      cases s with
      | nil => simp [matchTerms_char_nil, List.isPrefixOf]
      | cons b s =>
        rw [if_pos rfl, matchTerms_char_cons]
        by_cases hb : b = 123
        · subst hb
          rw [if_pos rfl, matchTerms_lazy, hlazy]
          cases hl : lazyAny CLI.closeBraces [] s with
          | none => simp [List.isPrefixOf, hl]
          | some p => simp [List.isPrefixOf, wrapBraces, hl]
        · have hb2 : ¬ 123 = b := fun h => hb h.symm
          simp [List.isPrefixOf, hb, hb2]
    · have ha2 : ¬ 123 = a := fun h => ha h.symm
      simp [List.isPrefixOf, ha, ha2]

theorem splitLoopWith_wrap (pre suf : JSString) (w : JSString → JSString)
    (m : JSString → Option (List JSString × JSString))
    (hm : ∀ s, m s = (matchTerms (placeholderTerms pre suf) s).map
      (fun p => (p.1.map w, p.2))) :
    ∀ (fuel : Nat) (seg rest : JSString),
      splitLoopWith m fuel seg rest =
        (splitLoop (placeholderTerms pre suf) fuel seg rest).map (wrapOdd w) := by
  intro fuel
  induction fuel with
  | zero => intro seg rest; rfl
  | succ fuel ih =>
    intro seg rest
    cases rest with
    | nil => simp [splitLoopWith, splitLoop, wrapOdd]
    | cons c rest =>
      simp only [splitLoopWith, splitLoop, hm]
      cases hmt : matchTerms (placeholderTerms pre suf) (c :: rest) with
      | none => simp only [Option.map_none']; exact ih _ _
      | some y =>
        obtain ⟨caps, rest2⟩ := y
        obtain ⟨cont, rfl, -⟩ := (matchTerms_placeholder _ _ _ _ _).mp hmt
        simp only [Option.map_some']
        split
        · exact ih _ _
        · rw [ih]
          cases splitLoop (placeholderTerms pre suf) fuel [] rest2 with
          | none => rfl
          | some parts => simp [wrapOdd]

theorem splitWith_wrap (pre suf : JSString) (w : JSString → JSString)
    (m : JSString → Option (List JSString × JSString))
    (hm : ∀ s, m s = (matchTerms (placeholderTerms pre suf) s).map
      (fun p => (p.1.map w, p.2)))
    (R : RegExp) (hterms : R.terms = placeholderTerms pre suf) (S : JSString) :
    splitWith S m = (split S R).map (wrapOdd w) := by
  cases S with
  | nil =>
    simp only [splitWith, split, hm, hterms]
    cases matchTerms (placeholderTerms pre suf) [] <;> simp [wrapOdd]
  | cons c S =>
    simp only [splitWith, split, hterms]
    exact splitLoopWith_wrap pre suf w m hm _ _ _

theorem lazyAny_complete {α : Type} (k : JSString → Option α) (rest : JSString) (v : α)
    (hk : k rest = some v) :
    ∀ (x acc : JSString), (∀ c ∈ x, isLineTerminator c = false) →
      ∃ res, lazyAny k acc (x ++ rest) = some res := by
  intro x
  induction x with
  | nil =>
    intro acc _
    cases rest with
    | nil => simp only [List.nil_append, lazyAny, hk]; exact ⟨_, rfl⟩
    | cons c s => simp only [List.nil_append, lazyAny, hk]; exact ⟨_, rfl⟩
  | cons a x ih =>
    intro acc hx
    simp only [List.cons_append, lazyAny]
    cases k (a :: (x ++ rest)) with
    | some r => exact ⟨_, rfl⟩
    | none =>
      have ha : isLineTerminator a = false := hx a (by simp)
      simp only [ha, Bool.false_eq_true, if_false]
      exact ih _ (fun c hc => hx c (by simp [hc]))

/-- A text without line terminators that starts with `{{`, some run and `}}` has an
occurrence of the default pattern at its start. -/
theorem occursAt_of_braces (x r : JSString)
    (hlt : ∀ c ∈ x, isLineTerminator c = false) :
    OccursAt [123, 123] [125, 125] ([123, 123] ++ x ++ [125, 125] ++ r) := by
  by_contra hno
  rw [not_occursAt_iff] at hno
  have hk : matchTerms ([125, 125].map Term.char) ([125, 125] ++ r) = some ([], r) := by
    rw [matchTerms_chars_nil]
    exact ⟨rfl, rfl⟩
  obtain ⟨res, hres⟩ := lazyAny_complete _ _ _ hk x [] hlt
  have hm : matchTerms (placeholderTerms [123, 123] [125, 125])
      ([123, 123] ++ x ++ [125, 125] ++ r) =
      some (res.1 :: res.2.1, res.2.2) := by
    unfold placeholderTerms
    rw [matchTerms_chars]
    refine ⟨x ++ ([125, 125] ++ r), by simp, ?_⟩
    rw [matchTerms_lazy, hres]
    rfl
  rw [hm] at hno
  cases hno

theorem braces_shape (p : JSString)
    (h : (List.isPrefixOf [123, 123] p && List.isSuffixOf [125, 125] p) = true) :
    ∃ x, p = [123, 123] ++ x ++ [125, 125] := by
  simp only [Bool.and_eq_true, List.isPrefixOf_iff_prefix, List.isSuffixOf_iff_suffix] at h
  obtain ⟨⟨q, hq⟩, ⟨q2, hq2⟩⟩ := h
  have heq : [123, 123] ++ q = q2 ++ [125, 125] := by rw [hq, hq2]
  rw [List.append_eq_append_iff] at heq
  rcases heq with ⟨a, ha1, ha2⟩ | ⟨a, ha1, ha2⟩
  · exact ⟨a, by rw [← hq, ha2]; simp⟩
  · -- `a` ends `{{` and starts `}}`
    cases a with
    | nil =>
      simp only [List.nil_append] at ha2
      exact ⟨[], by rw [← hq, ← ha2]; simp⟩
    | cons c a =>
      exfalso
      have h1 : c = 125 := by
        have := congrArg List.head? ha2
        simpa using this.symm
      have h2 : c ∈ [123, 123] := by
        rw [ha1]; simp
      simp only [List.mem_cons, List.mem_singleton, List.mem_nil_iff, or_false, or_self] at h2
      omega

theorem wrapBraces_is_placeholder (c : JSString) :
    (List.isPrefixOf [123, 123] (wrapBraces c) &&
      List.isSuffixOf [125, 125] (wrapBraces c)) = true := by
  simp only [Bool.and_eq_true, List.isPrefixOf_iff_prefix, List.isSuffixOf_iff_suffix]
  exact ⟨⟨c ++ [125, 125], by simp [wrapBraces]⟩, ⟨[123, 123] ++ c, by simp [wrapBraces]⟩⟩

theorem sliceInner_wrapBraces (c : JSString) : sliceInner (wrapBraces c) = c := by
  unfold sliceInner wrapBraces
  have h1 : ([123, 123] ++ c ++ [125, 125]).length - 2 = ([123, 123] ++ c).length := by
    simp
  rw [h1, List.take_left']
  · simp
  · rfl

/-- On a part that is not of the form `{{...}}` the generator's callback is the library's
text transformer under the corresponding configuration. -/
theorem CLI_mapPart_literal (toUpperCase : JSString → JSString) (options : CLI.Options)
    (part : JSString)
    (h : (List.isPrefixOf [123, 123] part && List.isSuffixOf [125, 125] part) = false) :
    CLI.mapPart toUpperCase options part =
      transformText (CLI.libraryConfig options) part := by
  unfold CLI.mapPart transformText
  rw [if_neg (by simp [h])]
  rfl

theorem mapParts_add_two (toUpperCase : JSString → JSString) (config : Config) :
    ∀ (parts : List JSString) (index : Nat),
      mapParts toUpperCase config (index + 2) parts =
        mapParts toUpperCase config index parts := by
  intro parts
  induction parts with
  | nil => intro index; rfl
  | cons part parts ih =>
    intro index
    have hp : mapPart toUpperCase config part (index + 2) =
        mapPart toUpperCase config part index := by
      unfold mapPart
      have : (index + 2) % 2 = index % 2 := by omega
      rw [this]
    simp only [mapParts, hp]
    rw [ih (index + 1)]

theorem formatPrefix_default : formatPrefix (js "{{key}}") = [123, 123] := by decide

theorem formatSuffix_default : formatSuffix (js "{{key}}") = [125, 125] := by decide

/-- On a wrapped placeholder name the generator's callback is the library's placeholder
rendering under the corresponding configuration, for a name without a replacement pattern
when the placeholder is kept and for a trimmed name when it is replaced. -/
theorem CLI_mapPart_name (toUpperCase : JSString → JSString) (options : CLI.Options)
    (c : JSString) (hd : options.replacePlaceholders = false → hasReplacementPattern c = false)
    (ht : options.replacePlaceholders = true → trim c = c) :
    CLI.mapPart toUpperCase options (wrapBraces c) =
      mapPart toUpperCase (CLI.libraryConfig options) c 1 := by
  unfold CLI.mapPart mapPart renderPlaceholder
  rw [if_pos (wrapBraces_is_placeholder c), sliceInner_wrapBraces]
  cases hrp : options.replacePlaceholders with
  | true =>
    rw [ht hrp]
    cases hr : options.rtlMode <;> simp [CLI.libraryConfig, hrp, hr]
  | false =>
    have := reconstructPlaceholder_no_pattern c (js "{{key}}")
      (key_occurs [123, 123] [125, 125]) (hd hrp)
    rw [formatPrefix_default, formatSuffix_default] at this
    cases hr : options.rtlMode <;>
      simp [CLI.libraryConfig, hrp, hr, DEFAULT_OPTIONS, this, wrapBraces]

theorem CLI_accentMap_eq : CLI.accentMap = DEFAULT_ACCENT_MAP := rfl

/-- On a part of the form `{{...}}` that holds no letter of the accent table and gets no
pad, the library's text transformer returns the part as it is, as the generator's callback
does when placeholders are kept. -/
theorem CLI_mapPart_unchanged (toUpperCase : JSString → JSString) (options : CLI.Options)
    (part : JSString) (hshape : CLI.isPlaceholder part = true)
    (hrp : options.replacePlaceholders = false)
    (hsub : replaceAccents CLI.accentMap part = part)
    (hpad : padLengthOf part.length options.expansionPercent = 0) :
    CLI.mapPart toUpperCase options part =
      transformText (CLI.libraryConfig options) part := by
  have h1 : CLI.mapPart toUpperCase options part = .ok part := by
    unfold CLI.mapPart
    unfold CLI.isPlaceholder at hshape
    rw [if_pos hshape]
    simp [hrp]
  have hsub2 : replaceAccents (CLI.libraryConfig options).accentMap part = part := by
    have hmap : (CLI.libraryConfig options).accentMap = CLI.accentMap := rfl
    rw [hmap]
    exact hsub
  have hexp : (CLI.libraryConfig options).expansion = options.expansionPercent := rfl
  have h2 : transformText (CLI.libraryConfig options) part = .ok part := by
    unfold transformText
    simp only [hsub2, hexp, hpad]
    have hrep : strRepeat (CLI.libraryConfig options).expansionChar 0 = .ok [] := by
      simp [strRepeat]
    rw [hrep]
    simp only [List.append_nil]
    split
    · cases hm : matchTrailing part with
      | none => rfl
      | some y =>
        obtain ⟨m1, m2⟩ := y
        have := ((matchTrailing_some _ _ _).mp hm).1
        simp only
        rw [← this]
    · rfl
  rw [h1, h2]

/-- Over parts whose literal segments of the form `{{...}}`, if any, are left unchanged by
the library while placeholders are kept, the generator's map of the wrapped parts is the
library's map of the parts. -/
theorem CLI_mapParts_parts (toUpperCase : JSString → JSString) (options : CLI.Options) :
    ∀ parts : List JSString,
      (∀ l ∈ evenParts parts, CLI.isPlaceholder l = true →
        options.replacePlaceholders = false ∧ replaceAccents CLI.accentMap l = l ∧
          padLengthOf l.length options.expansionPercent = 0) →
      (options.replacePlaceholders = false →
        ∀ c ∈ oddParts parts, hasReplacementPattern c = false) →
      (options.replacePlaceholders = true → ∀ c ∈ oddParts parts, trim c = c) →
      CLI.mapParts toUpperCase options (wrapOdd wrapBraces parts) =
        mapParts toUpperCase (CLI.libraryConfig options) 0 parts
  | [] => fun _ _ _ => rfl
  | [a] => by
    intro hlit _ _
    have ha : CLI.mapPart toUpperCase options a =
        transformText (CLI.libraryConfig options) a := by
      cases hs : CLI.isPlaceholder a with
      | false => exact CLI_mapPart_literal _ _ _ hs
      | true =>
        obtain ⟨h1, h2, h3⟩ := hlit a (by simp [evenParts]) hs
        exact CLI_mapPart_unchanged _ _ _ hs h1 h2 h3
    simp only [wrapOdd, CLI.mapParts, mapParts, ha, mapPart]
    rfl
  | a :: b :: rest => by
    intro hlit hd ht
    have ha : CLI.mapPart toUpperCase options a =
        transformText (CLI.libraryConfig options) a := by
      cases hs : CLI.isPlaceholder a with
      | false => exact CLI_mapPart_literal _ _ _ hs
      | true =>
        obtain ⟨h1, h2, h3⟩ := hlit a (by simp [evenParts]) hs
        exact CLI_mapPart_unchanged _ _ _ hs h1 h2 h3
    have hlit2 : ∀ l ∈ evenParts rest, CLI.isPlaceholder l = true →
        options.replacePlaceholders = false ∧ replaceAccents CLI.accentMap l = l ∧
          padLengthOf l.length options.expansionPercent = 0 :=
      fun l hl => hlit l (by simp [evenParts, hl])
    have hd2 : options.replacePlaceholders = false →
        ∀ c ∈ oddParts rest, hasReplacementPattern c = false :=
      fun h c hc => hd h c (by simp [oddParts, hc])
    have hdb : options.replacePlaceholders = false → hasReplacementPattern b = false :=
      fun h => hd h b (by simp [oddParts])
    have ht2 : options.replacePlaceholders = true → ∀ c ∈ oddParts rest, trim c = c :=
      fun h c hc => ht h c (by simp [oddParts, hc])
    have htb : options.replacePlaceholders = true → trim b = b :=
      fun h => ht h b (by simp [oddParts])
    have ih := CLI_mapParts_parts toUpperCase options rest hlit2 hd2 ht2
    have h0 : mapPart toUpperCase (CLI.libraryConfig options) a 0 =
        transformText (CLI.libraryConfig options) a := by
      simp [mapPart]
    simp only [wrapOdd, CLI.mapParts, mapParts, ha,
      CLI_mapPart_name _ _ _ hdb htb, ih, h0, zero_add]
    rw [mapParts_add_two toUpperCase (CLI.libraryConfig options) rest 0]

/-- In the scan under the format `{{key}}`, a literal segment that starts with `{{` and ends
with `}}` holds a line terminator: without one, an occurrence would start at its first
code unit. -/
theorem scan_literal_line_terminator :
    ∀ (s : JSString) (parts : List JSString), Scan [123, 123] [125, 125] s parts →
      ∀ l ∈ evenParts parts, CLI.isPlaceholder l = true →
        ∃ x ∈ l, isLineTerminator x = true := by
  intro s parts hscan
  induction hscan with
  | done s hno =>
    intro l hl hshape
    simp only [evenParts, List.mem_singleton] at hl
    subst hl
    by_contra hc
    have hlt : ∀ x ∈ l, isLineTerminator x = false := by
      intro x hx
      cases hx2 : isLineTerminator x with
      | false => rfl
      | true => exact absurd ⟨x, hx, hx2⟩ hc
    obtain ⟨x, hx⟩ := braces_shape l hshape
    apply hno [] l rfl
    have := occursAt_of_braces x [] (fun c hc => hlt c (by rw [hx]; simp [hc]))
    rw [hx]
    simpa using this
  | occurrence s lit content rest parts hs hleft hocc hrest ih =>
    intro l hl hshape
    simp only [evenParts, List.mem_cons] at hl
    rcases hl with hl | hl
    · subst hl
      by_contra hc
      have hlt : ∀ x ∈ l, isLineTerminator x = false := by
        intro x hx
        cases hx2 : isLineTerminator x with
        | false => rfl
        | true => exact absurd ⟨x, hx, hx2⟩ hc
      obtain ⟨x, hx⟩ := braces_shape l hshape
      have hne : l ≠ [] := by rw [hx]; simp
      apply hleft [] l rfl hne
      have := occursAt_of_braces x ([123, 123] ++ content ++ [125, 125] ++ rest)
        (fun c hc => hlt c (by rw [hx]; simp [hc]))
      rw [hx]
      simpa using this
    · exact ih l hl hshape

theorem mapPart_reverse_palindrome (toUpperCase : JSString → JSString) (config : Config)
    (b : Bool) (part : JSString) (index : Nat) (h : index % 2 = 1 → part.reverse = part) :
    mapPart toUpperCase { config with reversePlaceholders := b } part index =
      mapPart toUpperCase config part index := by
  unfold mapPart
  by_cases hi : index % 2 = 1
  · have hp := h hi
    simp only [hi, beq_self_eq_true, if_true, renderPlaceholder, hp, ite_self]
  · have : (index % 2 == 1) = false := by simpa using hi
    simp only [this, Bool.false_eq_true, if_false]
    rfl

/-- Over parts whose placeholder contents read the same in both directions, the library's
map does not depend on `reversePlaceholders`. -/
theorem mapParts_reverse_palindromes (toUpperCase : JSString → JSString) (config : Config)
    (b : Bool) :
    ∀ parts : List JSString, (∀ c ∈ oddParts parts, c.reverse = c) →
      mapParts toUpperCase { config with reversePlaceholders := b } 0 parts =
        mapParts toUpperCase config 0 parts
  | [] => fun _ => rfl
  | [a] => by
    intro _
    simp only [mapParts, mapPart_reverse_palindrome toUpperCase config b a 0 (by simp)]
  | a :: c :: rest => by
    intro h
    have hc : c.reverse = c := h c (by simp [oddParts])
    have ih := mapParts_reverse_palindromes toUpperCase config b rest
      (fun x hx => h x (by simp [oddParts, hx]))
    simp only [mapParts, mapPart_reverse_palindrome toUpperCase config b a 0 (by simp),
      mapPart_reverse_palindrome toUpperCase config b c (0 + 1) (fun _ => hc), zero_add]
    have e1 := mapParts_add_two toUpperCase { config with reversePlaceholders := b } rest 0
    have e2 := mapParts_add_two toUpperCase config rest 0
    simp only [zero_add] at e1 e2
    rw [e1, e2, ih]

theorem pseudoLocalize_reverse_palindromes (toUpperCase : JSString → JSString)
    (str : JSString) (config : Config) (b : Bool)
    (h : ∀ R parts, buildPlaceholderRegex config.placeholderFormat = .ok R →
      split str R = some parts → ∀ c ∈ oddParts parts, c.reverse = c) :
    pseudoLocalize toUpperCase str { config with reversePlaceholders := b } =
      pseudoLocalize toUpperCase str config := by
  unfold pseudoLocalize
  cases hR : buildPlaceholderRegex config.placeholderFormat with
  | error e => simp only [hR]
  | ok R =>
    simp only [hR]
    cases hp : split str R with
    | none => rfl
    | some parts =>
      simp only [mapParts_reverse_palindromes toUpperCase config b parts (h R parts hR hp)]


/-- Under the format `{{key}}`, a literal segment of an input that starts with `{{` and ends
with `}}` holds a line terminator. -/
theorem literalSegments_line_terminator (str : JSString) :
    ∀ l ∈ literalSegments (js "{{key}}") str, CLI.isPlaceholder l = true →
      ∃ x ∈ l, isLineTerminator x = true := by
  obtain ⟨R, hR, hterms⟩ := buildPlaceholderRegex_ok (js "{{key}}")
    (key_occurs [123, 123] [125, 125])
  rw [formatPrefix_default, formatSuffix_default] at hterms
  obtain ⟨parts, hp⟩ := split_isSome str R
  have hscan := split_is_scan [123, 123] [125, 125] (by decide) R hterms str parts hp
  have hsegs : literalSegments (js "{{key}}") str = evenParts parts := by
    unfold literalSegments
    simp only [hR, hp]
  rw [hsegs]
  exact scan_literal_line_terminator str parts hscan

/-! ## The remaining claims -/

/-- C11 (placeholder replacement): with `replacePlaceholders` on, the callback renders the
part at an odd index as `<`, the upper-cased content, `>`, the content being reversed when
`rtl` and `reversePlaceholders` are both on; nothing of the format is emitted.  So
`Hi {{name}}` comes out with `<NAME>` and without `{{name}}`. -/
theorem renderPlaceholder_replace (toUpperCase : JSString → JSString) (config : Config)
    (part : JSString) (index : Nat) (hrep : config.replacePlaceholders = true)
    (hodd : index % 2 = 1) :
    mapPart toUpperCase config part index =
      .ok ([60] ++ toUpperCase
        (if config.rtl = true ∧ config.reversePlaceholders = true then part.reverse
         else part) ++ [62]) ∧
    pseudoLocalize asciiUpper (js "Hi {{name}}")
      { DEFAULT_OPTIONS with replacePlaceholders := true } = .ok (js "⟦Ħïēē <NAME>⟧") := by
  constructor
  · unfold mapPart renderPlaceholder
    simp only [hodd, hrep, if_true]
    cases config.rtl <;> cases config.reversePlaceholders <;> simp
  · rfl

/-- The rendering of C11 for the ASCII upper-casing at index 1 of the default options with
`replacePlaceholders` and `rtl` on. -/
theorem renderPlaceholder_replace_witness :
    ({ DEFAULT_OPTIONS with replacePlaceholders := true, rtl := true } :
      Config).replacePlaceholders = true ∧ 1 % 2 = 1 ∧
    mapPart asciiUpper { DEFAULT_OPTIONS with replacePlaceholders := true, rtl := true }
      (js "name") 1 = .ok (js "<EMAN>") :=
  ⟨rfl, rfl,
   (renderPlaceholder_replace asciiUpper
     { DEFAULT_OPTIONS with replacePlaceholders := true, rtl := true }
     (js "name") 1 rfl rfl).1⟩

/-- C12 (marker wrapping): for a format that contains `key`, `pseudoLocalize` either returns
`startMarker ++ body ++ endMarker`, put between U+202E and U+202C exactly when `rtl` is on,
the body being the concatenation of the rendered parts, or, when the expansion is negative,
raises the `RangeError` of `repeat`; for a non-negative expansion it returns. -/
theorem pseudoLocalize_wrapping (toUpperCase : JSString → JSString) (str : JSString)
    (config : Config) (hkey : keyPlaceholder <:+: config.placeholderFormat) :
    ((∃ R parts mapped, buildPlaceholderRegex config.placeholderFormat = .ok R ∧
        split str R = some parts ∧ mapParts toUpperCase config 0 parts = .ok mapped ∧
        pseudoLocalize toUpperCase str config = .ok
          (if config.rtl = true then
            [8238] ++ (config.startMarker ++ mapped.flatten ++ config.endMarker) ++ [8236]
           else config.startMarker ++ mapped.flatten ++ config.endMarker)) ∨
      (config.expansion < 0 ∧
        pseudoLocalize toUpperCase str config = .error JSError.RangeError)) ∧
    (0 ≤ config.expansion → ∃ body, pseudoLocalize toUpperCase str config = .ok
      (if config.rtl = true then
        [8238] ++ (config.startMarker ++ body ++ config.endMarker) ++ [8236]
       else config.startMarker ++ body ++ config.endMarker)) := by
  obtain ⟨R, hR, -⟩ := buildPlaceholderRegex_ok _ hkey
  obtain ⟨parts, hp⟩ := split_isSome str R
  have hmain : ∀ mapped, mapParts toUpperCase config 0 parts = .ok mapped →
      pseudoLocalize toUpperCase str config = .ok
          (if config.rtl = true then
            [8238] ++ (config.startMarker ++ mapped.flatten ++ config.endMarker) ++ [8236]
           else config.startMarker ++ mapped.flatten ++ config.endMarker) := by
    intro mapped hm
    unfold pseudoLocalize
    simp only [hR, hp, hm]
    split <;> rfl
  constructor
  · cases hm : mapParts toUpperCase config 0 parts with
    | ok mapped => exact Or.inl ⟨R, parts, mapped, hR, hp, hm, hmain mapped hm⟩
    | error e =>
      obtain ⟨he, hneg⟩ := mapParts_error _ _ _ _ _ hm
      refine Or.inr ⟨hneg, ?_⟩
      unfold pseudoLocalize
      simp only [hR, hp, hm, he]
  · intro hexp
    obtain ⟨mapped, hm⟩ := mapParts_ok toUpperCase config hexp parts 0
    exact ⟨mapped.flatten, hmain mapped hm⟩

/-- The wrapping of C12 at the default options with `rtl` on. -/
theorem pseudoLocalize_wrapping_witness :
    keyPlaceholder <:+: ({ DEFAULT_OPTIONS with rtl := true } : Config).placeholderFormat ∧
    pseudoLocalize asciiUpper (js "Hi") { DEFAULT_OPTIONS with rtl := true } =
      .ok ([8238] ++ (js "⟦" ++ js "Ħïē" ++ js "⟧") ++ [8236]) ∧
    ∃ body, pseudoLocalize asciiUpper (js "Hi") { DEFAULT_OPTIONS with rtl := true } = .ok
      ([8238] ++ (js "⟦" ++ body ++ js "⟧") ++ [8236]) :=
  ⟨key_occurs [123, 123] [125, 125], rfl,
   (pseudoLocalize_wrapping asciiUpper (js "Hi") { DEFAULT_OPTIONS with rtl := true }
     (key_occurs [123, 123] [125, 125])).2 (by decide)⟩

/-- C13 (no-placeholder inputs): for a format that contains `key` and an input in which
the pattern occurs nowhere, `pseudoLocalize` is the text transformer applied to the whole
input, between the markers, and between U+202E and U+202C exactly when `rtl` is on; for a
non-negative expansion this is a string. -/
theorem pseudoLocalize_no_placeholder (toUpperCase : JSString → JSString)
    (input : JSString) (config : Config)
    (hkey : keyPlaceholder <:+: config.placeholderFormat)
    (hno : ∀ t u, input = t ++ u →
      ¬ OccursAt (formatPrefix config.placeholderFormat)
        (formatSuffix config.placeholderFormat) u) :
    pseudoLocalize toUpperCase input config = wrapTransformed config input ∧
    (0 ≤ config.expansion → ∃ t, transformText config input = .ok t ∧
      pseudoLocalize toUpperCase input config = .ok
        (if config.rtl = true then
          [8238] ++ (config.startMarker ++ t ++ config.endMarker) ++ [8236]
         else config.startMarker ++ t ++ config.endMarker)) := by
  obtain ⟨R, hR, hterms⟩ := buildPlaceholderRegex_ok _ hkey
  have hp := split_no_occurrence _ _ R hterms input hno
  have h1 : pseudoLocalize toUpperCase input config = wrapTransformed config input := by
    unfold pseudoLocalize wrapTransformed
    simp only [hR, hp, mapParts, mapPart]
    cases ht : transformText config input with
    | error e => simp
    | ok t => cases config.rtl <;> simp
  refine ⟨h1, ?_⟩
  intro hexp
  obtain ⟨P, T, -, hT⟩ := transformText_ok config input (padLengthOf_nonneg _ _ hexp)
  refine ⟨_, hT, ?_⟩
  rw [h1]
  unfold wrapTransformed
  rw [hT]

/-- The equation of C13 at the default options and the input `Hi!`. -/
theorem pseudoLocalize_no_placeholder_witness :
    keyPlaceholder <:+: (DEFAULT_OPTIONS).placeholderFormat ∧
    (∀ t u, js "Hi!" = t ++ u →
      ¬ OccursAt (formatPrefix (DEFAULT_OPTIONS).placeholderFormat)
        (formatSuffix (DEFAULT_OPTIONS).placeholderFormat) u) ∧
    pseudoLocalize asciiUpper (js "Hi!") DEFAULT_OPTIONS =
      wrapTransformed DEFAULT_OPTIONS (js "Hi!") ∧
    wrapTransformed DEFAULT_OPTIONS (js "Hi!") = .ok (js "⟦Ħïēē!⟧") :=
  ⟨key_occurs [123, 123] [125, 125],
   no_occurrence_of_tails _ _ _ (by decide),
   (pseudoLocalize_no_placeholder asciiUpper (js "Hi!") DEFAULT_OPTIONS
     (key_occurs [123, 123] [125, 125]) (no_occurrence_of_tails _ _ _ (by decide))).1,
   rfl⟩

/-- C14 (tree shape preservation), at the failing input: a mapping with the key
`__proto__` loses that key; the result of `processObject` has the single key `title` where
the input has `__proto__` and `title`, also when the mapping sits inside a sequence. -/
theorem processObject_drops_proto_key :
    processObject asciiUpper
        (.object [(js "__proto__", .string (js "Hello")), (js "title", .string (js "Hi"))])
        DEFAULT_OPTIONS =
      .ok (.object [(js "title", .string (js "⟦Ħïē⟧"))]) ∧
    [js "title"] ≠ [js "__proto__", js "title"] ∧
    processObject asciiUpper
        (.array [.object [(js "__proto__", .object [(js "a", .string (js "Hi"))])]])
        DEFAULT_OPTIONS =
      .ok (.array [.object []]) ∧
    processObject asciiUpper
        (.object [(js "greeting", .string (js "Hi")), (js "count", .number 3)])
        DEFAULT_OPTIONS =
      .ok (.object [(js "greeting", .string (js "⟦Ħïē⟧")), (js "count", .number 3)]) := by
  refine ⟨rfl, by decide, rfl, rfl⟩

/-- C15 (non-string leaves are untouched), at the failing input: the tree with the
boolean leaves `__proto__` and `enabled` has no string leaf, yet `processObject`, in the
library and in the generator alike, returns a tree without the key `__proto__`, which is
not the input. -/
theorem processObject_not_identity :
    hasStringLeaf
        (.object [(js "__proto__", .boolean true), (js "enabled", .boolean false)]) =
      false ∧
    processObject asciiUpper
        (.object [(js "__proto__", .boolean true), (js "enabled", .boolean false)])
        DEFAULT_OPTIONS =
      .ok (.object [(js "enabled", .boolean false)]) ∧
    CLI.processObject asciiUpper CLI.defaultOptions
        (.object [(js "__proto__", .boolean true), (js "enabled", .boolean false)]) =
      .ok (.object [(js "enabled", .boolean false)]) ∧
    JSValue.object [(js "enabled", .boolean false)] ≠
      .object [(js "__proto__", .boolean true), (js "enabled", .boolean false)] := by
  refine ⟨rfl, rfl, rfl, ?_⟩
  intro h
  injection h with h
  exact absurd (congrArg List.length h) (by decide)

/-- C16, the claim as stated fails, in four ways.  Under `rtl` the generator leaves
`{{name}}` as it is where the library renders `{{eman}}`.  With `replacePlaceholders` the
generator trims the name, rendering `{{ name }}` as `<NAME>` where the library renders
`< NAME >`.  The generator takes `{{a`, line feed, `b}}` (a literal segment, as the pattern
does not match across the line feed) for a placeholder and returns it as it is, where the
library transforms it as text.  The generator returns `{{$&}}` as it is where the library
renders `{{key}}`. -/
theorem CLI_differs_from_library :
    CLI.pseudoLocalize asciiUpper
        { expansionPercent := 40, replacePlaceholders := false, rtlMode := true }
        (js "Hi {{name}}") = .ok ([8238] ++ js "⟦Ħïēē {{name}}⟧" ++ [8236]) ∧
    pseudoLocalize asciiUpper (js "Hi {{name}}")
        { DEFAULT_OPTIONS with expansion := 40, replacePlaceholders := false, rtl := true } =
      .ok ([8238] ++ js "⟦Ħïēē {{eman}}⟧" ++ [8236]) ∧
    [8238] ++ js "⟦Ħïēē {{name}}⟧" ++ [8236] ≠ [8238] ++ js "⟦Ħïēē {{eman}}⟧" ++ [8236] ∧
    CLI.pseudoLocalize asciiUpper
        { expansionPercent := 40, replacePlaceholders := true, rtlMode := false }
        (js "Hi {{ name }}") = .ok (js "⟦Ħïēē <NAME>⟧") ∧
    pseudoLocalize asciiUpper (js "Hi {{ name }}")
        { DEFAULT_OPTIONS with expansion := 40, replacePlaceholders := true, rtl := false } =
      .ok (js "⟦Ħïēē < NAME >⟧") ∧
    js "⟦Ħïēē <NAME>⟧" ≠ js "⟦Ħïēē < NAME >⟧" ∧
    literalSegments (js "{{key}}") multiLinePlaceholder = [multiLinePlaceholder] ∧
    CLI.isPlaceholder multiLinePlaceholder = true ∧
    CLI.pseudoLocalize asciiUpper
        { expansionPercent := 40, replacePlaceholders := false, rtlMode := false }
        multiLinePlaceholder = .ok (js "⟦" ++ multiLinePlaceholder ++ js "⟧") ∧
    pseudoLocalize asciiUpper multiLinePlaceholder
        { DEFAULT_OPTIONS with expansion := 40, replacePlaceholders := false, rtl := false } =
      .ok (js "⟦" ++ [123, 123] ++ js "à\nƀ" ++ [125, 125] ++ js "ēēē⟧") ∧
    js "⟦" ++ multiLinePlaceholder ++ js "⟧" ≠
      js "⟦" ++ [123, 123] ++ js "à\nƀ" ++ [125, 125] ++ js "ēēē⟧" ∧
    placeholderNames (js "{{$&}}") = [js "$&"] ∧
    hasReplacementPattern (js "$&") = true ∧
    CLI.pseudoLocalize asciiUpper
        { expansionPercent := 40, replacePlaceholders := false, rtlMode := false }
        (js "{{$&}}") = .ok (js "⟦{{$&}}⟧") ∧
    pseudoLocalize asciiUpper (js "{{$&}}")
        { DEFAULT_OPTIONS with expansion := 40, replacePlaceholders := false, rtl := false } =
      .ok (js "⟦{{key}}⟧") ∧
    js "⟦{{$&}}⟧" ≠ js "⟦{{key}}⟧" := by
  refine ⟨rfl, rfl, by decide, rfl, rfl, by decide, by decide, by decide, rfl, rfl,
    by decide, by decide, by decide, rfl, rfl, by decide⟩

/-- C16 (amended): let every literal segment of the input (the text before, between and
after the placeholders that the library finds) that both starts with `{{` and ends with `}}`
(it then holds a line terminator, as in `{{a`, line feed, `b}}`) occur only where
placeholders are kept, hold no letter of the accent table and get no pad; let no placeholder
name hold a replacement pattern (`$` followed by `$`, `&`, a backtick or an apostrophe) when
placeholders are kept, and let every name be trimmed when they are replaced.  Then the
generator's `pseudoLocalize` returns what the library's returns under the same expansion,
`replacePlaceholders` and `rtl`, the other options at their defaults but for
`reversePlaceholders`, which is on only where placeholders are replaced; so it returns what
the library returns with all other options at their defaults, unless `rtl` is on,
placeholders are kept and some name does not read the same in both directions. -/
theorem CLI_matches_library (toUpperCase : JSString → JSString) (options : CLI.Options)
    (str : JSString)
    (hlit : ∀ l ∈ literalSegments (js "{{key}}") str, CLI.isPlaceholder l = true →
      options.replacePlaceholders = false ∧ replaceAccents CLI.accentMap l = l ∧
        padLengthOf l.length options.expansionPercent = 0)
    (hd : options.replacePlaceholders = false →
      ∀ c ∈ placeholderNames str, hasReplacementPattern c = false)
    (ht : options.replacePlaceholders = true → ∀ c ∈ placeholderNames str, trim c = c) :
    CLI.pseudoLocalize toUpperCase options str =
      pseudoLocalize toUpperCase str (CLI.libraryConfig options) ∧
    ((options.rtlMode = true → options.replacePlaceholders = false →
        ∀ c ∈ placeholderNames str, c.reverse = c) →
      CLI.pseudoLocalize toUpperCase options str =
        pseudoLocalize toUpperCase str
          { DEFAULT_OPTIONS with
            expansion := options.expansionPercent
            replacePlaceholders := options.replacePlaceholders
            rtl := options.rtlMode }) := by
  obtain ⟨R, hR, hterms⟩ := buildPlaceholderRegex_ok (js "{{key}}")
    (key_occurs [123, 123] [125, 125])
  rw [formatPrefix_default, formatSuffix_default] at hterms
  obtain ⟨parts, hp⟩ := split_isSome str R
  have hsw : splitWith str CLI.matchPlaceholder = some (wrapOdd wrapBraces parts) := by
    rw [splitWith_wrap [123, 123] [125, 125] wrapBraces CLI.matchPlaceholder
      matchPlaceholder_eq R hterms str, hp]
    rfl
  have hnames : placeholderNames str = oddParts parts := by
    unfold placeholderNames
    simp only [hR, hp]
  have hsegs : literalSegments (js "{{key}}") str = evenParts parts := by
    unfold literalSegments
    simp only [hR, hp]
  rw [hnames] at ht hd
  rw [hsegs] at hlit
  have hmap := CLI_mapParts_parts toUpperCase options parts hlit hd ht
  have hfmt : (CLI.libraryConfig options).placeholderFormat = js "{{key}}" := rfl
  have h1 : CLI.pseudoLocalize toUpperCase options str =
      pseudoLocalize toUpperCase str (CLI.libraryConfig options) := by
    unfold CLI.pseudoLocalize pseudoLocalize
    simp only [hsw, hfmt, hR, hp, hmap]
    rfl
  refine ⟨h1, ?_⟩
  intro h
  rw [h1]
  rw [hnames] at h
  rcases Bool.eq_false_or_eq_true options.rtlMode with hr | hr
  · rcases Bool.eq_false_or_eq_true options.replacePlaceholders with hrp | hrp
    · unfold CLI.libraryConfig
      rw [hrp]
      rfl
    · have hpal := h hr hrp
      refine pseudoLocalize_reverse_palindromes toUpperCase str
        { DEFAULT_OPTIONS with
          expansion := options.expansionPercent
          replacePlaceholders := options.replacePlaceholders
          rtl := options.rtlMode } options.replacePlaceholders ?_
      intro R2 parts2 hR2 hp2
      have hfmt2 : ({ DEFAULT_OPTIONS with
          expansion := options.expansionPercent
          replacePlaceholders := options.replacePlaceholders
          rtl := options.rtlMode } : Config).placeholderFormat = js "{{key}}" := rfl
      rw [hfmt2, hR] at hR2
      cases hR2
      rw [hp] at hp2
      cases hp2
      exact hpal
  · exact pseudoLocalize_reversePlaceholders toUpperCase str
      { DEFAULT_OPTIONS with
        expansion := options.expansionPercent
        replacePlaceholders := options.replacePlaceholders
        rtl := options.rtlMode } options.replacePlaceholders hr

/-- The equality of C16 at two inputs.  At the options `40`, keep, no `rtl`: an input with a
line feed outside the placeholder and a `$` in its name.  At the options `-1`, keep, `rtl`:
the literal segment `{{1`, line feed, `2}}`, which both implementations return as it is,
followed by the placeholder `{{$}}`. -/
theorem CLI_matches_library_witness :
    (∀ l ∈ literalSegments (js "{{key}}") (js "Hello\nWorld {{$amount}}!"),
      CLI.isPlaceholder l = false) ∧
    (∀ c ∈ placeholderNames (js "Hello\nWorld {{$amount}}!"),
      hasReplacementPattern c = false) ∧
    CLI.pseudoLocalize asciiUpper
        { expansionPercent := 40, replacePlaceholders := false, rtlMode := false }
        (js "Hello\nWorld {{$amount}}!") =
      pseudoLocalize asciiUpper (js "Hello\nWorld {{$amount}}!")
        { DEFAULT_OPTIONS with expansion := 40, replacePlaceholders := false, rtl := false } ∧
    literalSegments (js "{{key}}") ([123, 123, 49, 10, 50, 125, 125] ++ js "{{$}}") =
      [[123, 123, 49, 10, 50, 125, 125], []] ∧
    placeholderNames ([123, 123, 49, 10, 50, 125, 125] ++ js "{{$}}") = [js "$"] ∧
    CLI.pseudoLocalize asciiUpper
        { expansionPercent := -1, replacePlaceholders := false, rtlMode := true }
        ([123, 123, 49, 10, 50, 125, 125] ++ js "{{$}}") =
      pseudoLocalize asciiUpper ([123, 123, 49, 10, 50, 125, 125] ++ js "{{$}}")
        { DEFAULT_OPTIONS with expansion := -1, replacePlaceholders := false, rtl := true } :=
  ⟨by decide, by decide,
   (CLI_matches_library asciiUpper
     { expansionPercent := 40, replacePlaceholders := false, rtlMode := false }
     (js "Hello\nWorld {{$amount}}!") (by decide) (fun _ => by decide)
     (fun h => by cases h)).2 (fun h => by cases h),
   by decide, by decide,
   (CLI_matches_library asciiUpper
     { expansionPercent := -1, replacePlaceholders := false, rtlMode := true }
     ([123, 123, 49, 10, 50, 125, 125] ++ js "{{$}}") (by decide) (fun _ => by decide)
     (fun h => by cases h)).2 (fun _ _ => by decide)⟩

/-- C17, the claim as stated fails: with the format `key` the pattern matches the empty
string, and the split of the empty input has no segment at all. -/
theorem split_empty_input_bare_key :
    keyPlaceholder <:+: js "key" ∧
    ∃ R, buildPlaceholderRegex (js "key") = .ok R ∧ split [] R = some [] ∧
      ([] : List JSString) ≠ [[]] :=
  ⟨key_occurs [] [], _, rfl, rfl, by decide⟩

/-- C17 (amended): for a format that contains `key` and has a non-empty prefix or suffix,
the empty input is split into the single empty literal; and for a format that contains
`key`, an input in which the pattern occurs nowhere is split into the single literal that
is the whole input. -/
theorem split_edge_cases (format input : JSString) (h : keyPlaceholder <:+: format) :
    (formatPrefix format ++ formatSuffix format ≠ [] →
      ∃ R, buildPlaceholderRegex format = .ok R ∧ split [] R = some [[]]) ∧
    ((∀ t u, input = t ++ u →
        ¬ OccursAt (formatPrefix format) (formatSuffix format) u) →
      ∃ R, buildPlaceholderRegex format = .ok R ∧ split input R = some [input]) := by
  obtain ⟨R, hR, hterms⟩ := buildPlaceholderRegex_ok format h
  constructor
  · intro hne
    refine ⟨R, hR, split_no_occurrence _ _ R hterms [] ?_⟩
    intro t u htu
    rw [(List.append_eq_nil.mp htu.symm).2]
    exact not_occursAt_nil _ _ hne
  · intro hno
    exact ⟨R, hR, split_no_occurrence _ _ R hterms input hno⟩

/-- The edge cases of C17 at the format `{{key}}` and the input `Hi!`. -/
theorem split_edge_cases_witness :
    keyPlaceholder <:+: js "{{key}}" ∧
    (∃ R, buildPlaceholderRegex (js "{{key}}") = .ok R ∧ split [] R = some [[]]) ∧
    (∃ R, buildPlaceholderRegex (js "{{key}}") = .ok R ∧
      split (js "Hi!") R = some [js "Hi!"]) :=
  ⟨key_occurs [123, 123] [125, 125],
   (split_edge_cases (js "{{key}}") (js "Hi!") (key_occurs [123, 123] [125, 125])).1
     (by decide),
   (split_edge_cases (js "{{key}}") (js "Hi!") (key_occurs [123, 123] [125, 125])).2
     (no_occurrence_of_tails _ _ _ (by decide))⟩

/-- C18 (the expansion flag), at the failing input: the flag `--expansion=0` leaves the
percentage at 40, because `parseInt("0", 10) || 40` is 40, and the text `Hello` is then
padded with two units where the percentage 0 pads with none.  Without the flag the
percentage is 40, and `--expansion=25` sets it to 25. -/
theorem CLI_expansion_zero_flag :
    js "--expansion=" ++ intDecimal 0 = js "--expansion=0" ∧
    CLI.parseOptions [js "input.json", js "output.json", js "--expansion=0"] =
      some { expansionPercent := 40, replacePlaceholders := false, rtlMode := false } ∧
    CLI.pseudoLocalize asciiUpper
        { expansionPercent := 40, replacePlaceholders := false, rtlMode := false }
        (js "Hello") = .ok (js "⟦Ħëļļõēē⟧") ∧
    CLI.pseudoLocalize asciiUpper
        { expansionPercent := 0, replacePlaceholders := false, rtlMode := false }
        (js "Hello") = .ok (js "⟦Ħëļļõ⟧") ∧
    CLI.parseOptions [js "input.json", js "output.json"] =
      some { expansionPercent := 40, replacePlaceholders := false, rtlMode := false } ∧
    CLI.parseOptions [js "input.json", js "output.json", js "--expansion=25"] =
      some { expansionPercent := 25, replacePlaceholders := false, rtlMode := false } := by
  refine ⟨by decide, by decide, rfl, rfl, by decide, by decide⟩

/-- C19 (output length under the default map): the default map has 52 keys, each a single
code unit mapped to a single code unit, so substitution keeps the length; and for an input
in which the pattern occurs nowhere, under the default map, a one-unit `expansionChar`, a
non-negative expansion and `rtl` off, `pseudoLocalize` returns a string whose length is that
of the markers plus that of the input plus `ceil (length * expansion / 100)`. -/
theorem pseudoLocalize_length (toUpperCase : JSString → JSString) (s : JSString)
    (config : Config) (hkey : keyPlaceholder <:+: config.placeholderFormat)
    (hno : ∀ t u, s = t ++ u →
      ¬ OccursAt (formatPrefix config.placeholderFormat)
        (formatSuffix config.placeholderFormat) u)
    (hmap : config.accentMap = DEFAULT_ACCENT_MAP) (hchar : config.expansionChar.length = 1)
    (hexp : 0 ≤ config.expansion) (hrtl : config.rtl = false) :
    (DEFAULT_ACCENT_MAP.length = 52 ∧
      ∀ kv ∈ DEFAULT_ACCENT_MAP, kv.1.length = 1 ∧ kv.2.length = 1) ∧
    (replaceAccents DEFAULT_ACCENT_MAP s).length = s.length ∧
    ∃ out, pseudoLocalize toUpperCase s config = .ok out ∧
      out.length = config.startMarker.length + s.length +
        ⌈((s.length : ℚ) * (config.expansion : ℚ)) / 100⌉₊ + config.endMarker.length := by
  have hlen : (replaceAccents DEFAULT_ACCENT_MAP s).length = s.length :=
    replaceAccents_length _ (fun kv hkv => (DEFAULT_ACCENT_MAP_values kv hkv).2) s
  refine ⟨⟨by decide, DEFAULT_ACCENT_MAP_values⟩, hlen, ?_⟩
  obtain ⟨R, hR, hterms⟩ := buildPlaceholderRegex_ok _ hkey
  have hp := split_no_occurrence _ _ R hterms s hno
  obtain ⟨P, T, hPT, hT⟩ := transformText_ok config s (padLengthOf_nonneg _ _ hexp)
  have hpl : pseudoLocalize toUpperCase s config = .ok (config.startMarker ++ (P ++
      (List.replicate (padLengthOf (replaceAccents config.accentMap s).length
        config.expansion).toNat config.expansionChar).flatten ++ T) ++ config.endMarker) := by
    unfold pseudoLocalize
    simp only [hR, hp, mapParts, mapPart, hT, hrtl]
    simp
  refine ⟨_, hpl, ?_⟩
  have hPT2 := congrArg List.length hPT
  rw [hmap, hlen, List.length_append] at hPT2
  rw [hmap, hlen, padLengthOf_eq_ceil, Int.ceil_toNat]
  simp only [List.length_append, flatten_replicate_length, hchar]
  omega

/-- The length of C19 at the default options and the input `Hello`. -/
theorem pseudoLocalize_length_witness :
    keyPlaceholder <:+: (DEFAULT_OPTIONS).placeholderFormat ∧
    (DEFAULT_OPTIONS).accentMap = DEFAULT_ACCENT_MAP ∧
    (DEFAULT_OPTIONS).expansionChar.length = 1 ∧
    (0 : Int) ≤ (DEFAULT_OPTIONS).expansion ∧ (DEFAULT_OPTIONS).rtl = false ∧
    ∃ out, pseudoLocalize asciiUpper (js "Hello") DEFAULT_OPTIONS = .ok out ∧
      out.length = (DEFAULT_OPTIONS).startMarker.length + (js "Hello").length +
        ⌈(((js "Hello").length : ℚ) * (((DEFAULT_OPTIONS).expansion : Int) : ℚ)) / 100⌉₊ +
        (DEFAULT_OPTIONS).endMarker.length :=
  ⟨key_occurs [123, 123] [125, 125], rfl, by decide, by decide, rfl,
   (pseudoLocalize_length asciiUpper (js "Hello") DEFAULT_OPTIONS
     (key_occurs [123, 123] [125, 125]) (no_occurrence_of_tails _ _ _ (by decide))
     rfl (by decide) (by decide) rfl).2.2⟩

/-- C20 (empty-suffix formats capture nothing): for a format that ends with `key`, being
its prefix followed by `key`, the suffix is empty, the pattern is built, the split returns
its parts, every part at an odd index (a placeholder content) is empty, and the parts with
the prefix put back at the odd indices concatenate to the input, so the text after each
prefix occurrence lies in a literal part.  With the format `:key`, `Hi :name` is split into
`Hi `, the empty content and `name`, and the name comes out accent-substituted and
padded. -/
theorem split_empty_suffix (format input : JSString)
    (hend : format = formatPrefix format ++ keyPlaceholder) :
    (formatSuffix format = [] ∧
      ∃ R parts, buildPlaceholderRegex format = .ok R ∧ split input R = some parts ∧
        (∀ i c, i % 2 = 1 → parts[i]? = some c → c = []) ∧
        reassemble (formatPrefix format) [] 0 parts = input) ∧
    (∃ R, buildPlaceholderRegex (js ":key") = .ok R ∧
      split (js "Hi :name") R = some [js "Hi ", [], js "name"]) ∧
    pseudoLocalize asciiUpper (js "Hi :name")
      { DEFAULT_OPTIONS with placeholderFormat := js ":key" } =
        .ok (js "⟦Ħïēē :ñàɱëēē⟧") := by
  refine ⟨?_, ⟨_, rfl, rfl⟩, rfl⟩
  have h : keyPlaceholder <:+: format := ⟨formatPrefix format, [], by simpa using hend.symm⟩
  have hsuf : formatSuffix format = [] := by
    have h1 := format_split format h
    have h2 : formatPrefix format ++ keyPlaceholder ++ formatSuffix format =
        formatPrefix format ++ keyPlaceholder ++ [] := by
      rw [← h1, List.append_nil]; exact hend
    exact List.append_cancel_left h2
  refine ⟨hsuf, ?_⟩
  obtain ⟨R, hR, hterms⟩ := buildPlaceholderRegex_ok format h
  rw [hsuf] at hterms
  obtain ⟨parts, hp⟩ := split_isSome input R
  refine ⟨R, parts, hR, hp, ?_, ?_⟩
  · cases input with
    | nil =>
      simp only [split] at hp
      intro i c hi hc
      split at hp
      · simp only [Option.some.injEq] at hp
        subst hp
        simp at hc
      · simp only [Option.some.injEq] at hp
        subst hp
        cases i with
        | zero => omega
        | succ i => simp at hc
    | cons d input =>
      simp only [split, hterms] at hp
      exact splitLoop_empty_suffix _ _ _ _ _ hp
  · cases input with
    | nil =>
      simp only [split] at hp
      split at hp <;> simp only [Option.some.injEq] at hp <;> subst hp <;> simp [reassemble]
    | cons d input =>
      simp only [split, hterms] at hp
      have := (splitLoop_reassemble _ _ _ _ _ _ hp).1
      simpa using this

/-- The split of C20 at the format `$key` and the input `Pay $amount`. -/
theorem split_empty_suffix_witness :
    js "$key" = formatPrefix (js "$key") ++ keyPlaceholder ∧
    formatSuffix (js "$key") = [] ∧
    ∃ R parts, buildPlaceholderRegex (js "$key") = .ok R ∧
      split (js "Pay $amount") R = some parts ∧
      (∀ i c, i % 2 = 1 → parts[i]? = some c → c = []) ∧
      reassemble (formatPrefix (js "$key")) [] 0 parts = js "Pay $amount" :=
  ⟨by decide, (split_empty_suffix (js "$key") (js "Pay $amount") (by decide)).1⟩

/-! ## Totality within a maximum string length -/

theorem fits_ok (maxLength : Nat) (s : JSString) (h : s.length ≤ maxLength) :
    fits maxLength s = .ok s := by
  unfold fits
  rw [if_pos h]

theorem fits_eq_ok (maxLength : Nat) (s r : JSString) :
    fits maxLength s = .ok r ↔ s = r ∧ s.length ≤ maxLength := by
  unfold fits
  by_cases h : s.length ≤ maxLength
  · simp [h]
  · simp [h]

theorem escapeRegex_length_le (s : JSString) : (escapeRegex s).length ≤ 2 * s.length := by
  unfold escapeRegex
  induction s with
  | nil => simp
  | cons c s ih =>
    simp only [List.flatMap_cons, List.length_append, List.length_cons]
    have : (if isEscapedChar c = true then [92, c] else [c]).length ≤ 2 := by
      split <;> simp
    omega

/-- The pattern text is shorter than twice the format. -/
theorem patternText_length_le (format : JSString) (h : keyPlaceholder <:+: format) :
    (patternText format).length ≤ 2 * format.length := by
  have hsplit := congrArg List.length (format_split format h)
  have hkey : keyPlaceholder.length = 3 := by decide
  have hgroup : (js "(.*?)").length = 5 := by decide
  simp only [List.length_append, hkey] at hsplit
  have h1 := escapeRegex_length_le (formatPrefix format)
  have h2 := escapeRegex_length_le (formatSuffix format)
  unfold patternText
  simp only [List.length_append, hgroup]
  omega

/-- For a format that contains `key`, the pattern is built on the engine with a maximum
string length exactly when the pattern text is within the maximum, and it is the pattern
built without a maximum. -/
theorem buildPlaceholderRegexWithin_eq_ok (maxLength : Nat) (format : JSString)
    (h : keyPlaceholder <:+: format) (R : RegExp) :
    buildPlaceholderRegexWithin maxLength format = .ok R ↔
      (patternText format).length ≤ maxLength ∧ buildPlaceholderRegex format = .ok R := by
  have hi : ¬ indexOf format keyPlaceholder = -1 := by
    rw [indexOf_eq_neg_one]; simpa using h
  have hb : buildPlaceholderRegex format = newRegExp (patternText format) := by
    unfold buildPlaceholderRegex patternText
    simp only [hi, if_false]
  unfold buildPlaceholderRegexWithin
  simp only [hi, if_false, hb]
  by_cases hf : (patternText format).length ≤ maxLength
  · rw [fits_ok _ _ hf]
    simp [hf]
  · have : fits maxLength (patternText format) = .error JSError.RangeError := by
      unfold fits
      rw [if_neg hf]
    rw [this]
    simp [hf]

theorem infiniteFrom_eq : infiniteFrom = 2 ^ 1024 - 2 ^ 970 := by
  unfold infiniteFrom
  have e1 : ((2 : Nat) ^ 97) ^ 10 = 2 ^ 970 := by rw [← pow_mul]
  have e2 : (2 : Nat) ^ 1024 = 2 ^ 54 * 2 ^ 970 := by rw [← pow_add]
  rw [e1, e2, Nat.sub_mul, one_mul]

theorem infiniteFrom_ge : 2 ^ 53 ≤ infiniteFrom := by
  unfold infiniteFrom
  have ha : 0 < ((2 : Nat) ^ 97) ^ 10 := pow_pos (pow_pos (by norm_num) 97) 10
  generalize ((2 : Nat) ^ 97) ^ 10 = a at ha
  calc 2 ^ 53 ≤ (2 ^ 54 - 1) * 1 := by norm_num
    _ ≤ (2 ^ 54 - 1) * a := Nat.mul_le_mul_left _ ha

/-- The call `repeat` on the pad length returns exactly when the product does not overflow,
the pad length is not negative and the pad is within the maximum; it returns the pad. -/
theorem strRepeatWithin_eq_ok (maxLength : Nat) (s : JSString) (length : Nat)
    (expansion : Int) (pad : JSString) :
    strRepeatWithin maxLength s (padLengthNumber length expansion) = .ok pad ↔
      ((length : Int) * expansion).natAbs < infiniteFrom ∧
      0 ≤ padLengthOf length expansion ∧
      (padLengthOf length expansion).toNat * s.length ≤ maxLength ∧
      (List.replicate (padLengthOf length expansion).toNat s).flatten = pad := by
  unfold padLengthNumber strRepeatWithin
  by_cases h1 : infiniteFrom ≤ ((length : Int) * expansion).natAbs
  · simp only [h1, if_true]
    constructor
    · intro h; cases h
    · intro h; omega
  · simp only [h1, if_false]
    by_cases h2 : padLengthOf length expansion < 0
    · simp only [h2, if_true]
      constructor
      · intro h; cases h
      · intro h; omega
    · simp only [h2, if_false]
      by_cases h3 : (padLengthOf length expansion).toNat * s.length ≤ maxLength
      · simp only [h3, if_true, Except.ok.injEq]
        constructor
        · intro h; exact ⟨by omega, by omega, trivial, h⟩
        · intro h; exact h.2.2.2
      · simp only [h3, if_false]
        constructor
        · intro h; cases h
        · intro h; exact h.2.2.1.elim

/-- The transformer returns a text only for a pad length that is not negative. -/
theorem transformText_ok_nonneg (config : Config) (part r : JSString)
    (h : transformText config part = .ok r) :
    0 ≤ padLengthOf (replaceAccents config.accentMap part).length config.expansion := by
  by_contra hc
  have hneg : padLengthOf (replaceAccents config.accentMap part).length config.expansion < 0 :=
    by omega
  unfold transformText at h
  simp only [strRepeat, hneg, if_true] at h
  cases h

/-- When the substituted part and the pad are within the maximum, the transformer on the
engine with that maximum does what the transformer does and then checks its result. -/
theorem transformTextWithin_of_pad (maxLength : Nat) (config : Config) (part : JSString)
    (hsub : (replaceAccents config.accentMap part).length ≤ maxLength)
    (hfin : (((replaceAccents config.accentMap part).length : Int) *
      config.expansion).natAbs < infiniteFrom)
    (hpad : 0 ≤ padLengthOf (replaceAccents config.accentMap part).length config.expansion)
    (hfit : (padLengthOf (replaceAccents config.accentMap part).length
      config.expansion).toNat * config.expansionChar.length ≤ maxLength) :
    transformTextWithin maxLength config part =
      match transformText config part with
      | .error e => .error e
      | .ok r => fits maxLength r := by
  have hrep := (strRepeatWithin_eq_ok maxLength config.expansionChar
    (replaceAccents config.accentMap part).length config.expansion _).mpr
    ⟨hfin, hpad, hfit, rfl⟩
  unfold transformTextWithin transformText
  simp only [fits_ok _ _ hsub, hrep, strRepeat_nonneg _ _ hpad]
  split
  · cases hm : matchTrailing (replaceAccents config.accentMap part) with
    | none => rfl
    | some y => rfl
  · rfl

/-- When the transformer on the engine with a maximum string length returns a text, the
transformer returns it, it is within the maximum, and the pad length is a finite Number, not
negative, of a pad within the maximum. -/
theorem transformTextWithin_ok (maxLength : Nat) (config : Config) (part r : JSString)
    (h : transformTextWithin maxLength config part = .ok r) :
    transformText config part = .ok r ∧ r.length ≤ maxLength ∧
      (((replaceAccents config.accentMap part).length : Int) *
        config.expansion).natAbs < infiniteFrom ∧
      0 ≤ padLengthOf (replaceAccents config.accentMap part).length config.expansion ∧
      (padLengthOf (replaceAccents config.accentMap part).length
        config.expansion).toNat * config.expansionChar.length ≤ maxLength := by
  have h0 := h
  unfold transformTextWithin at h0
  cases hf : fits maxLength (replaceAccents config.accentMap part) with
  | error e => rw [hf] at h0; cases h0
  | ok p =>
    obtain ⟨hp, hsub⟩ := (fits_eq_ok _ _ _).mp hf
    subst hp
    rw [hf] at h0
    simp only at h0
    cases hs : strRepeatWithin maxLength config.expansionChar
        (padLengthNumber (replaceAccents config.accentMap part).length config.expansion) with
    | error e => rw [hs] at h0; cases h0
    | ok pad =>
      obtain ⟨hfin, hpad, hfit, -⟩ := (strRepeatWithin_eq_ok _ _ _ _ _).mp hs
      have h1 := h
      rw [transformTextWithin_of_pad maxLength config part hsub hfin hpad hfit] at h1
      cases ht : transformText config part with
      | error e => rw [ht] at h1; cases h1
      | ok x =>
        rw [ht] at h1
        simp only at h1
        obtain ⟨hx, hlen⟩ := (fits_eq_ok _ _ _).mp h1
        subst hx
        exact ⟨rfl, hlen, hfin, hpad, hfit⟩

/-- When the transformer returns a text within the maximum and the product does not
overflow, the transformer on the engine with that maximum returns the same text. -/
theorem transformTextWithin_eq (maxLength : Nat) (config : Config) (part r : JSString)
    (h : transformText config part = .ok r) (hr : r.length ≤ maxLength)
    (hfin : (((replaceAccents config.accentMap part).length : Int) *
      config.expansion).natAbs < infiniteFrom) :
    transformTextWithin maxLength config part = .ok r := by
  have hpad := transformText_ok_nonneg config part r h
  obtain ⟨P, T, hPT, hT⟩ := transformText_ok config part hpad
  rw [hT] at h
  injection h with h
  have hlen := congrArg List.length h
  have hPTlen := congrArg List.length hPT
  simp only [List.length_append, flatten_replicate_length] at hlen hPTlen
  have hsub : (replaceAccents config.accentMap part).length ≤ maxLength := by omega
  have hfit : (padLengthOf (replaceAccents config.accentMap part).length
      config.expansion).toNat * config.expansionChar.length ≤ maxLength := by omega
  rw [transformTextWithin_of_pad maxLength config part hsub hfin hpad hfit, hT]
  simp only
  rw [h]
  exact fits_ok _ _ hr

/-- The rendering of a placeholder on the engine with a maximum string length returns
exactly when the rendered placeholder is within the maximum, and returns it. -/
theorem renderPlaceholderWithin_eq_ok (maxLength : Nat) (toUpperCase : JSString → JSString)
    (config : Config) (part r : JSString) :
    renderPlaceholderWithin maxLength toUpperCase config part = .ok r ↔
      renderPlaceholder toUpperCase config part = r ∧ r.length ≤ maxLength := by
  unfold renderPlaceholderWithin renderPlaceholder
  cases hrp : config.replacePlaceholders with
  | false =>
    simp only [Bool.false_eq_true, if_false]
    rw [fits_eq_ok]
    constructor
    · rintro ⟨h1, h2⟩; exact ⟨h1, by rw [← h1]; exact h2⟩
    · rintro ⟨h1, h2⟩; exact ⟨h1, by rw [h1]; exact h2⟩
  | true =>
    simp only [if_true]
    by_cases hu : (toUpperCase
        (if (config.rtl && config.reversePlaceholders) = true then part.reverse
          else part)).length ≤ maxLength
    · rw [fits_ok _ _ hu]
      simp only
      rw [fits_eq_ok]
      constructor
      · rintro ⟨h1, h2⟩; exact ⟨h1, by rw [← h1]; exact h2⟩
      · rintro ⟨h1, h2⟩; exact ⟨h1, by rw [h1]; exact h2⟩
    · have hf : fits maxLength (toUpperCase
          (if (config.rtl && config.reversePlaceholders) = true then part.reverse
            else part)) = .error JSError.RangeError := by
        unfold fits
        rw [if_neg hu]
      rw [hf]
      constructor
      · intro h; cases h
      · rintro ⟨h1, h2⟩
        exfalso
        apply hu
        rw [← h1] at h2
        simp only [List.length_append, List.length_cons, List.length_nil] at h2
        omega

theorem evenParts_oddParts_cons :
    ∀ (t : List JSString) (a : JSString),
      evenParts (a :: t) = a :: oddParts t ∧ oddParts (a :: t) = evenParts t := by
  intro t
  induction t with
  | nil => intro a; exact ⟨rfl, rfl⟩
  | cons b r ih =>
    intro a
    constructor
    · simp only [evenParts, (ih b).2]
    · simp only [oddParts, (ih b).1]

/-- When the map on the engine with a maximum string length returns, the map returns the
same parts, every one of them is within the maximum, and every part it treats as text has a
pad length that is a finite Number, not negative, of a pad within the maximum. -/
theorem mapPartsWithin_ok (maxLength : Nat) (toUpperCase : JSString → JSString)
    (config : Config) :
    ∀ (parts : List JSString) (index : Nat) (mapped : List JSString),
      mapPartsWithin maxLength toUpperCase config index parts = .ok mapped →
      mapParts toUpperCase config index parts = .ok mapped ∧
      (∀ r ∈ mapped, r.length ≤ maxLength) ∧
      ∀ l ∈ (if index % 2 = 1 then oddParts parts else evenParts parts),
        (((replaceAccents config.accentMap l).length : Int) *
          config.expansion).natAbs < infiniteFrom ∧
        0 ≤ padLengthOf (replaceAccents config.accentMap l).length config.expansion ∧
        (padLengthOf (replaceAccents config.accentMap l).length
          config.expansion).toNat * config.expansionChar.length ≤ maxLength := by
  intro parts
  induction parts with
  | nil =>
    intro index mapped h
    simp only [mapPartsWithin] at h
    injection h with h
    subst h
    refine ⟨rfl, by simp, ?_⟩
    intro l hl
    split at hl <;> simp [oddParts, evenParts] at hl
  | cons part parts ih =>
    intro index mapped h
    simp only [mapPartsWithin] at h
    cases h1 : mapPartWithin maxLength toUpperCase config part index with
    | error e => rw [h1] at h; cases h
    | ok r =>
      rw [h1] at h
      simp only at h
      cases h2 : mapPartsWithin maxLength toUpperCase config (index + 1) parts with
      | error e => rw [h2] at h; cases h
      | ok rs =>
        rw [h2] at h
        simp only at h
        injection h with h
        subst h
        obtain ⟨ih1, ih2, ih3⟩ := ih (index + 1) rs h2
        obtain ⟨he, ho⟩ := evenParts_oddParts_cons parts part
        unfold mapPartWithin at h1
        by_cases hi : index % 2 = 1
        · have hi2 : (index + 1) % 2 ≠ 1 := by omega
          simp only [hi, beq_self_eq_true, if_true] at h1
          obtain ⟨hr, hlen⟩ := (renderPlaceholderWithin_eq_ok _ _ _ _ _).mp h1
          refine ⟨?_, ?_, ?_⟩
          · simp only [mapParts, mapPart, hi, beq_self_eq_true, if_true, hr, ih1]
          · intro x hx
            rcases List.mem_cons.mp hx with rfl | hx
            · exact hlen
            · exact ih2 x hx
          · intro l hl
            rw [if_pos hi, ho] at hl
            rw [if_neg hi2] at ih3
            exact ih3 l hl
        · have hi2 : (index + 1) % 2 = 1 := by omega
          have hb : (index % 2 == 1) = false := by simpa using hi
          simp only [hb, Bool.false_eq_true, if_false] at h1
          obtain ⟨ht, hlen, hseg⟩ := transformTextWithin_ok _ _ _ _ h1
          refine ⟨?_, ?_, ?_⟩
          · simp only [mapParts, mapPart, hb, Bool.false_eq_true, if_false, ht, ih1]
          · intro x hx
            rcases List.mem_cons.mp hx with rfl | hx
            · exact hlen
            · exact ih2 x hx
          · intro l hl
            rw [if_neg hi, he] at hl
            rw [if_pos hi2] at ih3
            rcases List.mem_cons.mp hl with rfl | hl
            · exact hseg
            · exact ih3 l hl

/-- When the map returns parts that are within the maximum and no product of a part it
treats as text overflows, the map on the engine with that maximum returns the same parts. -/
theorem mapPartsWithin_eq (maxLength : Nat) (toUpperCase : JSString → JSString)
    (config : Config) :
    ∀ (parts : List JSString) (index : Nat) (mapped : List JSString),
      mapParts toUpperCase config index parts = .ok mapped →
      (∀ r ∈ mapped, r.length ≤ maxLength) →
      (∀ l ∈ (if index % 2 = 1 then oddParts parts else evenParts parts),
        (((replaceAccents config.accentMap l).length : Int) *
          config.expansion).natAbs < infiniteFrom) →
      mapPartsWithin maxLength toUpperCase config index parts = .ok mapped := by
  intro parts
  induction parts with
  | nil =>
    intro index mapped h _ _
    simp only [mapParts] at h
    simp only [mapPartsWithin, h]
  | cons part parts ih =>
    intro index mapped h hlen hfin
    simp only [mapParts] at h
    cases h1 : mapPart toUpperCase config part index with
    | error e => rw [h1] at h; cases h
    | ok r =>
      rw [h1] at h
      simp only at h
      cases h2 : mapParts toUpperCase config (index + 1) parts with
      | error e => rw [h2] at h; cases h
      | ok rs =>
        rw [h2] at h
        simp only at h
        injection h with h
        subst h
        obtain ⟨he, ho⟩ := evenParts_oddParts_cons parts part
        have hr : r.length ≤ maxLength := hlen r (by simp)
        have hrs : ∀ x ∈ rs, x.length ≤ maxLength := fun x hx => hlen x (by simp [hx])
        unfold mapPart at h1
        by_cases hi : index % 2 = 1
        · have hi2 : (index + 1) % 2 ≠ 1 := by omega
          simp only [hi, beq_self_eq_true, if_true] at h1
          injection h1 with h1
          have h3 : mapPartWithin maxLength toUpperCase config part index = .ok r := by
            unfold mapPartWithin
            simp only [hi, beq_self_eq_true, if_true]
            exact (renderPlaceholderWithin_eq_ok _ _ _ _ _).mpr ⟨h1, hr⟩
          have ih2 := ih (index + 1) rs h2 hrs (by
            intro l hl
            rw [if_neg hi2] at hl
            exact hfin l (by rw [if_pos hi, ho]; exact hl))
          simp only [mapPartsWithin, h3, ih2]
        · have hi2 : (index + 1) % 2 = 1 := by omega
          have hb : (index % 2 == 1) = false := by simpa using hi
          simp only [hb, Bool.false_eq_true, if_false] at h1
          have h3 : mapPartWithin maxLength toUpperCase config part index = .ok r := by
            unfold mapPartWithin
            simp only [hb, Bool.false_eq_true, if_false]
            exact transformTextWithin_eq _ _ _ _ h1 hr
              (hfin part (by rw [if_neg hi, he]; simp))
          have ih2 := ih (index + 1) rs h2 hrs (by
            intro l hl
            rw [if_pos hi2] at hl
            exact hfin l (by rw [if_neg hi, he]; simp [hl]))
          simp only [mapPartsWithin, h3, ih2]

/-- The map returns when every part it treats as text has a pad length that is not
negative. -/
theorem mapParts_ok_of_pads (toUpperCase : JSString → JSString) (config : Config) :
    ∀ (parts : List JSString) (index : Nat),
      (∀ l ∈ (if index % 2 = 1 then oddParts parts else evenParts parts),
        0 ≤ padLengthOf (replaceAccents config.accentMap l).length config.expansion) →
      ∃ mapped, mapParts toUpperCase config index parts = .ok mapped := by
  intro parts
  induction parts with
  | nil => intro index _; exact ⟨[], rfl⟩
  | cons part parts ih =>
    intro index hpad
    obtain ⟨he, ho⟩ := evenParts_oddParts_cons parts part
    by_cases hi : index % 2 = 1
    · have hi2 : (index + 1) % 2 ≠ 1 := by omega
      obtain ⟨rs, hrs⟩ := ih (index + 1) (by
        intro l hl
        rw [if_neg hi2] at hl
        exact hpad l (by rw [if_pos hi, ho]; exact hl))
      simp only [mapParts, mapPart, hi, beq_self_eq_true, if_true, hrs]
      exact ⟨_, rfl⟩
    · have hi2 : (index + 1) % 2 = 1 := by omega
      have hb : (index % 2 == 1) = false := by simpa using hi
      obtain ⟨rs, hrs⟩ := ih (index + 1) (by
        intro l hl
        rw [if_pos hi2] at hl
        exact hpad l (by rw [if_neg hi, he]; simp [hl]))
      obtain ⟨P, T, -, hT⟩ := transformText_ok config part
        (hpad part (by rw [if_neg hi, he]; simp))
      simp only [mapParts, mapPart, hb, Bool.false_eq_true, if_false, hT, hrs]
      exact ⟨_, rfl⟩

theorem length_le_flatten_of_mem (r : JSString) :
    ∀ (mapped : List JSString), r ∈ mapped → r.length ≤ mapped.flatten.length := by
  intro mapped
  induction mapped with
  | nil => intro h; simp at h
  | cons a mapped ih =>
    intro h
    simp only [List.flatten_cons, List.length_append]
    rcases List.mem_cons.mp h with rfl | h
    · omega
    · have := ih h
      omega

/-- For a format that contains `key` and an expansion that is not negative, `pseudoLocalize`
returns a string when strings have no maximum length. -/
theorem pseudoLocalize_returns (toUpperCase : JSString → JSString) (str : JSString)
    (config : Config) (hkey : keyPlaceholder <:+: config.placeholderFormat)
    (hexp : 0 ≤ config.expansion) :
    ∃ out, pseudoLocalize toUpperCase str config = .ok out := by
  obtain ⟨R, hR, -⟩ := buildPlaceholderRegex_ok _ hkey
  obtain ⟨parts, hp⟩ := split_isSome str R
  obtain ⟨mapped, hm⟩ := mapParts_ok toUpperCase config hexp parts 0
  unfold pseudoLocalize
  simp only [hR, hp, hm]
  split <;> exact ⟨_, rfl⟩

/-- The literal segments of an input are the parts at the even indices of the split. -/
theorem literalSegments_eq (format str : JSString) (R : RegExp) (parts : List JSString)
    (hR : buildPlaceholderRegex format = .ok R) (hp : split str R = some parts) :
    literalSegments format str = evenParts parts := by
  unfold literalSegments
  simp only [hR, hp]

/-- When `pseudoLocalize` on the engine with a maximum string length returns a string, the
pattern text is within the maximum, `pseudoLocalize` returns the same string, which is within
the maximum, and every literal segment has a pad length that is a finite Number, not
negative, of a pad within the maximum. -/
theorem pseudoLocalizeWithin_ok (maxLength : Nat) (toUpperCase : JSString → JSString)
    (str : JSString) (config : Config)
    (hkey : keyPlaceholder <:+: config.placeholderFormat) (out : JSString)
    (h : pseudoLocalizeWithin maxLength toUpperCase str config = .ok out) :
    (patternText config.placeholderFormat).length ≤ maxLength ∧
    pseudoLocalize toUpperCase str config = .ok out ∧ out.length ≤ maxLength ∧
    ∀ l ∈ literalSegments config.placeholderFormat str,
      (((replaceAccents config.accentMap l).length : Int) *
        config.expansion).natAbs < infiniteFrom ∧
      0 ≤ padLengthOf (replaceAccents config.accentMap l).length config.expansion ∧
      (padLengthOf (replaceAccents config.accentMap l).length
        config.expansion).toNat * config.expansionChar.length ≤ maxLength := by
  unfold pseudoLocalizeWithin at h
  cases hb : buildPlaceholderRegexWithin maxLength config.placeholderFormat with
  | error e => rw [hb] at h; cases h
  | ok R =>
    obtain ⟨hpf, hR⟩ := (buildPlaceholderRegexWithin_eq_ok _ _ hkey R).mp hb
    rw [hb] at h
    simp only at h
    cases hp : split str R with
    | none => rw [hp] at h; cases h
    | some parts =>
      rw [hp] at h
      simp only at h
      cases hm : mapPartsWithin maxLength toUpperCase config 0 parts with
      | error e => rw [hm] at h; cases h
      | ok mapped =>
        rw [hm] at h
        simp only at h
        obtain ⟨hmap, -, hseg⟩ := mapPartsWithin_ok maxLength toUpperCase config parts 0
          mapped hm
        rw [if_neg (by decide), ← literalSegments_eq _ _ R parts hR hp] at hseg
        cases hf : fits maxLength mapped.flatten with
        | error e => rw [hf] at h; cases h
        | ok joined =>
          obtain ⟨hj, -⟩ := (fits_eq_ok _ _ _).mp hf
          subst hj
          rw [hf] at h
          simp only at h
          cases hw : fits maxLength
              (config.startMarker ++ mapped.flatten ++ config.endMarker) with
          | error e => rw [hw] at h; cases h
          | ok wrapped =>
            obtain ⟨hj, hwlen⟩ := (fits_eq_ok _ _ _).mp hw
            subst hj
            rw [hw] at h
            simp only at h
            have hval : pseudoLocalize toUpperCase str config =
                if config.rtl then
                  .ok ([8238] ++ (config.startMarker ++ mapped.flatten ++
                    config.endMarker) ++ [8236])
                else .ok (config.startMarker ++ mapped.flatten ++ config.endMarker) := by
              unfold pseudoLocalize
              simp only [hR, hp, hmap]
            cases hrtl : config.rtl with
            | false =>
              rw [hrtl] at h hval
              simp only [Bool.false_eq_true, if_false] at h hval
              injection h with h
              subst h
              exact ⟨hpf, hval, hwlen, hseg⟩
            | true =>
              rw [hrtl] at h hval
              simp only [if_true] at h hval
              obtain ⟨hj, hlen⟩ := (fits_eq_ok _ _ _).mp h
              subst hj
              exact ⟨hpf, hval, hlen, hseg⟩

/-- When `pseudoLocalize` returns a string within the maximum, the pattern text is within
the maximum and no product of a literal segment overflows, `pseudoLocalize` on the engine
with that maximum returns the same string. -/
theorem pseudoLocalizeWithin_eq (maxLength : Nat) (toUpperCase : JSString → JSString)
    (str : JSString) (config : Config)
    (hkey : keyPlaceholder <:+: config.placeholderFormat) (out : JSString)
    (hpf : (patternText config.placeholderFormat).length ≤ maxLength)
    (hfin : ∀ l ∈ literalSegments config.placeholderFormat str,
      (((replaceAccents config.accentMap l).length : Int) *
        config.expansion).natAbs < infiniteFrom)
    (h : pseudoLocalize toUpperCase str config = .ok out) (hlen : out.length ≤ maxLength) :
    pseudoLocalizeWithin maxLength toUpperCase str config = .ok out := by
  obtain ⟨R, hR, -⟩ := buildPlaceholderRegex_ok _ hkey
  obtain ⟨parts, hp⟩ := split_isSome str R
  have hb := (buildPlaceholderRegexWithin_eq_ok maxLength _ hkey R).mpr ⟨hpf, hR⟩
  rw [literalSegments_eq _ _ R parts hR hp] at hfin
  unfold pseudoLocalize at h
  simp only [hR, hp] at h
  cases hm : mapParts toUpperCase config 0 parts with
  | error e => rw [hm] at h; cases h
  | ok mapped =>
    rw [hm] at h
    simp only at h
    have hwrap : (config.startMarker ++ mapped.flatten ++ config.endMarker).length ≤
        maxLength ∧ (config.rtl = true → ([8238] ++ (config.startMarker ++ mapped.flatten ++
          config.endMarker) ++ [8236]).length ≤ maxLength) ∧
        out = if config.rtl then [8238] ++ (config.startMarker ++ mapped.flatten ++
          config.endMarker) ++ [8236]
          else config.startMarker ++ mapped.flatten ++ config.endMarker := by
      cases hrtl : config.rtl with
      | false =>
        rw [hrtl] at h
        simp only [Bool.false_eq_true, if_false] at h
        injection h with h
        subst h
        exact ⟨hlen, fun hc => Bool.noConfusion hc, by simp⟩
      | true =>
        rw [hrtl] at h
        simp only [if_true] at h
        injection h with h
        subst h
        refine ⟨?_, fun _ => hlen, by simp⟩
        simp only [List.length_append, List.length_cons, List.length_nil] at hlen ⊢
        omega
    obtain ⟨hw, hrtlw, hout⟩ := hwrap
    have hflat : mapped.flatten.length ≤ maxLength := by
      simp only [List.length_append] at hw
      omega
    have hparts : ∀ r ∈ mapped, r.length ≤ maxLength := fun r hr =>
      le_trans (length_le_flatten_of_mem r mapped hr) hflat
    have hmw := mapPartsWithin_eq maxLength toUpperCase config parts 0 mapped hm hparts
      (by rw [if_neg (by decide)]; exact hfin)
    unfold pseudoLocalizeWithin
    simp only [hb, hp, hmw, fits_ok _ _ hflat, fits_ok _ _ hw]
    cases hrtl : config.rtl with
    | false =>
      rw [hrtl] at hout
      simp only [Bool.false_eq_true, if_false] at hout ⊢
      rw [hout]
    | true =>
      rw [hrtl] at hout
      simp only [if_true] at hout ⊢
      rw [fits_ok _ _ (hrtlw hrtl), hout]

/-- For a format that contains `key`, `pseudoLocalize` returns a string, when strings have
no maximum length, if every literal segment has a pad length that is not negative. -/
theorem pseudoLocalize_ok_of_pads (toUpperCase : JSString → JSString) (str : JSString)
    (config : Config) (hkey : keyPlaceholder <:+: config.placeholderFormat)
    (hpad : ∀ l ∈ literalSegments config.placeholderFormat str,
      0 ≤ padLengthOf (replaceAccents config.accentMap l).length config.expansion) :
    ∃ out, pseudoLocalize toUpperCase str config = .ok out := by
  obtain ⟨R, hR, -⟩ := buildPlaceholderRegex_ok _ hkey
  obtain ⟨parts, hp⟩ := split_isSome str R
  rw [literalSegments_eq _ _ R parts hR hp] at hpad
  obtain ⟨mapped, hm⟩ := mapParts_ok_of_pads toUpperCase config parts 0
    (by rw [if_neg (by decide)]; exact hpad)
  unfold pseudoLocalize
  simp only [hR, hp, hm]
  split <;> exact ⟨_, rfl⟩

/-- C4, the claim as stated fails.  With expansion `-100` the pad length of the segment `abc`
is `-3` and `repeat` raises a `RangeError`, with or without a maximum string length.  With
the maximum string length `2 ^ 29 - 24 = 536870888` of V8 and expansion `60000000000`, the
pad length of the segment `a` is `600000000`, above the maximum, and `repeat` raises a
`RangeError`.  With expansion `2 ^ 1023 = (2 ^ 93) ^ 11` the product for the segment `ab` is
`2 ^ 1024`, which is `Infinity` as a Number, and `repeat` raises a `RangeError` even for
the empty `expansionChar`. -/
theorem pseudoLocalize_range_errors :
    pseudoLocalize asciiUpper (js "abc") { DEFAULT_OPTIONS with expansion := -100 } =
      .error JSError.RangeError ∧
    pseudoLocalizeWithin 536870888 asciiUpper (js "abc")
        { DEFAULT_OPTIONS with expansion := -100 } = .error JSError.RangeError ∧
    padLengthNumber (replaceAccents DEFAULT_ACCENT_MAP (js "a")).length 60000000000 =
      some 600000000 ∧
    pseudoLocalizeWithin 536870888 asciiUpper (js "a")
        { DEFAULT_OPTIONS with expansion := 60000000000 } = .error JSError.RangeError ∧
    padLengthNumber (replaceAccents DEFAULT_ACCENT_MAP (js "ab")).length
        (((2 ^ 93) ^ 11 : Nat) : Int) = none ∧
    pseudoLocalizeWithin 536870888 asciiUpper (js "ab")
        { DEFAULT_OPTIONS with
          expansion := (((2 ^ 93) ^ 11 : Nat) : Int), expansionChar := [] } =
      .error JSError.RangeError := by
  refine ⟨rfl, rfl, rfl, rfl, rfl, rfl⟩

/-- C4 (amended): on an engine whose strings hold at most `maxLength` code units (with
`maxLength * 100 < 2 ^ 53`, as in every engine), for every input and every configuration
whose format contains `key`, `pseudoLocalize` returns a string exactly when the pattern text
is within the maximum, every literal segment has a pad length
`Math.ceil((length * expansion) / 100)` that is not negative and is a finite Number (the
product does not overflow), and the result is within the maximum (and then so is every
string built on the way).  The string returned is the one that `pseudoLocalize` returns when
strings have no maximum length, and, unless `expansionChar` is empty, every product is below
`2 ^ 53`, so that the double arithmetic gives the exact pad length.  A pad length is not
negative for every expansion that is not negative (`padLengthOf_nonneg`). -/
theorem pseudoLocalizeWithin_total (maxLength : Nat) (toUpperCase : JSString → JSString)
    (str : JSString) (config : Config)
    (hkey : keyPlaceholder <:+: config.placeholderFormat)
    (hmax : maxLength * 100 < 2 ^ 53) :
    ((∃ out, pseudoLocalizeWithin maxLength toUpperCase str config = .ok out) ↔
      (patternText config.placeholderFormat).length ≤ maxLength ∧
      (∀ l ∈ literalSegments config.placeholderFormat str,
        0 ≤ padLengthOf (replaceAccents config.accentMap l).length config.expansion ∧
        (((replaceAccents config.accentMap l).length : Int) *
          config.expansion).natAbs < infiniteFrom) ∧
      ∀ out, pseudoLocalize toUpperCase str config = .ok out → out.length ≤ maxLength) ∧
    ∀ out, pseudoLocalizeWithin maxLength toUpperCase str config = .ok out →
      pseudoLocalize toUpperCase str config = .ok out ∧
      (config.expansionChar ≠ [] → ∀ l ∈ literalSegments config.placeholderFormat str,
        (((replaceAccents config.accentMap l).length : Int) *
          config.expansion).natAbs < 2 ^ 53) := by
  refine ⟨⟨?_, ?_⟩, ?_⟩
  · rintro ⟨out, h⟩
    obtain ⟨hpf, hu, hlen, hseg⟩ := pseudoLocalizeWithin_ok maxLength toUpperCase str config
      hkey out h
    refine ⟨hpf, fun l hl => ⟨(hseg l hl).2.1, (hseg l hl).1⟩, ?_⟩
    intro out2 h2
    rw [hu] at h2
    injection h2 with h2
    rw [← h2]
    exact hlen
  · rintro ⟨hpf, hseg, hout⟩
    obtain ⟨out, hu⟩ := pseudoLocalize_ok_of_pads toUpperCase str config hkey
      (fun l hl => (hseg l hl).1)
    exact ⟨out, pseudoLocalizeWithin_eq maxLength toUpperCase str config hkey out hpf
      (fun l hl => (hseg l hl).2) hu (hout out hu)⟩
  · intro out h
    obtain ⟨-, hu, -, hseg⟩ := pseudoLocalizeWithin_ok maxLength toUpperCase str config
      hkey out h
    refine ⟨hu, ?_⟩
    intro hc l hl
    obtain ⟨-, hpad, hfit⟩ := hseg l hl
    have hclen : 1 ≤ config.expansionChar.length := by
      cases hcs : config.expansionChar with
      | nil => exact absurd hcs hc
      | cons c cs => simp
    have hn : (padLengthOf (replaceAccents config.accentMap l).length
        config.expansion).toNat ≤ maxLength :=
      le_trans (Nat.le_mul_of_pos_right _ hclen) hfit
    unfold padLengthOf at hpad hn
    omega

/-- The totality of C4 at the default options, the input `Hello {{name}}!` and the maximum
string length `2 ^ 29 - 24` of V8: the pattern text, the pads and the result are within the
maximum, and `pseudoLocalize` returns. -/
theorem pseudoLocalizeWithin_total_witness :
    keyPlaceholder <:+: (DEFAULT_OPTIONS).placeholderFormat ∧
    536870888 * 100 < 2 ^ 53 ∧
    (patternText (DEFAULT_OPTIONS).placeholderFormat).length ≤ 536870888 ∧
    (∀ l ∈ literalSegments (DEFAULT_OPTIONS).placeholderFormat (js "Hello {{name}}!"),
      0 ≤ padLengthOf (replaceAccents (DEFAULT_OPTIONS).accentMap l).length
        (DEFAULT_OPTIONS).expansion ∧
      (((replaceAccents (DEFAULT_OPTIONS).accentMap l).length : Int) *
        (DEFAULT_OPTIONS).expansion).natAbs < infiniteFrom) ∧
    (∀ out, pseudoLocalize asciiUpper (js "Hello {{name}}!") DEFAULT_OPTIONS = .ok out →
      out.length ≤ 536870888) ∧
    ∃ out, pseudoLocalizeWithin 536870888 asciiUpper (js "Hello {{name}}!") DEFAULT_OPTIONS =
      .ok out :=
  have hout : ∀ out, pseudoLocalize asciiUpper (js "Hello {{name}}!") DEFAULT_OPTIONS =
      .ok out → out.length ≤ 536870888 := by
    intro out h
    have h2 : pseudoLocalize asciiUpper (js "Hello {{name}}!") DEFAULT_OPTIONS =
        .ok (js "⟦Ħëļļõēēē {{name}}ē!⟧") := rfl
    rw [h2] at h
    injection h with h
    rw [← h]
    decide
  ⟨key_occurs [123, 123] [125, 125], by decide, by decide, by decide, hout,
   (pseudoLocalizeWithin_total 536870888 asciiUpper (js "Hello {{name}}!") DEFAULT_OPTIONS
     (key_occurs [123, 123] [125, 125]) (by decide)).1.mpr ⟨by decide, by decide, hout⟩⟩

end PseudoL10n
